import Mathlib

/-!
# QuickRank `dpset` ingestion: a shallow embedding

Sources embedded here:
* `src/utils/learning/dpset.hpp` : classes `dp`, `dplist`, `dpset`
* `src/utils/listqsort.hpp`      : `listqsort`

Conventions.
* `unsigned int` values are natural numbers; every operation that can wrap is written
  with an explicit `% 2^32`.
* A `malloc`/`realloc` buffer is a list of slots; the slot `none` is memory that has never
  been written (indeterminate), `some x` is a slot that holds `x`.
* `float` is an arbitrary type `F`; the missing marker `undf` (NAN in the source) is an
  arbitrary element of it, passed explicitly.
* A write or read outside the allocated length, and a dereference of NULL, make the
  operation return `none`.
-/

namespace QuickRank

/-- Range of `unsigned int`. -/
def UINT_RANGE : Nat := 2 ^ 32

/-- A nullable pointer to a heap node; `none` is NULL. -/
abbrev Ptr := Option Nat

/-- Heap buffer of `F`; `none` is an indeterminate slot. -/
abbrev Buf (F : Type) := List (Option F)

/-- The libc call `malloc(sizeof(T)*n)`: `n` indeterminate slots. -/
def malloc {F : Type} (n : Nat) : Buf F := List.replicate n none

/-- The libc call `realloc(p, sizeof(T)*n)`: the first `min n old` slots are kept, new slots
are indeterminate. -/
def realloc {F : Type} (b : Buf F) (n : Nat) : Buf F :=
  b.take n ++ List.replicate (n - b.length) none

/-- The assignment `p[i] = x`; outside the allocation it is undefined. -/
def store {F : Type} (b : Buf F) (i : Nat) (x : F) : Option (Buf F) :=
  if i < b.length then some (b.set i (some x)) else none

/-! ## class dp -/

/-- The class `dp` (one record per input line), with `SKIP_DPDESCRIPTIONS` defined. -/
structure dp (F : Type) where
  maxsize : Nat
  maxfid : Nat
  nline : Nat
  label : F
  features : Buf F
  next : Ptr

/-- The constructor `dp::dp(label, nline, initsize)`. -/
def dp.new {F : Type} (undf : F) (label : F) (nline : Nat) (initsize : Nat) : dp F :=
  let maxsize := if initsize > 0 then initsize else 1
  { maxsize := maxsize
    maxfid := 0
    nline := nline
    label := label
    features := (malloc maxsize).set 0 (some undf)
    next := none }

/-- The loop `for(unsigned int i=lo; i<hi; features[i++]=undf);`. The first argument counts
the remaining iterations. -/
def fill_undf {F : Type} (undf : F) (hi : Nat) : Nat → Nat → Buf F → Option (Buf F)
  | 0, i, b => if i < hi then none else some b
  | k + 1, i, b =>
    if i < hi then
      match store b i undf with
      | none => none
      | some b1 => fill_undf undf hi k (i + 1) b1
    else some b

/-- The method `dp::ins_feature(fid, fval)`. -/
def dp.ins_feature {F : Type} (undf : F) (d : dp F) (fid : Nat) (fval : F) : Option (dp F) :=
  let d1 : dp F :=
    if fid ≥ d.maxsize then
      { d with maxsize := (2 * fid + 1) % UINT_RANGE
               features := realloc d.features ((2 * fid + 1) % UINT_RANGE) }
    else d
  let lo := (d1.maxfid + 1) % UINT_RANGE
  match fill_undf undf fid (fid - lo) lo d1.features with
  | none => none
  | some b =>
    match store b fid fval with
    | none => none
    | some b1 => some { d1 with maxfid := if fid > d1.maxfid then fid else d1.maxfid
                                features := b1 }

/-- The method `dp::get_resizedfeatures(size)`: the record after the call and the returned
pointer (the record's own buffer). -/
def dp.get_resizedfeatures {F : Type} (undf : F) (d : dp F) (size : Nat) :
    Option (dp F × Buf F) :=
  let b0 : Buf F :=
    if size ≥ d.maxsize ∧ size ≠ 0 then realloc d.features size else d.features
  let lo := (d.maxfid + 1) % UINT_RANGE
  match fill_undf undf size (size - lo) lo b0 with
  | none => none
  | some b => some ({ d with features := b }, b)

/-- The method `dp::get_label()`. -/
def dp.get_label {F : Type} (d : dp F) : F := d.label

/-- A sequence of `ins_feature` calls, in order. -/
def dp.ins_features {F : Type} (undf : F) : dp F → List (Nat × F) → Option (dp F)
  | d, [] => some d
  | d, (fid, fval) :: rest =>
    match d.ins_feature undf fid fval with
    | none => none
    | some d1 => dp.ins_features undf d1 rest

/-- The value the calls `feats` supply for id `i`: that of the last call for `i`, the
missing marker if there is none. -/
def supplied {F : Type} (undf : F) (feats : List (Nat × F)) (i : Nat) : F :=
  match feats.reverse.find? (fun p => p.1 == i) with
  | some p => p.2
  | none => undf

/-- The largest id among the calls `feats`, 0 if there is none: the value of `maxfid` after
them. -/
def maxid {F : Type} (feats : List (Nat × F)) : Nat :=
  feats.foldl (fun m p => if p.1 > m then p.1 else m) 0

/-- Representation invariant of a record: the maximum id is inside the tracked capacity, the
tracked capacity is inside the allocation and fits an `unsigned int`, and the slots up to the
maximum id have been written. -/
structure dp.Inv {F : Type} (d : dp F) : Prop where
  maxfid_lt : d.maxfid < d.maxsize
  maxsize_le : d.maxsize ≤ d.features.length
  maxsize_lt : d.maxsize < UINT_RANGE
  written : ∀ j, j ≤ d.maxfid → ∃ x, d.features[j]? = some (some x)

/-! ## listqsort -/

/-- The local variables `gtfront`, `gtback`, `ltfront`, `ltback` of `listqsort`, together with
the `next` fields of the nodes. A `T **` variable holds the address of the local front pointer
(`none`) or of the `next` field of a node (`some a`). -/
structure QState where
  next : Nat → Ptr
  gtfront : Ptr
  gtback : Option Nat
  ltfront : Ptr
  ltback : Option Nat

/-- The assignment `*gtback = v`. -/
def QState.store_gt (s : QState) (v : Ptr) : QState :=
  match s.gtback with
  | none => { s with gtfront := v }
  | some a => { s with next := Function.update s.next a v }

/-- The assignment `*ltback = v`. -/
def QState.store_lt (s : QState) (v : Ptr) : QState :=
  match s.ltback with
  | none => { s with ltfront := v }
  | some a => { s with next := Function.update s.next a v }

/-- The value of `*gtback`. -/
def QState.load_gt (s : QState) : Ptr :=
  match s.gtback with
  | none => s.gtfront
  | some a => s.next a

/-- The value of `*ltback`. -/
def QState.load_lt (s : QState) : Ptr :=
  match s.ltback with
  | none => s.ltfront
  | some a => s.next a

/-- The loop `for(T *current=begin->next; current!=end; current=current->next)` of
`listqsort`; `gt c b` is `*c > *b` on the nodes at addresses `c` and `b`. The first `Nat`
bounds the number of loop tests. -/
def partition_loop (gt : Nat → Nat → Bool) (begin_ : Nat) (end_ : Ptr) :
    Nat → Ptr → QState → Option QState
  | 0, _, _ => none
  | fuel + 1, current, s =>
    if current = end_ then some s
    else
      match current with
      | none => none
      | some c =>
        let s1 : QState :=
          if gt c begin_ then { s.store_gt (some c) with gtback := some c }
          else { s.store_lt (some c) with ltback := some c }
        partition_loop gt begin_ end_ fuel (s1.next c) s1

/-- The template `listqsort<T>(T *&begin, T *end)`: from the `next` fields and the two
arguments to the `next` fields and the value of `begin` after the call. The first `Nat` bounds
the recursion depth and the loop tests of each level. -/
def listqsort (gt : Nat → Nat → Bool) :
    Nat → (Nat → Ptr) → Ptr → Ptr → Option ((Nat → Ptr) × Ptr)
  | 0, _, _, _ => none
  | fuel + 1, next, begin_, end_ =>
    if begin_ = end_ then some (next, begin_)
    else
      match begin_ with
      | none => none
      | some b =>
        match partition_loop gt b end_ (fuel + 1) (next b)
            { next := next, gtfront := none, gtback := none, ltfront := none, ltback := none } with
        | none => none
        | some s =>
          let s1 := s.store_gt end_
          let s2 := s1.store_lt (some b)
          match listqsort gt fuel s2.next s2.ltfront s2.load_lt with
          | none => none
          | some (next1, ltfront1) =>
            let s3 : QState := { s2 with next := next1, ltfront := ltfront1 }
            match listqsort gt fuel s3.next s3.gtfront s3.load_gt with
            | none => none
            | some (next2, gtfront2) => some (Function.update next2 b gtfront2, ltfront1)

/-- List segment `[p, e)`: following `next` from `p` visits the nodes `l`, in this order, and
then arrives at `e`. -/
def Seg (next : Nat → Ptr) : Ptr → List Nat → Ptr → Prop
  | p, [], e => p = e
  | p, a :: l, e => p = some a ∧ Seg next (next a) l e

instance Seg.decidable (next : Nat → Ptr) : ∀ (p : Ptr) (l : List Nat) (e : Ptr),
    Decidable (Seg next p l e)
  | p, [], e => inferInstanceAs (Decidable (p = e))
  | p, a :: l, e =>
    have := Seg.decidable next (next a) l e
    inferInstanceAs (Decidable (p = some a ∧ Seg next (next a) l e))

/-- Reference quicksort with the head as pivot: the elements of the rest that are not greater
than the pivot, sorted, then the pivot, then the greater ones, sorted. The `Nat` bounds the
recursion depth. -/
def qsort_ref {α : Type} (gt : α → α → Bool) : Nat → List α → List α
  | 0, _ => []
  | _ + 1, [] => []
  | fuel + 1, p :: rest =>
    qsort_ref gt fuel (rest.filter (fun x => !gt x p)) ++
      p :: qsort_ref gt fuel (rest.filter (fun x => gt x p))

/-- Reference quicksort of a list. -/
def quicksort {α : Type} (gt : α → α → Bool) (l : List α) : List α :=
  qsort_ref gt l.length l

/-- A chain under construction by the partition loop: `front` leads through the nodes `l`, and
`back` is the address of the field that is still to be written, the front variable when `l`
is empty and the `next` field of the last node of `l` otherwise. -/
def OpenSeg (next : Nat → Ptr) (front : Ptr) (back : Option Nat) (l : List Nat) : Prop :=
  (l = [] ∧ back = none) ∨
    ∃ l0 a, l = l0 ++ [a] ∧ back = some a ∧ Seg next front l0 (some a)

/-- The `next` fields after the assignment `*back = v`. -/
def next_after (next : Nat → Ptr) (back : Option Nat) (v : Ptr) : Nat → Ptr :=
  match back with
  | none => next
  | some a => Function.update next a v

/-- The front variable after the assignment `*back = v`. -/
def front_after (front : Ptr) (back : Option Nat) (v : Ptr) : Ptr :=
  match back with
  | none => v
  | some _ => front

/-! ## class dplist -/

/-- The heap of `dp` objects, by address. -/
abbrev Heap (F : Type) := Nat → dp F

/-- The `next` fields of a heap of records. -/
def Heap.nexts {F : Type} (h : Heap F) : Nat → Ptr := fun a => (h a).next

/-- The friend `operator> (dp &left, dp &right)` on the records at two addresses. -/
def dp_gt {F : Type} (h : Heap F) (left right : Nat) : Bool :=
  decide ((h left).nline > (h right).nline)

/-- The class `dplist`: the records that have the same id. -/
structure dplist where
  head : Ptr
  size : Nat
  rid : List Char

/-- The constructor `dplist::dplist(key)`. -/
def dplist.new (key : List Char) : dplist := { head := none, size := 0, rid := key }

/-- The method `dplist::push(x)`. -/
def dplist.push {F : Type} (h : Heap F) (l : dplist) (x : Nat) : Heap F × dplist :=
  (Function.update h x { h x with next := l.head },
   { l with head := some x, size := (l.size + 1) % UINT_RANGE })

/-- The method `dplist::front()`. -/
def dplist.front (l : dplist) : Ptr := l.head

/-- The method `dplist::pop()`; the record that was the head is deleted. -/
def dplist.pop {F : Type} (h : Heap F) (l : dplist) : Option dplist :=
  match l.head with
  | none => none
  | some a => some { l with head := (h a).next }

/-- The method `dplist::get_size()`. -/
def dplist.get_size (l : dplist) : Nat := l.size

/-- The method `dplist::get_rid()`. -/
def dplist.get_rid (l : dplist) : List Char := l.rid

/-- The method `dplist::sort_bynline()`, that is `listqsort<dp>(head)` with `end = NULL`: only
the `next` fields of the records and `head` change. -/
def dplist.sort_bynline {F : Type} (fuel : Nat) (h : Heap F) (l : dplist) :
    Option (Heap F × dplist) :=
  match listqsort (dp_gt h) fuel h.nexts l.head none with
  | none => none
  | some (next1, head1) =>
    some (fun a => { h a with next := next1 a }, { l with head := head1 })

/-! ## Collaborators of `dpset` that are not part of the embedded sources -/

/-- Modelled from the spec: the class `bitarray` of `utils/bitarray.hpp`, the "per-worker
membership set over observed feature indices, mergeable", kept as its bits. -/
abbrev bitarray := List Bool

/-- Modelled from the spec: membership of a feature index in a `bitarray`. -/
def bitarray.is_up (b : bitarray) (i : Nat) : Bool := b.getD i false

/-- Modelled from the spec: `bitarray::set_up(i)`, the index `i` becomes a member. -/
def bitarray.set_up (b : bitarray) (i : Nat) : bitarray :=
  (b ++ List.replicate (i + 1 - b.length) false).set i true

/-- Modelled from the spec: the `operator|=` of `bitarray`, the union of two sets. -/
def bitarray.or (a b : bitarray) : bitarray :=
  (List.range (max a.length b.length)).map (fun i => a.is_up i || b.is_up i)

/-- Modelled from the spec: `bitarray::get_uparray`, the members "iterated in ascending id
order". -/
def bitarray.get_uparray (b : bitarray) : List Nat :=
  (List.range b.length).filter (fun i => b.is_up i)

/-- Modelled from the spec: `bitarray::get_upcounter()`, the number of members. -/
def bitarray.get_upcounter (b : bitarray) : Nat := b.get_uparray.length

/-- Modelled from the spec: the class `trie<dplist>` of `utils/trie.hpp`, the structure that
"maps a string group key to an ordered collection" of records: the keys in discovery order
and the list stored for each key. -/
structure trie where
  keys : List (List Char)
  leaf : List Char → dplist

/-- Modelled from the spec: the empty `trie<dplist>`. -/
def trie.empty : trie := { keys := [], leaf := dplist.new }

/-- Modelled from the spec: `trie<dplist>::insert(key)`, which "returns the existing group for
`key` or creates and returns a new one"; the group returned is `leaf key` of the result. -/
def trie.insert (t : trie) (key : List Char) : trie :=
  if key ∈ t.keys then t
  else { keys := t.keys ++ [key], leaf := Function.update t.leaf key (dplist.new key) }

/-- Modelled from the spec: `trie<dplist>::get_leaves()`, which "returns all groups, order
implementation-defined but stable for one build (discovery order is acceptable)". -/
def trie.get_leaves (t : trie) : List dplist := t.keys.map t.leaf

/-- Modelled from the spec: `trie<dplist>::get_nleaves()`, the number of groups. -/
def trie.get_nleaves (t : trie) : Nat := t.keys.length

/-- Modelled from the spec: `transpose(features, tmpfeatures, ndps, nfeatures)` of
`utils/transpose.hpp`: "output column f, row r = input row r, column f, for all f in
[0, globalWidth), all r in [0, total)". Reading a row pointer that was never assigned, or a
slot outside a row, is undefined. -/
def transpose {F : Type} (tmp : Buf (Buf F)) (nrows ncols : Nat) : Option (List (Buf F)) :=
  if (List.range nrows).all (fun r =>
      match tmp[r]? with
      | some (some row) => decide (ncols ≤ row.length)
      | _ => false) then
    some ((List.range ncols).map (fun f =>
      (List.range nrows).map (fun r => ((tmp.getD r none).getD []).getD f none)))
  else none

/-! ## class dpset: state of the reading loop -/

/-- The variables of the constructor `dpset::dpset` that the reading loop shares: the heap of
records with the number of `new dp` calls so far, the leaves of `rltrie`, the per-thread
arrays `th_ndps` and `th_usedfid` (their length is `NPROCESSORS`), `maxfid` and
`linecounter`. -/
structure Ingest (F : Type) where
  heap : Heap F
  nalloc : Nat
  rltrie : trie
  th_ndps : List Nat
  th_usedfid : List bitarray
  maxfid : Nat
  linecounter : Nat

/-- The state before the loop: `maxfid = INIT_NOFEATURES-1`, `linecounter = 0`, zeroed
counters, empty sets and an empty trie. The content of unallocated heap cells is immaterial. -/
def Ingest.init {F : Type} (undf : F) (NPROCESSORS : Nat) : Ingest F :=
  { heap := fun _ => dp.new undf undf 0 1
    nalloc := 0
    rltrie := trie.empty
    th_ndps := List.replicate NPROCESSORS 0
    th_usedfid := List.replicate NPROCESSORS []
    maxfid := 50 - 1
    linecounter := 0 }

/-- One accepted line, as the thread `ith` that parsed it sees it: the label, the line number,
the capacity hint `maxfid+1` read when the record was created, the key and the feature pairs
in the order of the line. -/
structure Rec (F : Type) where
  ith : Nat
  nline : Nat
  label : F
  initsize : Nat
  key : List Char
  feats : List (Nat × F)

/-- The end of an iteration of the reading loop for an accepted line parsed by thread `ith`:
the record `d` is allocated, `rltrie.insert(key)->push(newdp)` and `++th_ndps[ith]` are done;
`used` and `maxfid` are `th_usedfid[ith]` and `maxfid` after the feature pairs of the line. -/
def Ingest.store {F : Type} (st : Ingest F) (ith : Nat) (key : List Char) (d : dp F)
    (used : bitarray) (maxfid : Nat) : Option (Ingest F) :=
  match st.th_ndps[ith]? with
  | none => none
  | some n =>
    if ith < st.th_usedfid.length then
      let a := st.nalloc
      let t1 := st.rltrie.insert key
      let pushed := (t1.leaf key).push (Function.update st.heap a d) a
      some { heap := pushed.1
             nalloc := a + 1
             rltrie := { t1 with leaf := Function.update t1.leaf key pushed.2 }
             th_ndps := st.th_ndps.set ith ((n + 1) % UINT_RANGE)
             th_usedfid := st.th_usedfid.set ith used
             maxfid := maxfid
             linecounter := st.linecounter }
    else none

/-- The effect of one accepted line on the shared state: `new dp(label, nline, maxfid+1)`, an
`ins_feature`, `th_usedfid[ith].set_up` and `maxfid` update per pair, then
`rltrie.insert(key)->push(newdp)` and `++th_ndps[ith]`. -/
def Ingest.add {F : Type} (undf : F) (st : Ingest F) (r : Rec F) : Option (Ingest F) :=
  match dp.ins_features undf (dp.new undf r.label r.nline r.initsize) r.feats,
      st.th_usedfid[r.ith]? with
  | some d, some used =>
    st.store r.ith r.key d (r.feats.foldl (fun b p => bitarray.set_up b p.1) used)
      (r.feats.foldl (fun m p => if p.1 > m then p.1 else m) st.maxfid)
  | _, _ => none

/-- The accepted lines of a run, in the order in which they enter the critical section of
`rltrie.insert(key)->push(newdp)`. -/
def Ingest.add_all {F : Type} (undf : F) : Ingest F → List (Rec F) → Option (Ingest F)
  | st, [] => some st
  | st, r :: rest =>
    match st.add undf r with
    | none => none
    | some st1 => Ingest.add_all undf st1 rest

/-! ## class dpset: construction of the matrix -/

/-- The struct `rnklst`; `labels` is the view of the label array from the pointer on. -/
structure rnklst (F : Type) where
  size : Nat
  labels : Buf F
  id : List Char

/-- The data members of `dpset` (with `SKIP_DPDESCRIPTIONS` defined). -/
structure dpset (F : Type) where
  nrankedlists : Nat
  ndps : Nat
  nfeatures : Nat
  maxrlsize : Nat
  rloffsets : List Nat
  labels : Buf F
  features : List (Buf F)
  rlids : List (List Char)

/-- The loop that merges the thread counters, `th_ndps[0] += th_ndps[i]` for
`i = 1 .. NPROCESSORS-1`. -/
def merge_ndps : Nat → List Nat → Nat
  | n, [] => n
  | n, m :: rest => merge_ndps ((n + m) % UINT_RANGE) rest

/-- The loop that merges the thread sets, `th_usedfid[0] |= th_usedfid[i]` for
`i = 1 .. NPROCESSORS-1`. -/
def merge_usedfid : bitarray → List bitarray → bitarray
  | b, [] => b
  | b, c :: rest => merge_usedfid (b.or c) rest

/-- The loop `for(unsigned int i=0, sum=0; i<nrankedlists; ++i)` that fills `rloffsets[i]`
and `maxrlsize`: the offsets written and the final `maxrlsize`. -/
def prefix_sizes : List dplist → Nat → Nat → List Nat × Nat
  | [], _, m => ([], m)
  | l :: rest, sum, m =>
    let rlsize := l.get_size
    let r := prefix_sizes rest ((sum + rlsize) % UINT_RANGE) (if rlsize > m then rlsize else m)
    (sum :: r.1, r.2)

/-- The arrays written while the matrix is populated in dp-major order. -/
structure Fill (F : Type) where
  heap : Heap F
  tmpfeatures : Buf (Buf F)
  labels : Buf F

/-- The loop `for(unsigned int j=rloffsets[i]; j<rloffsets[i+1]; ++j)` on the list `l`: each
step takes `front()`, stores its resized features and its label at row `j`, and pops it. The
first `Nat` counts the remaining iterations. -/
def fill_rows {F : Type} (undf : F) (nfeatures hi : Nat) :
    Nat → Nat → dplist → Fill F → Option (dplist × Fill F)
  | 0, j, l, s => if j < hi then none else some (l, s)
  | k + 1, j, l, s =>
    if j < hi then
      match l.front with
      | none => none
      | some current =>
        match (s.heap current).get_resizedfeatures undf nfeatures with
        | none => none
        | some (d1, b) =>
          match store s.tmpfeatures j b, store s.labels j d1.get_label with
          | some t1, some l1 =>
            let heap1 := Function.update s.heap current d1
            match l.pop heap1 with
            | none => none
            | some l2 =>
              fill_rows undf nfeatures hi k ((j + 1) % UINT_RANGE) l2
                { heap := heap1, tmpfeatures := t1, labels := l1 }
          | _, _ => none
    else some (l, s)

/-- The loop `for(unsigned int i=0; i<nrankedlists; ++i)` over `rlarray`, from list `i` on:
`rlids[i]` is set, the list is sorted by line number and drained into the rows
`rloffsets[i] .. rloffsets[i+1]-1`. The result has the ids written and the arrays. -/
def fill_lists {F : Type} (undf : F) (nfeatures fuel : Nat) (rloffsets : List Nat) :
    Nat → List dplist → Fill F → Option (List (List Char) × Fill F)
  | _, [], s => some ([], s)
  | i, l :: rest, s =>
    match l.sort_bynline fuel s.heap with
    | none => none
    | some (h1, l1) =>
      match rloffsets[i]?, rloffsets[i + 1]? with
      | some lo, some hi =>
        match fill_rows undf nfeatures hi (hi - lo) lo l1 { s with heap := h1 } with
        | none => none
        | some (_, s2) =>
          match fill_lists undf nfeatures fuel rloffsets (i + 1) rest s2 with
          | none => none
          | some (ids, s3) => some (l.get_rid :: ids, s3)
      | _, _ => none

/-- The column pointers during compaction, with the indices whose column was passed to
`free`, in order. -/
structure Columns (F : Type) where
  features : List (Buf F)
  freed : List Nat

/-- The loop `while(j!=usedfid[i]) free(features[j++]);` with `target = usedfid[i]`: the final
`j` and the columns. The first `Nat` bounds the number of loop tests. -/
def skip_unused {F : Type} (target : Nat) : Nat → Nat → Columns F → Option (Nat × Columns F)
  | 0, _, _ => none
  | k + 1, j, c =>
    if j = target then some (j, c)
    else if j < c.features.length then
      skip_unused target k ((j + 1) % UINT_RANGE) { c with freed := c.freed ++ [j] }
    else none

/-- The loop `for(unsigned int i=0, j=0; i<nfeatureids; ++i, ++j)` that compacts the feature
matrix, from the current `i`, `j` and the entries `usedfid[i], usedfid[i+1], ...`. -/
def compact {F : Type} : List Nat → Nat → Nat → Columns F → Option (Columns F)
  | [], _, _, c => some c
  | u :: us, i, j, c =>
    match skip_unused u (c.features.length + 1) j c with
    | none => none
    | some (j1, c1) =>
      match c1.features[j1]? with
      | none => none
      | some col =>
        if i < c1.features.length then
          compact us (i + 1) ((j1 + 1) % UINT_RANGE)
            { c1 with features := c1.features.set i col }
        else none

/-- The part of the constructor `dpset::dpset` after the reading loop: merge of the thread
counters and sets, counters, `rloffsets`, row fill, transposition and compaction. -/
def dpset.build {F : Type} (undf : F) (st : Ingest F) : Option (dpset F) :=
  match st.th_ndps, st.th_usedfid with
  | n0 :: ns, u0 :: us =>
    let rlarray := st.rltrie.get_leaves
    let used := merge_usedfid u0 us
    let nfeatureids := used.get_upcounter
    let usedfid := used.get_uparray
    let ndps := merge_ndps n0 ns
    let nrankedlists := st.rltrie.get_nleaves
    match usedfid[(nfeatureids + UINT_RANGE - 1) % UINT_RANGE]? with
    | none => none
    | some last =>
      let nfeatures := (last + 1) % UINT_RANGE
      let sizes := prefix_sizes rlarray 0 0
      let rloffsets := sizes.1 ++ [ndps]
      match fill_lists undf nfeatures (st.nalloc + 1) rloffsets 0 rlarray
          { heap := st.heap, tmpfeatures := malloc ndps, labels := malloc ndps } with
      | none => none
      | some (rlids, filled) =>
        match transpose filled.tmpfeatures ndps nfeatures with
        | none => none
        | some features =>
          match compact usedfid 0 0 { features := features, freed := [] } with
          | none => none
          | some c =>
            some { nrankedlists := nrankedlists
                   ndps := ndps
                   nfeatures := nfeatureids
                   maxrlsize := sizes.2
                   rloffsets := rloffsets
                   labels := filled.labels
                   features := c.features.take nfeatureids
                   rlids := rlids }
  | _, _ => none

/-- The method `dpset::get_nfeatures()`. -/
def dpset.get_nfeatures {F : Type} (ds : dpset F) : Nat := ds.nfeatures

/-- The method `dpset::get_ndatapoints()`. -/
def dpset.get_ndatapoints {F : Type} (ds : dpset F) : Nat := ds.ndps

/-- The method `dpset::get_nrankedlists()`. -/
def dpset.get_nrankedlists {F : Type} (ds : dpset F) : Nat := ds.nrankedlists

/-- The method `dpset::get_ranklist(i)`. -/
def dpset.get_ranklist {F : Type} (ds : dpset F) (i : Nat) : Option (rnklst F) :=
  match ds.rloffsets[(i + 1) % UINT_RANGE]?, ds.rloffsets[i]?, ds.rlids[i]? with
  | some hi, some lo, some id =>
    some { size := (hi + UINT_RANGE - lo) % UINT_RANGE, labels := ds.labels.drop lo, id := id }
  | _, _, _ => none

/-- The method `dpset::get_fvector(i)`. -/
def dpset.get_fvector {F : Type} (ds : dpset F) (i : Nat) : Option (Buf F) := ds.features[i]?

/-- The method `dpset::get_label(i)`. -/
def dpset.get_label {F : Type} (ds : dpset F) (i : Nat) : Option F :=
  match ds.labels[i]? with
  | some (some x) => some x
  | _ => none

/-! ## Description of the constructed dataset in terms of the accepted lines -/

/-- The distinct keys of a sequence of keys, in order of first appearance. -/
def discovered (ks : List (List Char)) : List (List Char) :=
  ks.foldl (fun acc k => if k ∈ acc then acc else acc ++ [k]) []

/-- The records pushed with key `k`, the last pushed first: the order of the linked list
before it is sorted. -/
def group_recs {F : Type} (recs : List (Rec F)) (k : List Char) : List (Rec F) :=
  (recs.filter (fun r => r.key == k)).reverse

/-- The order `operator>` on the records of two lines. -/
def rec_gt {F : Type} (r1 r2 : Rec F) : Bool := decide (r1.nline > r2.nline)

/-- The records in row order: the groups in discovery order, each group in the order the
list sort leaves it in. -/
def row_recs {F : Type} (recs : List (Rec F)) : List (Rec F) :=
  (discovered (recs.map (fun r => r.key))).flatMap
    (fun k => quicksort rec_gt (group_recs recs k))

/-- The feature id `u` occurs in a pair of some accepted line. -/
def observed {F : Type} (recs : List (Rec F)) (u : Nat) : Prop :=
  ∃ r ∈ recs, ∃ p ∈ r.feats, p.1 = u

/-- The heap addresses of the records pushed with key `k`, the last pushed first; the record
of the `a`-th accepted line is at address `a`. -/
def addrs {F : Type} (recs : List (Rec F)) (k : List Char) : List Nat :=
  ((List.range recs.length).filter (fun a =>
    match recs[a]? with
    | some r => r.key == k
    | none => false)).reverse

/-- The heap record `d` holds the line `r`: it satisfies the representation invariant, has
the line number and label of `r`, and its slots up to the maximum id hold what `r` supplies,
which is nothing beyond the maximum id. -/
structure Holds {F : Type} (undf : F) (d : dp F) (r : Rec F) : Prop where
  inv : d.Inv
  nline_eq : d.nline = r.nline
  label_eq : d.label = r.label
  slots : ∀ i, i ≤ d.maxfid → d.features[i]? = some (some (supplied undf r.feats i))
  beyond : ∀ i, d.maxfid < i → supplied undf r.feats i = undf

/-- An accepted line whose thread index is below `NPROCESSORS`, whose capacity hint is an
`unsigned int` and whose feature ids are below 2^31. -/
structure Rec.Valid {F : Type} (NPROCESSORS : Nat) (r : Rec F) : Prop where
  ith_lt : r.ith < NPROCESSORS
  initsize_lt : r.initsize < UINT_RANGE
  fid_lt : ∀ p ∈ r.feats, p.1 < 2 ^ 31

/-- The state of the reading loop after the accepted lines `recs` (in push order): what the
trie, the heap, the thread counters and the thread sets contain. -/
structure IngestInv {F : Type} (undf : F) (NPROCESSORS : Nat) (st : Ingest F)
    (recs : List (Rec F)) : Prop where
  nalloc_eq : st.nalloc = recs.length
  keys_eq : st.rltrie.keys = discovered (recs.map (fun r => r.key))
  rid_eq : ∀ k, (st.rltrie.leaf k).rid = k
  seg : ∀ k, Seg st.heap.nexts (st.rltrie.leaf k).head (addrs recs k) none
  size_eq : ∀ k, (st.rltrie.leaf k).size = (addrs recs k).length % UINT_RANGE
  holds : ∀ a r, recs[a]? = some r → Holds undf (st.heap a) r
  ndps_len : st.th_ndps.length = NPROCESSORS
  ndps_lt : ∀ n ∈ st.th_ndps, n < UINT_RANGE
  ndps_sum : st.th_ndps.sum % UINT_RANGE = recs.length % UINT_RANGE
  used_len : st.th_usedfid.length = NPROCESSORS
  used_iff : ∀ j, (∃ u ∈ st.th_usedfid, bitarray.is_up u j = true) ↔ observed recs j

/-- The buffer `b` is the matrix row of the line `r` at width `w`: it has at least `w` slots
and slot `i < w` holds what `r` supplies for id `i`. -/
def IsRow {F : Type} (undf : F) (w : Nat) (r : Rec F) (b : Buf F) : Prop :=
  w ≤ b.length ∧ ∀ i, i < w → b[i]? = some (some (supplied undf r.feats i))

/-- The order `operator>` on the records behind two heap cells, an empty cell counting as
line 0. -/
def opt_gt {F : Type} (o1 o2 : Option (Rec F)) : Bool :=
  decide ((match o1 with | some r => r.nline | none => 0) >
    (match o2 with | some r => r.nline | none => 0))

/-- The heap addresses in row order: the groups in discovery order, each group in the order
the list sort leaves it in, for the line numbers `nl` of the heap cells. -/
def row_addrs {F : Type} (recs : List (Rec F)) (nl : Nat → Nat) : List Nat :=
  (discovered (recs.map (fun r => r.key))).flatMap
    (fun k => quicksort (fun a b => decide (nl a > nl b)) (addrs recs k))

/-- The record at heap address `a`; beyond the lines read it is a record without features. -/
def rec_at {F : Type} (undf : F) (recs : List (Rec F)) (a : Nat) : Rec F :=
  match recs[a]? with
  | some r => r
  | none => { ith := 0, nline := 0, label := undf, initsize := 0, key := [], feats := [] }

/-- The group offset table for the accepted lines: entry `t` is the number of records of the
first `t` groups, for `t` from 0 to the number of groups. -/
def offsets_of {F : Type} (recs : List (Rec F)) : List Nat :=
  (List.range ((discovered (recs.map (fun r => r.key))).length + 1)).map (fun t =>
    (((discovered (recs.map (fun r => r.key))).take t).map
      (fun k => (group_recs recs k).length)).sum)

/-- The accepted lines of the input `1.0 q1 1:0.5 3:2.0` / `0.0 q1 2:1.0`, read by two
threads; the floats are scaled by ten and the missing marker is `-1`. -/
def scenario1 : List (Rec Int) :=
  [ { ith := 0, nline := 1, label := 10, initsize := 50, key := ['q', '1'],
      feats := [(1, 5), (3, 20)] },
    { ith := 1, nline := 2, label := 0, initsize := 50, key := ['q', '1'],
      feats := [(2, 10)] } ]

/-! ## class dpset: the reading loop -/

/-- How a run ends without a dataset: a call of `exit(code)`, or undefined behaviour. -/
inductive Stop where
  | exit (code : Nat)
  | undefined
  deriving DecidableEq

/-- The libc conversions the loop calls: `atof(token)`, and
`sscanf(token, "%u:%f", &fid, &fval)`, given as the pair read when the call returns 2. -/
structure Libc (F : Type) where
  atof : List Char → F
  sscanf_pair : List Char → Option (Nat × F)

/-- Modelled from the spec: the macro `ISSPC` of `utils/strutils.hpp`, the test for a space
character ("skip lines whose first non-space character is a comment marker"). -/
def ISSPC (c : Char) : Bool :=
  c == ' ' || c == '\t' || c == '\n' || c == '\x0b' || c == '\x0c' || c == '\r'

/-- Modelled from the spec: the macro `ISEMPTY` of `utils/strutils.hpp`, the test for an
absent field: a null token or a token without characters. -/
def ISEMPTY (token : Option (List Char)) : Bool :=
  match token with
  | none => true
  | some t => t.isEmpty

/-- Modelled from the spec: `read_token(str, exitch)` of `utils/strutils.hpp`, the "string
tokenizing" of the fields of a line: leading space characters are skipped; at the end of the
string the token is null; a token that starts with `exitch` is the trailing annotation and
extends to the end of the line; otherwise the token is the run of characters up to the next
space character and the string continues behind that character. The result is the token and
the string after the call. -/
def read_token (str : List Char) (exitch : Option Char) : Option (List Char) × List Char :=
  match str.dropWhile ISSPC with
  | [] => (none, [])
  | c :: cs =>
    if exitch = some c then (some (c :: cs), [])
    else
      (some ((c :: cs).takeWhile (fun x => !ISSPC x)),
        ((c :: cs).dropWhile (fun x => !ISSPC x)).drop 1)

/-- The loop `while(!ISEMPTY(token=read_token(pch,'#')))` over the feature pairs of a line:
the record, `th_usedfid[ith]` and `maxfid` after it. A token that starts with `#` ends the
line (`*pch = '\0'`); a token that `sscanf` does not read as a pair is `exit(4)`. The first
`Nat` bounds the number of tokens. -/
def read_features {F : Type} (undf : F) (libc : Libc F) :
    Nat → List Char → dp F → bitarray → Nat → Except Stop (dp F × bitarray × Nat)
  | 0, _, _, _, _ => .error Stop.undefined
  | fuel + 1, pch, d, used, maxfid =>
    let t := read_token pch (some '#')
    if ISEMPTY t.1 then .ok (d, used, maxfid)
    else
      match t.1 with
      | none => .ok (d, used, maxfid)
      | some token =>
        if token.head? = some '#' then read_features undf libc fuel [] d used maxfid
        else
          match libc.sscanf_pair token with
          | none => .error (Stop.exit 4)
          | some (fid0, fval) =>
            let fid := fid0 % UINT_RANGE
            match d.ins_feature undf fid fval with
            | none => .error Stop.undefined
            | some d1 =>
              read_features undf libc fuel t.2 d1 (bitarray.set_up used fid)
                (if fid > maxfid then fid else maxfid)

/-- The body of the reading loop after the critical section that read the line: `nread` and
`line` are what `getline` returned, `nline` the line number it was given, `ith` the thread. -/
def process_line {F : Type} (undf : F) (libc : Libc F) (ith : Nat) (nread : Int)
    (line : List Char) (nline : Nat) (st : Ingest F) : Except Stop (Ingest F) :=
  if nread ≤ 0 then .ok st
  else
    let pch := (line.takeWhile (fun c => c != '\x00')).dropWhile ISSPC
    if pch.head? = some '#' then .ok st
    else
      let t1 := read_token pch none
      match t1.1 with
      | none => .error (Stop.exit 2)
      | some token =>
        if ISEMPTY (some token) then .error (Stop.exit 2)
        else
          let newdp := dp.new undf (libc.atof token) nline ((st.maxfid + 1) % UINT_RANGE)
          let t2 := read_token t1.2 none
          match t2.1 with
          | none => .error (Stop.exit 3)
          | some key =>
            if ISEMPTY (some key) then .error (Stop.exit 3)
            else
              match st.th_usedfid[ith]? with
              | none => .error Stop.undefined
              | some used =>
                match read_features undf libc (t2.2.length + 1) t2.2 newdp used st.maxfid with
                | .error e => .error e
                | .ok (d, used1, maxfid1) =>
                  match st.store ith key d used1 maxfid1 with
                  | none => .error Stop.undefined
                  | some st1 => .ok st1

/-- One iteration of the reading loop: the critical section
`nread = getline(&line, &linelength, f), nline = ++linecounter` for the next line of the
file, then the body. -/
def read_step {F : Type} (undf : F) (libc : Libc F) (ith : Nat) (line : List Char)
    (st : Ingest F) : Except Stop (Ingest F) :=
  let nline := (st.linecounter + 1) % UINT_RANGE
  process_line undf libc ith (line.length : Int) line nline { st with linecounter := nline }

/-- The iterations of the reading loop for the lines of the file, each as `getline` returns
it (with its terminator), in the order of the critical section; `k` counts the lines read
before and `sched k` is the thread that runs the iteration of line `k` (from 0). -/
def read_lines {F : Type} (undf : F) (libc : Libc F) (sched : Nat → Nat) :
    Nat → List (List Char) → Ingest F → Except Stop (Ingest F)
  | _, [], st => .ok st
  | k, line :: rest, st =>
    match read_step undf libc (sched k) line st with
    | .error e => .error e
    | .ok st1 => read_lines undf libc sched (k + 1) rest st1

/-- The loop `while(not feof(f))`: the iterations for the lines, and one more when the file is
empty or its last line ends with a line feed, in which `getline` fails at the end of the
file and only the line counter moves. -/
def read_loop {F : Type} (undf : F) (libc : Libc F) (sched : Nat → Nat)
    (file : List (List Char)) (st : Ingest F) : Except Stop (Ingest F) :=
  match read_lines undf libc sched 0 file st with
  | .error e => .error e
  | .ok st1 =>
    match file.getLast? with
    | none => .ok { st1 with linecounter := (st1.linecounter + 1) % UINT_RANGE }
    | some line =>
      if line.getLast? = some '\n' then
        .ok { st1 with linecounter := (st1.linecounter + 1) % UINT_RANGE }
      else .ok st1

/-- The constructor `dpset::dpset(filename)` on a file that could be opened (otherwise
`exit(5)`): the reading loop from the initial state, then the construction of the matrix. -/
def dpset.new {F : Type} (undf : F) (libc : Libc F) (NPROCESSORS : Nat) (sched : Nat → Nat)
    (file : Option (List (List Char))) : Except Stop (dpset F) :=
  match file with
  | none => .error (Stop.exit 5)
  | some lines =>
    match read_loop undf libc sched lines (Ingest.init undf NPROCESSORS) with
    | .error e => .error e
    | .ok st =>
      match dpset.build undf st with
      | none => .error Stop.undefined
      | some ds => .ok ds

/-- A libc for tests: `atof` gives 10 on the token `1.0` and 0 otherwise (as it does on text
that is not a number), the pairs `1:0.5`, `3:2.0` and `2:1.0` are read, with values scaled by
ten, and no other token is. -/
def test_libc : Libc Int :=
  { atof := fun t => if t = ['1', '.', '0'] then 10 else 0
    sscanf_pair := fun t =>
      if t = ['1', ':', '0', '.', '5'] then some (1, 5)
      else if t = ['3', ':', '2', '.', '0'] then some (3, 20)
      else if t = ['2', ':', '1', '.', '0'] then some (2, 10)
      else if t = ['1', ':', '1', '.', '0'] then some (1, 10)
      else none }

/-- The line numbers of the records allocated so far, when `n` lines have been read without
wrap-around of the counter: the counter is `n`, every record carries a number between 1 and
`n`, and the numbers increase in the order of allocation. -/
structure LineInv {F : Type} (st : Ingest F) (n : Nat) : Prop where
  counter : st.linecounter = n
  bounds : ∀ a, a < st.nalloc → 1 ≤ (st.heap a).nline ∧ (st.heap a).nline ≤ n
  increasing : ∀ a b, a < b → b < st.nalloc → (st.heap a).nline < (st.heap b).nline

/-- The line `1.0 q1 1:0.5 3:2.0`, as `getline` returns it. -/
def record_line : List Char := "1.0 q1 1:0.5 3:2.0\n".toList

/-- A comment line, as `getline` returns it. -/
def comment_line : List Char := [' ', ' '] ++ '#' :: " note\n".toList

/-- The state of the reading loop of one thread after the line `record_line` alone. -/
def after_record_line : Ingest Int :=
  match read_step (-1) test_libc 0 record_line (Ingest.init (-1) 1) with
  | .ok st => st
  | .error _ => Ingest.init (-1) 1

/-- The state of the reading loop of one thread after `record_line` and a comment line. -/
def after_two_lines : Ingest Int :=
  match read_lines (-1) test_libc (fun _ => 0) 0 [record_line, comment_line]
      (Ingest.init (-1) 1) with
  | .ok st => st
  | .error _ => Ingest.init (-1) 1


/-- The tokens that the loop `while(!ISEMPTY(token=read_token(pch,'#')))` hands to `sscanf`:
the tokens of the rest of the line, up to its end or to the first token that starts with `#`
(after which `*pch = '\0'` ends the line). The `Nat` bounds the number of tokens. -/
def feature_tokens : Nat → List Char → List (List Char)
  | 0, _ => []
  | fuel + 1, pch =>
    let t := read_token pch (some '#')
    if ISEMPTY t.1 then []
    else
      match t.1 with
      | none => []
      | some token =>
        if token.head? = some '#' then feature_tokens fuel []
        else token :: feature_tokens fuel t.2

/-- The line `1.0 q1 1:0.5 bad # 7:x`: the feature token `bad` is not an `id:value` pair. -/
def bad_feature_line : List Char := "1.0 q1 1:0.5 bad # 7:x\n".toList


/-- The text of a line from its first non-space character on: `pch` when the label is read. -/
def line_fields (line : List Char) : List Char :=
  (line.takeWhile (fun c => c != '\x00')).dropWhile ISSPC

/-- The label field of a line: `token=read_token(pch)` of the first call. -/
def label_token (line : List Char) : Option (List Char) :=
  (read_token (line_fields line) none).1

/-- The id field of a line: `key=read_token(pch)` of the second call. -/
def key_token (line : List Char) : Option (List Char) :=
  (read_token (read_token (line_fields line) none).2 none).1

/-- The feature tokens of a line: the tokens behind the label and the id that are handed to
`sscanf`, that is those before a `#` annotation. -/
def line_feature_tokens (line : List Char) : List (List Char) :=
  feature_tokens ((read_token (read_token (line_fields line) none).2 none).2.length + 1)
    (read_token (read_token (line_fields line) none).2 none).2

/-- The token `t` is read by `sscanf(token, "%u:%f", &fid, &fval)` as a pair whose id is
below 2^31. -/
def reads_pair {F : Type} (libc : Libc F) (t : List Char) : Prop :=
  ∃ fid fval, libc.sscanf_pair t = some (fid, fval) ∧ fid % UINT_RANGE < 2 ^ 31


/-- The accepted line of the input `1.0 q1`, a record without feature pairs, read by the only
thread; the label is scaled by ten. -/
def no_pairs_input : List (Rec Int) :=
  [ { ith := 0, nline := 1, label := 10, initsize := 50, key := ['q', '1'], feats := [] } ]


/-- The accepted line `r` with every feature id `i` replaced by `f i`. -/
def Rec.rename {F : Type} (f : Nat → Nat) (r : Rec F) : Rec F :=
  { r with feats := r.feats.map (fun p => (f p.1, p.2)) }


/-- The content of group `i` of a dataset, read through the accessors: the labels of its
rows, which are the first `size` entries of the label view of `get_ranklist(i)`, and for
each feature column the slots of the rows `rloffsets[i] .. rloffsets[i]+size-1`, in row
order. -/
def dpset.group_content {F : Type} (ds : dpset F) (i : Nat) :
    Option (Buf F × List (Buf F)) :=
  match ds.get_ranklist i, ds.rloffsets[i]? with
  | some rl, some lo =>
    some (rl.labels.take rl.size, ds.features.map (fun col => (col.drop lo).take rl.size))
  | _, _ => none


/-! ## Ranking of the rows by one feature -/

/-- The two tests on a `float` that the ranking sort needs: the macro `isundf(x)` of
`dpset.hpp`, the test for the missing marker, and the sort key of a value that is not
missing, a number that grows with the value. -/
structure FloatKey (F : Type) where
  isundf : F → Bool
  key : F → Nat

/-- Modelled from the spec: `idxnanfloat_radixsort(fvalues, nvalues)` of `utils/radix.hpp`,
the "per-feature ranking sort" of one dense column. It returns a fresh array with "a
permutation of row indices such that dereferencing the column through the permutation yields
values in ascending numeric order", with "a defined, deterministic placement for missing
values", and the number of indices. The side the spec leaves open is chosen here as
values-then-missing; rows of equal key, and the missing rows, keep their row order. Reading a
slot that was never written, or outside the column, is undefined. -/
def idxnanfloat_radixsort {F : Type} (fk : FloatKey F) (fvalues : Buf F) (nvalues : Nat) :
    Option (List Nat × Nat) :=
  if (List.range nvalues).all (fun i =>
      match fvalues[i]? with
      | some (some _) => true
      | _ => false) then
    let missing : Nat → Bool := fun i =>
      match fvalues[i]? with
      | some (some x) => fk.isundf x
      | _ => false
    let key : Nat → Nat := fun i =>
      match fvalues[i]? with
      | some (some x) => fk.key x
      | _ => 0
    some (((List.range nvalues).filter (fun i => !missing i)).insertionSort
        (fun a b => key a ≤ key b) ++ (List.range nvalues).filter missing, nvalues)
  else none

/-- The method `dpset::sort_dpbyfeature(i, sorted, sortedsize)`: the values assigned to the
reference parameters `sorted` and `sortedsize`. -/
def dpset.sort_dpbyfeature {F : Type} (fk : FloatKey F) (ds : dpset F) (i : Nat) :
    Option (List Nat × Nat) :=
  match ds.features[i]? with
  | none => none
  | some col => idxnanfloat_radixsort fk col ds.ndps

/-- A key for tests: the missing marker is `-1` and the key of a value is the value. -/
def test_key : FloatKey Int :=
  { isundf := fun x => x == -1
    key := fun x => x.toNat }


/-! ## Description of the compaction loop -/

/-- The assignment `nfeatures = usedfid[nfeatureids-1]+1` with `nfeatureids` the length of
`usedfid`: the width of the matrix before compaction. -/
def width_before_compaction (usedfid : List Nat) : Option Nat :=
  match usedfid[(usedfid.length + UINT_RANGE - 1) % UINT_RANGE]? with
  | none => none
  | some last => some ((last + 1) % UINT_RANGE)

/-- The column indices between the used ids: those from `j` on that lie before a used id of
`us` and are not used themselves, in ascending order (for an ascending `us` from `j` on). -/
def gaps : Nat → List Nat → List Nat
  | _, [] => []
  | j, u :: us => List.range' j (u - j) ++ gaps (u + 1) us

/-- Six columns before compaction: column `j` holds the single value `j`. -/
def six_columns : List (Buf Int) :=
  [[some 0], [some 1], [some 2], [some 3], [some 4], [some 5]]


/-- The invariant of a record, for the values `vals` inserted so far: the maximum id is below
the tracked capacity, the tracked capacity is at least 1, fits the buffer and is an
`unsigned int`, and every slot from 0 to the maximum id holds an inserted value or the
missing marker. -/
structure dp.Wf {F : Type} (undf : F) (vals : List F) (d : dp F) : Prop where
  maxfid_lt : d.maxfid < d.maxsize
  maxsize_pos : 1 ≤ d.maxsize
  maxsize_le : d.maxsize ≤ d.features.length
  maxsize_lt : d.maxsize < UINT_RANGE
  slots : ∀ j, j ≤ d.maxfid → ∃ x, d.features[j]? = some (some x) ∧ (x = undf ∨ x ∈ vals)

/-! # Theorems -/

section dp_lemmas
variable {F : Type}

theorem length_realloc (b : Buf F) (n : Nat) : (realloc b n).length = n := by
  simp [realloc, List.length_take]; omega

theorem getElem?_realloc (b : Buf F) (n j : Nat) :
    (realloc b n)[j]? = if j < n then (if j < b.length then b[j]? else some none) else none := by
  unfold realloc
  rw [List.getElem?_append, List.length_take, List.getElem?_take, List.getElem?_replicate]
  by_cases h1 : j < n <;> by_cases h2 : j < b.length <;> simp [h1, h2] <;> omega

theorem store_eq_some {b : Buf F} {i : Nat} (x : F) (h : i < b.length) :
    store b i x = some (b.set i (some x)) := by
  simp [store, h]

theorem fill_undf_spec (undf : F) (hi : Nat) :
    ∀ (k i : Nat) (b : Buf F), k = hi - i → (i < hi → hi ≤ b.length) →
      ∃ b1, fill_undf undf hi k i b = some b1 ∧ b1.length = b.length ∧
        ∀ j, b1[j]? = if i ≤ j ∧ j < hi then some (some undf) else b[j]? := by
  intro k
  induction k with
  | zero =>
    intro i b hk _
    have hi0 : ¬ i < hi := by omega
    refine ⟨b, by simp [fill_undf, hi0], rfl, ?_⟩
    intro j
    have : ¬ (i ≤ j ∧ j < hi) := by omega
    simp [this]
  | succ k ih =>
    intro i b hk hlen
    have hlt : i < hi := by omega
    have hib : i < b.length := by have := hlen hlt; omega
    obtain ⟨b1, h1, h2, h3⟩ := ih (i + 1) (b.set i (some undf)) (by omega)
      (by intro _; simpa using hlen hlt)
    refine ⟨b1, ?_, by simpa using h2, ?_⟩
    · simp [fill_undf, hlt, store_eq_some undf hib, h1]
    · intro j
      rw [h3 j, List.getElem?_set]
      by_cases hj : i = j
      · subst hj
        simp [hlt, hib]
      · by_cases hj2 : i + 1 ≤ j ∧ j < hi
        · have : i ≤ j ∧ j < hi := by omega
          simp [hj2, this]
        · have : ¬ (i ≤ j ∧ j < hi) := by omega
          simp [hj2, this, hj]

end dp_lemmas

section dp_lemmas
variable {F : Type}

theorem dp.new_inv (undf label : F) (nline initsize : Nat) (h : initsize < UINT_RANGE) :
    (dp.new undf label nline initsize).Inv := by
  have hpos : 0 < (if initsize > 0 then initsize else 1) := by split <;> omega
  refine ⟨?_, ?_, ?_, ?_⟩
  · simpa [dp.new] using hpos
  · simp [dp.new, malloc]
  · simp only [dp.new, UINT_RANGE] at *
    split <;> omega
  · intro j hj
    have hj0 : j = 0 := by simpa [dp.new] using hj
    subst hj0
    exact ⟨undf, by simp [dp.new, malloc, List.getElem?_set, hpos]⟩

theorem dp.ins_feature_spec (undf : F) (d : dp F) (hd : d.Inv) (fid : Nat)
    (hfid : fid < 2 ^ 31) (fval : F) :
    ∃ d1, d.ins_feature undf fid fval = some d1 ∧ d1.Inv ∧
      d1.maxfid = max d.maxfid fid ∧ d1.nline = d.nline ∧ d1.label = d.label ∧
      d1.next = d.next ∧ d1.features[fid]? = some (some fval) ∧
      (∀ j, d.maxfid < j → j < fid → d1.features[j]? = some (some undf)) ∧
      (∀ j, j ≤ d.maxfid → j ≠ fid → d1.features[j]? = d.features[j]?) := by
  obtain ⟨h1, h2, h3, h4⟩ := hd
  have hU : UINT_RANGE = 2 ^ 32 := rfl
  have hlo : (d.maxfid + 1) % UINT_RANGE = d.maxfid + 1 := Nat.mod_eq_of_lt (by omega)
  have hM : (2 * fid + 1) % UINT_RANGE = 2 * fid + 1 := Nat.mod_eq_of_lt (by omega)
  by_cases hc : fid ≥ d.maxsize
  · -- the buffer is reallocated
    obtain ⟨b, hb1, hb2, hb3⟩ := fill_undf_spec undf fid (fid - (d.maxfid + 1)) (d.maxfid + 1)
      (realloc d.features (2 * fid + 1)) rfl (by intro _; rw [length_realloc]; omega)
    rw [length_realloc] at hb2
    have hst : store b fid fval = some (b.set fid (some fval)) :=
      store_eq_some fval (by omega)
    refine ⟨{ d with maxsize := 2 * fid + 1, maxfid := if fid > d.maxfid then fid else d.maxfid,
                     features := b.set fid (some fval) }, ?_, ⟨?_, ?_, ?_, ?_⟩, ?_, rfl, rfl, rfl,
      ?_, ?_, ?_⟩
    · simp only [dp.ins_feature, if_pos hc, hlo, hM, hb1, hst]
    · show (if fid > d.maxfid then fid else d.maxfid) < 2 * fid + 1
      split <;> omega
    · show 2 * fid + 1 ≤ (b.set fid (some fval)).length
      simp [hb2]
    · show 2 * fid + 1 < UINT_RANGE
      omega
    · intro j hj
      have hj : j ≤ (if fid > d.maxfid then fid else d.maxfid) := hj
      have hj2 : j ≤ fid := by split at hj <;> omega
      show ∃ x, (b.set fid (some fval))[j]? = some (some x)
      rw [List.getElem?_set]
      by_cases e : fid = j
      · exact ⟨fval, by simp [e, hb2]; omega⟩
      · rw [if_neg e, hb3]
        by_cases hm : d.maxfid + 1 ≤ j ∧ j < fid
        · exact ⟨undf, by simp [hm]⟩
        · obtain ⟨x, hx⟩ := h4 j (by omega)
          refine ⟨x, ?_⟩
          rw [if_neg hm, getElem?_realloc, if_pos (by omega), if_pos (by omega), hx]
    · show (if fid > d.maxfid then fid else d.maxfid) = max d.maxfid fid
      split <;> omega
    · show (b.set fid (some fval))[fid]? = some (some fval)
      rw [List.getElem?_set, if_pos rfl, if_pos (by omega)]
    · intro j hj1 hj2
      show (b.set fid (some fval))[j]? = some (some undf)
      rw [List.getElem?_set_ne (by omega), hb3, if_pos (by omega)]
    · intro j hj1 hj2
      show (b.set fid (some fval))[j]? = d.features[j]?
      rw [List.getElem?_set_ne (by omega), hb3, if_neg (by omega), getElem?_realloc,
        if_pos (by omega), if_pos (by omega)]
  · -- the buffer is large enough
    obtain ⟨b, hb1, hb2, hb3⟩ := fill_undf_spec undf fid (fid - (d.maxfid + 1)) (d.maxfid + 1)
      d.features rfl (by intro _; omega)
    have hst : store b fid fval = some (b.set fid (some fval)) :=
      store_eq_some fval (by omega)
    refine ⟨{ d with maxfid := if fid > d.maxfid then fid else d.maxfid,
                     features := b.set fid (some fval) }, ?_, ⟨?_, ?_, ?_, ?_⟩, ?_, rfl, rfl, rfl,
      ?_, ?_, ?_⟩
    · simp only [dp.ins_feature, if_neg hc, hlo, hb1, hst]
    · show (if fid > d.maxfid then fid else d.maxfid) < d.maxsize
      split <;> omega
    · show d.maxsize ≤ (b.set fid (some fval)).length
      simp [hb2]; omega
    · exact h3
    · intro j hj
      have hj : j ≤ (if fid > d.maxfid then fid else d.maxfid) := hj
      show ∃ x, (b.set fid (some fval))[j]? = some (some x)
      rw [List.getElem?_set]
      by_cases e : fid = j
      · exact ⟨fval, by simp [e, hb2]; omega⟩
      · rw [if_neg e, hb3]
        by_cases hm : d.maxfid + 1 ≤ j ∧ j < fid
        · exact ⟨undf, by simp [hm]⟩
        · obtain ⟨x, hx⟩ := h4 j (by split at hj <;> omega)
          exact ⟨x, by rw [if_neg hm, hx]⟩
    · show (if fid > d.maxfid then fid else d.maxfid) = max d.maxfid fid
      split <;> omega
    · show (b.set fid (some fval))[fid]? = some (some fval)
      rw [List.getElem?_set, if_pos rfl, if_pos (by omega)]
    · intro j hj1 hj2
      show (b.set fid (some fval))[j]? = some (some undf)
      rw [List.getElem?_set_ne (by omega), hb3, if_pos (by omega)]
    · intro j hj1 hj2
      show (b.set fid (some fval))[j]? = d.features[j]?
      rw [List.getElem?_set_ne (by omega), hb3, if_neg (by omega)]

end dp_lemmas

section dp_lemmas2
variable {F : Type}

theorem dp.get_resizedfeatures_spec (undf : F) (d : dp F) (hd : d.Inv) (size : Nat) :
    ∃ d1 b, d.get_resizedfeatures undf size = some (d1, b) ∧ d1.Inv ∧ d1.features = b ∧
      d1.maxfid = d.maxfid ∧ d1.maxsize = d.maxsize ∧ d1.nline = d.nline ∧
      d1.label = d.label ∧ d1.next = d.next ∧ size ≤ b.length ∧
      (∀ j, j ≤ d.maxfid → b[j]? = d.features[j]?) ∧
      (∀ j, d.maxfid < j → j < size → b[j]? = some (some undf)) := by
  obtain ⟨h1, h2, h3, h4⟩ := hd
  have hlo : (d.maxfid + 1) % UINT_RANGE = d.maxfid + 1 := Nat.mod_eq_of_lt (by omega)
  by_cases hc : size ≥ d.maxsize ∧ size ≠ 0
  · obtain ⟨b, hb1, hb2, hb3⟩ := fill_undf_spec undf size (size - (d.maxfid + 1))
      (d.maxfid + 1) (realloc d.features size) rfl (by intro _; rw [length_realloc])
    rw [length_realloc] at hb2
    have hpre : ∀ j, j ≤ d.maxfid → b[j]? = d.features[j]? := by
      intro j hj
      rw [hb3, if_neg (by omega), getElem?_realloc, if_pos (by omega), if_pos (by omega)]
    refine ⟨{ d with features := b }, b, ?_, ⟨h1, ?_, h3, ?_⟩, rfl, rfl, rfl, rfl, rfl, rfl,
      by omega, hpre, ?_⟩
    · simp only [dp.get_resizedfeatures, if_pos hc, hlo, hb1]
    · show d.maxsize ≤ b.length
      omega
    · intro j hj
      obtain ⟨x, hx⟩ := h4 j hj
      exact ⟨x, by rw [← hx]; exact hpre j hj⟩
    · intro j hj1 hj2
      rw [hb3, if_pos (by omega)]
  · have hsz : size ≤ d.features.length := by
      by_cases h0 : size = 0
      · omega
      · have : ¬ size ≥ d.maxsize := fun h => hc ⟨h, h0⟩
        omega
    obtain ⟨b, hb1, hb2, hb3⟩ := fill_undf_spec undf size (size - (d.maxfid + 1))
      (d.maxfid + 1) d.features rfl (by intro _; exact hsz)
    have hpre : ∀ j, j ≤ d.maxfid → b[j]? = d.features[j]? := by
      intro j hj
      rw [hb3, if_neg (by omega)]
    refine ⟨{ d with features := b }, b, ?_, ⟨h1, ?_, h3, ?_⟩, rfl, rfl, rfl, rfl, rfl, rfl,
      by omega, hpre, ?_⟩
    · simp only [dp.get_resizedfeatures, if_neg hc, hlo, hb1]
    · show d.maxsize ≤ b.length
      omega
    · intro j hj
      obtain ⟨x, hx⟩ := h4 j hj
      exact ⟨x, by rw [← hx]; exact hpre j hj⟩
    · intro j hj1 hj2
      rw [hb3, if_pos (by omega)]

/-- The slots a sequence of insertions leaves behind, as a fold of single updates. -/
theorem foldl_update_eq_supplied (feats : List (Nat × F)) :
    ∀ (g : Nat → F) (i : Nat),
      feats.foldl (fun g p => Function.update g p.1 p.2) g i =
        match feats.reverse.find? (fun p => p.1 == i) with
        | some p => p.2
        | none => g i := by
  induction feats with
  | nil => intro g i; simp
  | cons a rest ih =>
    intro g i
    rw [List.foldl_cons, ih, List.reverse_cons, List.find?_append]
    cases h : List.find? (fun p => p.1 == i) rest.reverse with
    | some p => simp
    | none =>
      by_cases e : a.1 = i
      · simp [e, Function.update]
      · simp [e, Function.update]
        intro h2; exact absurd h2.symm e

theorem maxid_foldl (feats : List (Nat × F)) :
    ∀ m, feats.foldl (fun m p => if p.1 > m then p.1 else m) m = max m (maxid feats) := by
  unfold maxid
  induction feats with
  | nil => intro m; simp
  | cons a rest ih =>
    intro m
    rw [List.foldl_cons, List.foldl_cons, ih, ih (if a.1 > 0 then a.1 else 0)]
    split <;> split <;> omega

theorem dp.ins_features_spec (undf : F) (feats : List (Nat × F)) :
    ∀ (d : dp F) (g : Nat → F), d.Inv → (∀ p ∈ feats, p.1 < 2 ^ 31) →
      (∀ i, i ≤ d.maxfid → d.features[i]? = some (some (g i))) →
      (∀ i, d.maxfid < i → g i = undf) →
      ∃ d1, dp.ins_features undf d feats = some d1 ∧ d1.Inv ∧
        d1.maxfid = max d.maxfid (maxid feats) ∧ d1.nline = d.nline ∧ d1.label = d.label ∧
        d1.next = d.next ∧
        (∀ i, i ≤ d1.maxfid → d1.features[i]? =
          some (some (feats.foldl (fun g p => Function.update g p.1 p.2) g i))) ∧
        (∀ i, d1.maxfid < i → feats.foldl (fun g p => Function.update g p.1 p.2) g i = undf) := by
  induction feats with
  | nil =>
    intro d g hd _ hg1 hg2
    exact ⟨d, rfl, hd, by simp [maxid], rfl, rfl, rfl, hg1, hg2⟩
  | cons a rest ih =>
    intro d g hd hf hg1 hg2
    obtain ⟨fid, fval⟩ := a
    have hfid : fid < 2 ^ 31 := hf (fid, fval) (by simp)
    obtain ⟨d1, e1, i1, m1, n1, l1, x1, s1, s2, s3⟩ :=
      dp.ins_feature_spec undf d hd fid hfid fval
    have hg1' : ∀ i, i ≤ d1.maxfid → d1.features[i]? =
        some (some (Function.update g fid fval i)) := by
      intro i hi
      by_cases e : i = fid
      · subst e; simpa using s1
      · rw [Function.update_noteq e]
        by_cases h : i ≤ d.maxfid
        · rw [s3 i h e, hg1 i h]
        · rw [s2 i (by omega) (by omega), hg2 i (by omega)]
    have hg2' : ∀ i, d1.maxfid < i → Function.update g fid fval i = undf := by
      intro i hi
      rw [Function.update_noteq (by omega)]
      exact hg2 i (by omega)
    obtain ⟨d2, e2, i2, m2, n2, l2, x2, t1, t2⟩ :=
      ih d1 (Function.update g fid fval) i1 (fun p hp => hf p (by simp [hp])) hg1' hg2'
    refine ⟨d2, ?_, i2, ?_, by rw [n2, n1], by rw [l2, l1], by rw [x2, x1], t1, t2⟩
    · simp only [dp.ins_features, e1, e2]
    · rw [m2, m1]
      have := maxid_foldl rest (if fid > 0 then fid else 0)
      have h3 : maxid ((fid, fval) :: rest) = max (if fid > 0 then fid else 0) (maxid rest) := by
        rw [← this]; rfl
      rw [h3]
      split <;> omega

end dp_lemmas2

section dp_claims
variable {F : Type}

/-- C7: for every record that satisfies the representation invariant, with maximum id `m`,
every id below 2^31 and every value `v`, the call `ins_feature(id, v)` returns, sets slot `id`
to `v`, leaves every other slot `j ≤ m` unchanged, sets every slot `j` with `m < j < id` to the
missing marker and updates the maximum id to `max m id`. -/
theorem ins_feature_frame (undf : F) (d : dp F) (hd : d.Inv) (fid : Nat) (hfid : fid < 2 ^ 31)
    (v : F) :
    ∃ d1, d.ins_feature undf fid v = some d1 ∧
      d1.features[fid]? = some (some v) ∧
      (∀ j, j ≤ d.maxfid → j ≠ fid → d1.features[j]? = d.features[j]?) ∧
      (∀ j, d.maxfid < j → j < fid → d1.features[j]? = some (some undf)) ∧
      d1.maxfid = max d.maxfid fid := by
  obtain ⟨d1, e1, _, m1, _, _, _, s1, s2, s3⟩ := dp.ins_feature_spec undf d hd fid hfid v
  exact ⟨d1, e1, s1, s3, s2, m1⟩

theorem ins_feature_frame_witness :
    ∃ d1, (dp.new (0 : Int) 1 1 2).ins_feature 0 4 7 = some d1 ∧
      d1.features[4]? = some (some 7) ∧
      (∀ j, j ≤ (dp.new (0 : Int) 1 1 2).maxfid → j ≠ 4 →
        d1.features[j]? = (dp.new (0 : Int) 1 1 2).features[j]?) ∧
      (∀ j, (dp.new (0 : Int) 1 1 2).maxfid < j → j < 4 → d1.features[j]? = some (some 0)) ∧
      d1.maxfid = max (dp.new (0 : Int) 1 1 2).maxfid 4 :=
  ins_feature_frame 0 (dp.new 0 1 1 2) (dp.new_inv 0 1 1 2 (by decide)) 4 (by decide) 7

/-- C2: for every initial capacity, every sequence of `ins_feature` calls on a freshly created
record with ids below 2^31 (any order, repeats allowed) and every `targetWidth` above the
record's maximum id, the insertions and `get_resizedfeatures(targetWidth)` return, the
maximum id is the largest inserted id, and slot `i` of the returned buffer holds, for every
`i < targetWidth`, the value of the last insertion for `i`, or the missing marker when `i` was
never inserted; hence the first `targetWidth` slots are a function of the insertions alone,
not of the initial capacity. -/
theorem get_resizedfeatures_after_insertions (undf label : F) (nline initsize : Nat)
    (hinit : initsize < UINT_RANGE) (feats : List (Nat × F))
    (hfeats : ∀ p ∈ feats, p.1 < 2 ^ 31) (targetWidth : Nat)
    (_hwidth : maxid feats < targetWidth) :
    ∃ d d1 b, dp.ins_features undf (dp.new undf label nline initsize) feats = some d ∧
      d.maxfid = maxid feats ∧
      d.get_resizedfeatures undf targetWidth = some (d1, b) ∧
      targetWidth ≤ b.length ∧
      (∀ i, i < targetWidth → b[i]? = some (some (supplied undf feats i))) ∧
      b.take targetWidth =
        (List.range targetWidth).map (fun i => some (supplied undf feats i)) := by
  have hnew := dp.new_inv undf label nline initsize hinit
  obtain ⟨d, e1, i1, m1, _, _, _, t1, t2⟩ :=
    dp.ins_features_spec undf feats (dp.new undf label nline initsize) (fun _ => undf) hnew
      hfeats
      (by
        intro i hi
        have hi0 : i = 0 := by simpa [dp.new] using hi
        subst hi0
        have hpos : 0 < (if initsize > 0 then initsize else 1) := by split <;> omega
        simp [dp.new, malloc, List.getElem?_set, hpos])
      (by intro i _; rfl)
  have hmax : d.maxfid = maxid feats := by
    rw [m1]; simp [dp.new]
  obtain ⟨d1, b, e2, _, _, _, _, _, _, _, hlen, r1, r2⟩ :=
    dp.get_resizedfeatures_spec undf d i1 targetWidth
  have hsup : ∀ i, feats.foldl (fun g p => Function.update g p.1 p.2) (fun _ => undf) i =
      supplied undf feats i := by
    intro i
    rw [foldl_update_eq_supplied]; rfl
  have hslot : ∀ i, i < targetWidth → b[i]? = some (some (supplied undf feats i)) := by
    intro i hi
    by_cases h : i ≤ d.maxfid
    · rw [r1 i h, t1 i h, hsup]
    · rw [r2 i (by omega) hi, ← hsup, t2 i (by omega)]
  refine ⟨d, d1, b, e1, hmax, e2, hlen, hslot, ?_⟩
  apply List.ext_getElem?
  intro i
  rw [List.getElem?_take, List.getElem?_map]
  by_cases hi : i < targetWidth
  · rw [if_pos hi, hslot i hi, List.getElem?_range hi]; rfl
  · rw [if_neg hi, List.getElem?_eq_none (by simpa using hi)]; rfl

theorem get_resizedfeatures_after_insertions_witness :
    ∃ d d1 b, dp.ins_features (0 : Int) (dp.new 0 1 1 0) [(3, 5), (1, 4), (3, 6)] = some d ∧
      d.maxfid = maxid [(3, (5 : Int)), (1, 4), (3, 6)] ∧
      d.get_resizedfeatures 0 5 = some (d1, b) ∧
      5 ≤ b.length ∧
      (∀ i, i < 5 → b[i]? = some (some (supplied 0 [(3, (5 : Int)), (1, 4), (3, 6)] i))) ∧
      b.take 5 =
        (List.range 5).map (fun i => some (supplied 0 [(3, (5 : Int)), (1, 4), (3, 6)] i)) :=
  get_resizedfeatures_after_insertions 0 1 1 0 (by decide) [(3, 5), (1, 4), (3, 6)]
    (by decide) 5 (by decide)

end dp_claims

section seg_lemmas

theorem Seg.frame {next next1 : Nat → Ptr} : ∀ {l : List Nat} {p e : Ptr},
    (∀ a ∈ l, next1 a = next a) → Seg next p l e → Seg next1 p l e
  | [], _, _, _, h => h
  | a :: l, _, _, hf, h => by
    refine ⟨h.1, ?_⟩
    rw [hf a (by simp)]
    exact Seg.frame (fun x hx => hf x (by simp [hx])) h.2

theorem Seg.append {next : Nat → Ptr} : ∀ {l1 l2 : List Nat} {p m e : Ptr},
    Seg next p l1 m → Seg next m l2 e → Seg next p (l1 ++ l2) e
  | [], _, _, _, _, h1, h2 => by
    have h1 : _ = _ := h1
    subst h1; exact h2
  | _ :: _, _, _, _, _, h1, h2 => ⟨h1.1, Seg.append h1.2 h2⟩

theorem Seg.snoc {next : Nat → Ptr} {l : List Nat} {p : Ptr} {a : Nat}
    (h : Seg next p l (some a)) : Seg next p (l ++ [a]) (next a) :=
  Seg.append h ⟨rfl, rfl⟩

theorem Seg.head_ne {next : Nat → Ptr} {l : List Nat} {p e : Ptr} (h : Seg next p l e)
    (hne : l ≠ []) (he : ∀ a ∈ l, some a ≠ e) : p ≠ e := by
  cases l with
  | nil => exact absurd rfl hne
  | cons a l =>
    have h1 : p = some a := h.1
    rw [h1]
    exact he a (by simp)

end seg_lemmas

section qsort_lemmas
variable {α : Type}

theorem qsort_ref_perm (gt : α → α → Bool) :
    ∀ (n : Nat) (l : List α), l.length ≤ n → (qsort_ref gt n l).Perm l := by
  intro n
  induction n with
  | zero =>
    intro l hl
    have : l = [] := List.length_eq_zero.mp (by omega)
    subst this
    exact List.Perm.refl _
  | succ n ih =>
    intro l hl
    cases l with
    | nil => exact List.Perm.refl _
    | cons p rest =>
      have hlen : rest.length ≤ n := by simpa using hl
      have h1 := ih (rest.filter (fun x => !gt x p))
        (le_trans (List.length_filter_le _ _) hlen)
      have h2 := ih (rest.filter (fun x => gt x p))
        (le_trans (List.length_filter_le _ _) hlen)
      show (qsort_ref gt n (rest.filter (fun x => !gt x p)) ++
        p :: qsort_ref gt n (rest.filter (fun x => gt x p))).Perm (p :: rest)
      refine List.perm_middle.trans (List.Perm.cons p ?_)
      refine (List.Perm.append h1 h2).trans ?_
      refine (List.perm_append_comm).trans ?_
      exact List.filter_append_perm (fun x => gt x p) rest

theorem qsort_ref_fuel (gt : α → α → Bool) :
    ∀ (n m : Nat) (l : List α), l.length ≤ n → l.length ≤ m →
      qsort_ref gt n l = qsort_ref gt m l := by
  intro n
  induction n with
  | zero =>
    intro m l hl _
    have : l = [] := List.length_eq_zero.mp (by omega)
    subst this
    cases m <;> rfl
  | succ n ih =>
    intro m l hl hm
    cases l with
    | nil => cases m <;> rfl
    | cons p rest =>
      cases m with
      | zero => simp at hm
      | succ m =>
        have hlen : rest.length ≤ n := by simpa using hl
        have hlen2 : rest.length ≤ m := by simpa using hm
        show qsort_ref gt n _ ++ p :: qsort_ref gt n _ =
          qsort_ref gt m _ ++ p :: qsort_ref gt m _
        rw [ih m _ (le_trans (List.length_filter_le _ _) hlen)
              (le_trans (List.length_filter_le _ _) hlen2),
          ih m _ (le_trans (List.length_filter_le _ _) hlen)
              (le_trans (List.length_filter_le _ _) hlen2)]

theorem qsort_ref_eq_quicksort (gt : α → α → Bool) (n : Nat) (l : List α)
    (h : l.length ≤ n) : qsort_ref gt n l = quicksort gt l :=
  qsort_ref_fuel gt n l.length l h (le_refl _)

theorem quicksort_nil (gt : α → α → Bool) : quicksort gt ([] : List α) = [] := rfl

theorem quicksort_cons (gt : α → α → Bool) (p : α) (rest : List α) :
    quicksort gt (p :: rest) =
      quicksort gt (rest.filter (fun x => !gt x p)) ++
        p :: quicksort gt (rest.filter (fun x => gt x p)) := by
  show qsort_ref gt rest.length _ ++ p :: qsort_ref gt rest.length _ = _
  rw [qsort_ref_eq_quicksort gt _ _ (List.length_filter_le _ _),
    qsort_ref_eq_quicksort gt _ _ (List.length_filter_le _ _)]

theorem quicksort_perm (gt : α → α → Bool) (l : List α) : (quicksort gt l).Perm l :=
  qsort_ref_perm gt l.length l (le_refl _)

end qsort_lemmas

section open_lemmas

theorem OpenSeg.back_mem {next : Nat → Ptr} {front : Ptr} {back : Option Nat} {l : List Nat}
    (h : OpenSeg next front back l) {a : Nat} (ha : back = some a) : a ∈ l := by
  rcases h with ⟨_, h2⟩ | ⟨l0, a1, h1, h2, _⟩
  · rw [h2] at ha; cases ha
  · rw [h2] at ha; cases ha; simp [h1]

theorem OpenSeg.frame_open {next next1 : Nat → Ptr} {front : Ptr} {back : Option Nat}
    {l : List Nat} (hf : ∀ a ∈ l, next1 a = next a) (h : OpenSeg next front back l) :
    OpenSeg next1 front back l := by
  rcases h with h | ⟨l0, a, h1, h2, h3⟩
  · exact Or.inl h
  · exact Or.inr ⟨l0, a, h1, h2, Seg.frame (fun x hx => hf x (by simp [h1, hx])) h3⟩

theorem next_after_of_not_mem {next : Nat → Ptr} {front : Ptr} {back : Option Nat}
    {l : List Nat} (h : OpenSeg next front back l) (v : Ptr) {x : Nat} (hx : x ∉ l) :
    next_after next back v x = next x := by
  cases hb : back with
  | none => rfl
  | some a =>
    have ha := h.back_mem hb
    show Function.update next a v x = next x
    rw [Function.update_noteq]
    intro e; subst e; exact hx ha

theorem OpenSeg.push {next : Nat → Ptr} {front : Ptr} {back : Option Nat} {l : List Nat}
    (h : OpenSeg next front back l) (hnd : l.Nodup) (c : Nat) :
    OpenSeg (next_after next back (some c)) (front_after front back (some c)) (some c)
      (l ++ [c]) := by
  rcases h with ⟨h1, h2⟩ | ⟨l0, a, h1, h2, h3⟩
  · subst h1; subst h2
    exact Or.inr ⟨[], c, rfl, rfl, rfl⟩
  · subst h1; subst h2
    refine Or.inr ⟨l0 ++ [a], c, rfl, rfl, ?_⟩
    show Seg (Function.update next a (some c)) front (l0 ++ [a]) (some c)
    have hal : a ∉ l0 := by
      intro hm
      have := (List.nodup_append.mp hnd).2.2
      exact this hm (by simp)
    have hs : Seg (Function.update next a (some c)) front l0 (some a) :=
      Seg.frame (fun x hx => Function.update_noteq (fun e => hal (by rw [← e]; exact hx)) _ _) h3
    have := Seg.snoc hs
    simpa using this

theorem OpenSeg.close {next : Nat → Ptr} {front : Ptr} {back : Option Nat} {l : List Nat}
    (h : OpenSeg next front back l) (hnd : l.Nodup) (v : Ptr) :
    Seg (next_after next back v) (front_after front back v) l v := by
  rcases h with ⟨h1, h2⟩ | ⟨l0, a, h1, h2, h3⟩
  · subst h1; subst h2
    exact rfl
  · subst h1; subst h2
    show Seg (Function.update next a v) front (l0 ++ [a]) v
    have hal : a ∉ l0 := by
      intro hm
      have := (List.nodup_append.mp hnd).2.2
      exact this hm (by simp)
    have hs : Seg (Function.update next a v) front l0 (some a) :=
      Seg.frame (fun x hx => Function.update_noteq (fun e => hal (by rw [← e]; exact hx)) _ _) h3
    have := Seg.snoc hs
    simpa using this

theorem QState.store_gt_eq (s : QState) (v : Ptr) :
    s.store_gt v = { s with next := next_after s.next s.gtback v
                            gtfront := front_after s.gtfront s.gtback v } := by
  cases s with
  | mk n gf gb lf lb => cases gb <;> rfl

theorem QState.store_lt_eq (s : QState) (v : Ptr) :
    s.store_lt v = { s with next := next_after s.next s.ltback v
                            ltfront := front_after s.ltfront s.ltback v } := by
  cases s with
  | mk n gf gb lf lb => cases lb <;> rfl

end open_lemmas

section partition_lemmas

theorem nodup_parts {G Lt rest : List Nat} {c : Nat}
    (h : (G ++ (Lt ++ c :: rest)).Nodup) :
    G.Nodup ∧ Lt.Nodup ∧ c ∉ G ∧ c ∉ Lt ∧ (∀ a ∈ rest, a ∉ G) ∧ (∀ a ∈ Lt, a ∉ G) ∧
      (∀ a ∈ rest, a ∉ Lt) := by
  rw [List.nodup_append, List.nodup_append, List.nodup_cons] at h
  obtain ⟨h1, ⟨h2, ⟨_, _⟩, h5⟩, h6⟩ := h
  refine ⟨h1, h2, ?_, ?_, ?_, ?_, ?_⟩
  · intro hc; exact h6 hc (by simp)
  · intro hc; exact h5 hc (by simp)
  · intro a ha hg; exact h6 hg (by simp [ha])
  · intro a ha hg; exact h6 hg (by simp [ha])
  · intro a ha hl; exact h5 hl (by simp [ha])

theorem nodup_move_gt {G Lt rest : List Nat} {c : Nat}
    (h : (G ++ (Lt ++ c :: rest)).Nodup) : ((G ++ [c]) ++ (Lt ++ rest)).Nodup := by
  refine (List.Perm.nodup_iff ?_).mp h
  rw [List.append_assoc, List.singleton_append]
  exact (List.perm_append_left_iff G).2 List.perm_middle

theorem nodup_move_lt {G Lt rest : List Nat} {c : Nat}
    (h : (G ++ (Lt ++ c :: rest)).Nodup) : (G ++ ((Lt ++ [c]) ++ rest)).Nodup := by
  simpa using h

theorem partition_loop_spec (gt : Nat → Nat → Bool) (b : Nat) (e : Ptr) :
    ∀ (todo : List Nat) (fuel : Nat) (current : Ptr) (s : QState) (G Lt : List Nat),
      Seg s.next current todo e → (∀ a ∈ todo, some a ≠ e) → todo.length < fuel →
      OpenSeg s.next s.gtfront s.gtback G → OpenSeg s.next s.ltfront s.ltback Lt →
      (G ++ (Lt ++ todo)).Nodup →
      ∃ s1, partition_loop gt b e fuel current s = some s1 ∧
        OpenSeg s1.next s1.gtfront s1.gtback (G ++ todo.filter (fun x => gt x b)) ∧
        OpenSeg s1.next s1.ltfront s1.ltback (Lt ++ todo.filter (fun x => !gt x b)) ∧
        (∀ x, x ∉ G → x ∉ Lt → x ∉ todo → s1.next x = s.next x) := by
  intro todo
  induction todo with
  | nil =>
    intro fuel current s G Lt hseg _ hfuel hG hL _
    have hc : current = e := hseg
    obtain ⟨k, rfl⟩ : ∃ k, fuel = k + 1 := ⟨fuel - 1, by simp at hfuel; omega⟩
    refine ⟨s, by simp [partition_loop, hc], by simpa using hG, by simpa using hL, ?_⟩
    intro x _ _ _; rfl
  | cons c rest ih =>
    intro fuel current s G Lt hseg hne hfuel hG hL hnd
    have hc : current = some c := hseg.1
    have hrest : Seg s.next (s.next c) rest e := hseg.2
    have hce : some c ≠ e := hne c (by simp)
    obtain ⟨k, rfl⟩ : ∃ k, fuel = k + 1 := ⟨fuel - 1, by simp at hfuel; omega⟩
    have hk : rest.length < k := by simpa using hfuel
    obtain ⟨nG, nL, cG, cL, rG, lG, rL⟩ := nodup_parts hnd
    subst hc
    by_cases hgt : gt c b = true
    · -- the node is appended to the greater chain
      have hstep : partition_loop gt b e (k + 1) (some c) s =
          partition_loop gt b e k (next_after s.next s.gtback (some c) c)
            { s with next := next_after s.next s.gtback (some c)
                     gtfront := front_after s.gtfront s.gtback (some c)
                     gtback := some c } := by
        simp [partition_loop, hce, hgt, QState.store_gt_eq]
      have hnc : next_after s.next s.gtback (some c) c = s.next c :=
        next_after_of_not_mem hG _ cG
      obtain ⟨s1, e1, g1, l1, f1⟩ := ih k (next_after s.next s.gtback (some c) c)
        { s with next := next_after s.next s.gtback (some c)
                 gtfront := front_after s.gtfront s.gtback (some c)
                 gtback := some c } (G ++ [c]) Lt
        (by
          rw [hnc]
          exact Seg.frame (fun a ha => next_after_of_not_mem hG _ (rG a ha)) hrest)
        (fun a ha => hne a (by simp [ha])) hk
        (hG.push nG c)
        (OpenSeg.frame_open (fun a ha => next_after_of_not_mem hG _ (lG a ha)) hL)
        (nodup_move_gt hnd)
      refine ⟨s1, by rw [hstep, e1], ?_, ?_, ?_⟩
      · simpa [List.filter_cons, hgt] using g1
      · simpa [List.filter_cons, hgt] using l1
      · intro x xG xL xT
        have hx : x ≠ c ∧ x ∉ rest := by simpa using xT
        rw [f1 x (by simp [xG, hx.1]) xL hx.2]
        exact next_after_of_not_mem hG _ xG
    · -- the node is appended to the other chain
      have hgt : gt c b = false := by simpa using hgt
      have hstep : partition_loop gt b e (k + 1) (some c) s =
          partition_loop gt b e k (next_after s.next s.ltback (some c) c)
            { s with next := next_after s.next s.ltback (some c)
                     ltfront := front_after s.ltfront s.ltback (some c)
                     ltback := some c } := by
        simp [partition_loop, hce, hgt, QState.store_lt_eq]
      have hnc : next_after s.next s.ltback (some c) c = s.next c :=
        next_after_of_not_mem hL _ cL
      obtain ⟨s1, e1, g1, l1, f1⟩ := ih k (next_after s.next s.ltback (some c) c)
        { s with next := next_after s.next s.ltback (some c)
                 ltfront := front_after s.ltfront s.ltback (some c)
                 ltback := some c } G (Lt ++ [c])
        (by
          rw [hnc]
          exact Seg.frame (fun a ha => next_after_of_not_mem hL _ (rL a ha)) hrest)
        (fun a ha => hne a (by simp [ha])) hk
        (OpenSeg.frame_open (fun a ha => next_after_of_not_mem hL _
          (fun hm => lG a hm ha)) hG)
        (hL.push nL c)
        (nodup_move_lt hnd)
      refine ⟨s1, by rw [hstep, e1], ?_, ?_, ?_⟩
      · simpa [List.filter_cons, hgt] using g1
      · simpa [List.filter_cons, hgt] using l1
      · intro x xG xL xT
        have hx : x ≠ c ∧ x ∉ rest := by simpa using xT
        rw [f1 x xG (by simp [xL, hx.1]) hx.2]
        exact next_after_of_not_mem hL _ xL

end partition_lemmas

section listqsort_lemmas

theorem QState.load_store_lt (s : QState) (v : Ptr) : (s.store_lt v).load_lt = v := by
  cases s with
  | mk n gf gb lf lb =>
    cases lb with
    | none => rfl
    | some a => simp [QState.store_lt, QState.load_lt]

theorem listqsort_spec (gt : Nat → Nat → Bool) :
    ∀ (fuel : Nat) (L : List Nat) (next : Nat → Ptr) (p e : Ptr),
      Seg next p L e → L.Nodup → (∀ a ∈ L, some a ≠ e) → L.length < fuel →
      ∃ next1 p1, listqsort gt fuel next p e = some (next1, p1) ∧
        Seg next1 p1 (quicksort gt L) e ∧ (∀ x, x ∉ L → next1 x = next x) := by
  intro fuel
  induction fuel with
  | zero => intro L next p e _ _ _ h; exact absurd h (Nat.not_lt_zero _)
  | succ k ih =>
    intro L next p e hseg hnd hne hfuel
    cases L with
    | nil =>
      have hp : p = e := hseg
      exact ⟨next, p, by simp [listqsort, hp], hseg, fun _ _ => rfl⟩
    | cons b rest =>
      have hp : p = some b := hseg.1
      have hrest : Seg next (next b) rest e := hseg.2
      have hbe : some b ≠ e := hne b (by simp)
      have hk : rest.length < k := by simpa using hfuel
      obtain ⟨hb, hndr⟩ := List.nodup_cons.mp hnd
      subst hp
      -- the partition loop
      obtain ⟨s, es, hG, hL, hfr⟩ := partition_loop_spec gt b e rest (k + 1) (next b)
        { next := next, gtfront := none, gtback := none, ltfront := none, ltback := none }
        [] [] hrest (fun a ha => hne a (by simp [ha])) (by omega)
        (Or.inl ⟨rfl, rfl⟩) (Or.inl ⟨rfl, rfl⟩) (by simpa using hndr)
      simp only [List.nil_append] at hG hL
      have memG : ∀ a, a ∈ rest.filter (fun x => gt x b) → a ∈ rest := fun a ha =>
        (List.mem_filter.mp ha).1
      have memL : ∀ a, a ∈ rest.filter (fun x => !gt x b) → a ∈ rest := fun a ha =>
        (List.mem_filter.mp ha).1
      have disj : ∀ a, a ∈ rest.filter (fun x => gt x b) →
          a ∉ rest.filter (fun x => !gt x b) := by
        intro a h1 h2
        have := (List.mem_filter.mp h1).2
        have := (List.mem_filter.mp h2).2
        simp_all
      have ndG : (rest.filter (fun x => gt x b)).Nodup := hndr.filter _
      have ndL : (rest.filter (fun x => !gt x b)).Nodup := hndr.filter _
      -- `*gtback = end`
      have hG1 : Seg (s.store_gt e).next (s.store_gt e).gtfront
          (rest.filter (fun x => gt x b)) e := by
        rw [QState.store_gt_eq]; exact hG.close ndG e
      have hL1 : OpenSeg (s.store_gt e).next (s.store_gt e).ltfront (s.store_gt e).ltback
          (rest.filter (fun x => !gt x b)) := by
        rw [QState.store_gt_eq]
        exact OpenSeg.frame_open (fun a ha => next_after_of_not_mem hG _
          (fun hm => disj a hm ha)) hL
      have hfr1 : ∀ x, x ∉ rest → (s.store_gt e).next x = next x := by
        intro x hx
        rw [QState.store_gt_eq]
        show next_after s.next s.gtback e x = next x
        rw [next_after_of_not_mem hG _ (fun hm => hx (memG x hm))]
        exact hfr x (by simp) (by simp) hx
      have hgb1 : ∀ a, (s.store_gt e).gtback = some a → (s.store_gt e).next a = e := by
        intro a ha
        rw [QState.store_gt_eq] at ha ⊢
        have ha : s.gtback = some a := ha
        show next_after s.next s.gtback e a = e
        rw [ha]; simp [next_after]
      have hgf1 : (s.store_gt e).gtback = none → (s.store_gt e).gtfront = e := by
        intro ha
        rw [QState.store_gt_eq] at ha ⊢
        have ha : s.gtback = none := ha
        show front_after s.gtfront s.gtback e = e
        rw [ha]; rfl
      have hgbm : ∀ a, (s.store_gt e).gtback = some a →
          a ∈ rest.filter (fun x => gt x b) := by
        intro a ha
        rw [QState.store_gt_eq] at ha
        exact hG.back_mem ha
      generalize hs1 : s.store_gt e = s1 at hG1 hL1 hfr1 hgb1 hgf1 hgbm
      -- `*ltback = begin`
      have hL2 : Seg (s1.store_lt (some b)).next (s1.store_lt (some b)).ltfront
          (rest.filter (fun x => !gt x b)) (some b) := by
        rw [QState.store_lt_eq]; exact hL1.close ndL (some b)
      have hG2 : Seg (s1.store_lt (some b)).next (s1.store_lt (some b)).gtfront
          (rest.filter (fun x => gt x b)) e := by
        rw [QState.store_lt_eq]
        exact Seg.frame (fun a ha => next_after_of_not_mem hL1 _ (disj a ha)) hG1
      have hfr2 : ∀ x, x ∉ rest → (s1.store_lt (some b)).next x = next x := by
        intro x hx
        rw [QState.store_lt_eq]
        show next_after s1.next s1.ltback (some b) x = next x
        rw [next_after_of_not_mem hL1 _ (fun hm => hx (memL x hm))]
        exact hfr1 x hx
      have hgb2 : ∀ a, (s1.store_lt (some b)).gtback = some a →
          a ∈ rest.filter (fun x => gt x b) ∧ (s1.store_lt (some b)).next a = e := by
        intro a ha
        rw [QState.store_lt_eq] at ha ⊢
        have ha : s1.gtback = some a := ha
        refine ⟨hgbm a ha, ?_⟩
        show next_after s1.next s1.ltback (some b) a = e
        rw [next_after_of_not_mem hL1 _ (disj a (hgbm a ha))]
        exact hgb1 a ha
      have hgf2 : (s1.store_lt (some b)).gtback = none →
          (s1.store_lt (some b)).gtfront = e := by
        intro ha
        rw [QState.store_lt_eq] at ha ⊢
        exact hgf1 ha
      have hld2 : (s1.store_lt (some b)).load_lt = some b := QState.load_store_lt s1 (some b)
      generalize hs2 : s1.store_lt (some b) = s2 at hL2 hG2 hfr2 hgb2 hgf2 hld2
      -- first recursive call
      obtain ⟨next1, lf1, er1, hS1, hf1⟩ := ih (rest.filter (fun x => !gt x b)) s2.next
        s2.ltfront (some b) hL2 ndL
        (by
          intro a ha h
          have : a = b := by simpa using h
          subst this
          exact hb (memL a ha))
        (lt_of_le_of_lt (List.length_filter_le _ _) hk)
      have hG3 : Seg next1 s2.gtfront (rest.filter (fun x => gt x b)) e :=
        Seg.frame (fun a ha => hf1 a (disj a ha)) hG2
      have hld3 : QState.load_gt { s2 with next := next1, ltfront := lf1 } = e := by
        cases hgb : s2.gtback with
        | none =>
          simp only [QState.load_gt, hgb]
          exact hgf2 hgb
        | some a =>
          simp only [QState.load_gt, hgb]
          obtain ⟨h1, h2⟩ := hgb2 a hgb
          rw [hf1 a (disj a h1)]
          exact h2
      -- second recursive call
      obtain ⟨next2, gf2, er2, hS2, hf2⟩ := ih (rest.filter (fun x => gt x b)) next1
        s2.gtfront e hG3 ndG (fun a ha => hne a (by simp [memG a ha]))
        (lt_of_le_of_lt (List.length_filter_le _ _) hk)
      refine ⟨Function.update next2 b gf2, lf1, ?_, ?_, ?_⟩
      · simp only [listqsort, if_neg hbe, es, hs1, hs2, hld2, er1, hld3, er2]
      · rw [quicksort_cons]
        refine Seg.append (m := some b) (Seg.frame ?_ hS1) ⟨rfl, ?_⟩
        · intro a ha
          have haL : a ∈ rest.filter (fun x => !gt x b) := (quicksort_perm gt _).mem_iff.mp ha
          have hab : a ≠ b := fun h => hb (h ▸ memL a haL)
          rw [Function.update_noteq hab]
          exact hf2 a (fun hm => disj a hm haL)
        · rw [Function.update_same]
          refine Seg.frame ?_ hS2
          intro a ha
          have haG : a ∈ rest.filter (fun x => gt x b) := (quicksort_perm gt _).mem_iff.mp ha
          have hab : a ≠ b := fun h => hb (h ▸ memG a haG)
          exact Function.update_noteq hab _ _
      · intro x hx
        have hx : x ≠ b ∧ x ∉ rest := by simpa using hx
        rw [Function.update_noteq hx.1, hf2 x (fun hm => hx.2 (memG x hm)),
          hf1 x (fun hm => hx.2 (memL x hm))]
        exact hfr2 x hx.2

end listqsort_lemmas

section sorted_lemmas
variable {α : Type}

theorem qsort_ref_sorted (key : α → Nat) :
    ∀ (n : Nat) (l : List α), l.length ≤ n →
      (qsort_ref (fun a b => decide (key a > key b)) n l).Pairwise
        (fun a b => key a ≤ key b) := by
  intro n
  induction n with
  | zero => intro l _; exact List.Pairwise.nil
  | succ n ih =>
    intro l hl
    cases l with
    | nil => exact List.Pairwise.nil
    | cons p rest =>
      have hlen : rest.length ≤ n := by simpa using hl
      have l1 := le_trans (List.length_filter_le (fun x => !decide (key x > key p)) rest) hlen
      have l2 := le_trans (List.length_filter_le (fun x => decide (key x > key p)) rest) hlen
      show (qsort_ref _ n (rest.filter (fun x => !decide (key x > key p))) ++
        p :: qsort_ref _ n (rest.filter (fun x => decide (key x > key p)))).Pairwise _
      rw [List.pairwise_append]
      refine ⟨ih _ l1, List.pairwise_cons.mpr ⟨?_, ih _ l2⟩, ?_⟩
      · intro a ha
        have ha := (qsort_ref_perm _ n _ l2).mem_iff.mp ha
        have := (List.mem_filter.mp ha).2
        simp at this
        omega
      · intro a ha c hc
        have ha := (qsort_ref_perm _ n _ l1).mem_iff.mp ha
        have h1 := (List.mem_filter.mp ha).2
        simp at h1
        rcases List.mem_cons.mp hc with rfl | hc
        · exact h1
        · have hc := (qsort_ref_perm _ n _ l2).mem_iff.mp hc
          have h2 := (List.mem_filter.mp hc).2
          simp at h2
          omega

theorem quicksort_sorted (key : α → Nat) (l : List α) :
    (quicksort (fun a b => decide (key a > key b)) l).Pairwise (fun a b => key a ≤ key b) :=
  qsort_ref_sorted key l.length l (le_refl _)

theorem quicksort_strict (key : α → Nat) (l : List α) (hd : (l.map key).Nodup) :
    (quicksort (fun a b => decide (key a > key b)) l).Pairwise (fun a b => key a < key b) := by
  have hs := quicksort_sorted key l
  have hp := quicksort_perm (fun a b => decide (key a > key b)) l
  have hn : ((quicksort (fun a b => decide (key a > key b)) l).map key).Nodup :=
    (hp.map key).nodup_iff.mpr hd
  have hn2 := List.pairwise_map.mp hn
  exact (hs.and hn2).imp (fun h => lt_of_le_of_ne h.1 h.2)

end sorted_lemmas

section seg_unique

theorem Seg.unique {next : Nat → Ptr} : ∀ {l1 l2 : List Nat} {p e : Ptr},
    Seg next p l1 e → Seg next p l2 e → (∀ a ∈ l1, some a ≠ e) → (∀ a ∈ l2, some a ≠ e) →
    l1 = l2
  | [], [], _, _, _, _, _, _ => rfl
  | [], a :: _, _, _, h1, h2, _, n2 => by
    have h1 : _ = _ := h1
    have h3 := h2.1
    rw [h1] at h3
    exact absurd h3.symm (n2 a (by simp))
  | a :: _, [], _, _, h1, h2, n1, _ => by
    have h2 : _ = _ := h2
    have h3 := h1.1
    rw [h2] at h3
    exact absurd h3.symm (n1 a (by simp))
  | a :: l1, c :: l2, _, _, h1, h2, n1, n2 => by
    have e1 := h1.1
    have e2 := h2.1
    rw [e1] at e2
    have e3 : a = c := by simpa using e2
    subst e3
    rw [Seg.unique h1.2 h2.2 (fun x hx => n1 x (by simp [hx])) (fun x hx => n2 x (by simp [hx]))]

theorem Seg.suffix {next : Nat → Ptr} : ∀ {l1 l2 : List Nat} {p e : Ptr},
    Seg next p (l1 ++ l2) e → ∃ m, Seg next m l2 e
  | [], _, p, _, h => ⟨p, h⟩
  | _ :: _, _, _, _, h => Seg.suffix h.2

theorem Seg.nodup {next : Nat → Ptr} : ∀ {l : List Nat} {p e : Ptr},
    Seg next p l e → (∀ a ∈ l, some a ≠ e) → l.Nodup
  | [], _, _, _, _ => List.nodup_nil
  | a :: l, _, _, h, hn => by
    have hne : ∀ x ∈ l, some x ≠ _ := fun x hx => hn x (by simp [hx])
    refine List.nodup_cons.mpr ⟨?_, Seg.nodup h.2 hne⟩
    intro ha
    obtain ⟨l3, l4, rfl⟩ := List.append_of_mem ha
    obtain ⟨m, hm⟩ := @Seg.suffix next l3 (a :: l4) _ _ h.2
    have h4 : Seg next (next a) l4 _ := hm.2
    have := Seg.unique h4 h.2 (fun x hx => hne x (by simp [hx])) hne
    have hl := congrArg List.length this
    simp at hl
    omega

theorem Seg.last_next {next : Nat → Ptr} : ∀ {l : List Nat} {p e : Ptr} {a : Nat},
    Seg next p (l ++ [a]) e → next a = e
  | [], _, _, _, h => h.2
  | _ :: _, _, _, _, h => Seg.last_next h.2

end seg_unique

section listqsort_claims

/-- C4: for every finite list segment `[begin, end)` (the nodes `L`, none of them `end`),
`listqsort` returns and only relinks nodes: the nodes reachable from the new `begin` up to
`end` are the nodes of the input segment, each exactly once (a duplicate-free permutation of
the same length), the `next` field of no node outside the segment changes, and the `next`
field of the last node is `end`. -/
theorem listqsort_relinks (gt : Nat → Nat → Bool) (next : Nat → Ptr) (begin_ end_ : Ptr)
    (L : List Nat) (hseg : Seg next begin_ L end_) (hend : ∀ a ∈ L, some a ≠ end_)
    (fuel : Nat) (hfuel : L.length < fuel) :
    ∃ next1 begin1 L1, listqsort gt fuel next begin_ end_ = some (next1, begin1) ∧
      Seg next1 begin1 L1 end_ ∧ L1.Perm L ∧ L1.Nodup ∧ L1.length = L.length ∧
      (∀ x, x ∉ L → next1 x = next x) ∧
      (∀ l a, L1 = l ++ [a] → next1 a = end_) := by
  have hnd := Seg.nodup hseg hend
  obtain ⟨next1, p1, e1, s1, f1⟩ := listqsort_spec gt fuel L next begin_ end_ hseg hnd hend hfuel
  have hp := quicksort_perm gt L
  refine ⟨next1, p1, quicksort gt L, e1, s1, hp, hp.nodup_iff.mpr hnd, hp.length_eq, f1, ?_⟩
  intro l a hl
  rw [hl] at s1
  exact Seg.last_next s1

theorem listqsort_relinks_witness :
    ∃ next1 begin1 L1,
      listqsort (fun a b => decide (a > b)) 4
        (fun a => if a = 3 then some 1 else if a = 1 then some 2 else none) (some 3) none
          = some (next1, begin1) ∧
      Seg next1 begin1 L1 none ∧ L1.Perm [3, 1, 2] ∧ L1.Nodup ∧
      L1.length = [3, 1, 2].length ∧
      (∀ x, x ∉ [3, 1, 2] → next1 x =
        (fun a => if a = 3 then some 1 else if a = 1 then some 2 else none) x) ∧
      (∀ l a, L1 = l ++ [a] → next1 a = none) :=
  listqsort_relinks (fun a b => decide (a > b))
    (fun a => if a = 3 then some 1 else if a = 1 then some 2 else none) (some 3) none
    [3, 1, 2] (by decide) (by decide) 4 (by decide)

variable {F : Type}

/-- C3: for every finite NULL-terminated list of records (the nodes `L` from the head),
`sort_bynline` returns and leaves the same nodes, with unchanged line numbers, linked from
the head in ascending original-line order: no node is immediately followed by a node with a
smaller line number (the whole sequence is non-decreasing), and when the line numbers are
pairwise distinct the sequence is strictly ascending. -/
theorem sort_bynline_ascending (h : Heap F) (l : dplist) (L : List Nat)
    (hseg : Seg h.nexts l.head L none) (fuel : Nat) (hfuel : L.length < fuel) :
    ∃ h1 l1 L1, l.sort_bynline fuel h = some (h1, l1) ∧
      Seg h1.nexts l1.head L1 none ∧ L1.Perm L ∧
      (∀ a, (h1 a).nline = (h a).nline) ∧
      (L1.map (fun a => (h1 a).nline)).Chain' (fun x y => ¬ y < x) ∧
      (L1.map (fun a => (h1 a).nline)).Sorted (fun x y => x ≤ y) ∧
      ((L.map (fun a => (h a).nline)).Nodup →
        (L1.map (fun a => (h1 a).nline)).Sorted (fun x y => x < y)) := by
  have hend : ∀ a ∈ L, some a ≠ (none : Ptr) := fun a _ => by simp
  have hnd := Seg.nodup hseg hend
  obtain ⟨next1, p1, e1, s1, _⟩ :=
    listqsort_spec (dp_gt h) fuel L h.nexts l.head none hseg hnd hend hfuel
  have hsorted : (quicksort (dp_gt h) L).Pairwise
      (fun a b => (h a).nline ≤ (h b).nline) := quicksort_sorted (fun a => (h a).nline) L
  refine ⟨fun a => { h a with next := next1 a }, { l with head := p1 }, quicksort (dp_gt h) L,
    ?_, s1, quicksort_perm _ L, fun _ => rfl, ?_, ?_, ?_⟩
  · simp only [dplist.sort_bynline, e1]
  · apply List.Pairwise.chain'
    exact List.pairwise_map.mpr (hsorted.imp (fun hab => Nat.not_lt.mpr hab))
  · exact List.pairwise_map.mpr hsorted
  · intro hd
    exact List.pairwise_map.mpr (quicksort_strict (fun a => (h a).nline) L hd)

theorem sort_bynline_ascending_witness :
    ∃ h1 l1 L1,
      (dplist.mk (some 0) 3 []).sort_bynline 4
        (fun a => ({ maxsize := 1, maxfid := 0, nline := 7 - a, label := (0 : Int),
                     features := [some 0], next := if a < 2 then some (a + 1) else none }
                   : dp Int)) = some (h1, l1) ∧
      Seg h1.nexts l1.head L1 none ∧ L1.Perm [0, 1, 2] ∧
      (∀ a, (h1 a).nline =
        ((fun a => ({ maxsize := 1, maxfid := 0, nline := 7 - a, label := (0 : Int),
                      features := [some 0], next := if a < 2 then some (a + 1) else none }
                    : dp Int)) a).nline) ∧
      (L1.map (fun a => (h1 a).nline)).Chain' (fun x y => ¬ y < x) ∧
      (L1.map (fun a => (h1 a).nline)).Sorted (fun x y => x ≤ y) ∧
      (([0, 1, 2].map (fun a =>
          ((fun a => ({ maxsize := 1, maxfid := 0, nline := 7 - a, label := (0 : Int),
                        features := [some 0], next := if a < 2 then some (a + 1) else none }
                      : dp Int)) a).nline)).Nodup →
        (L1.map (fun a => (h1 a).nline)).Sorted (fun x y => x < y)) :=
  sort_bynline_ascending
    (fun a => ({ maxsize := 1, maxfid := 0, nline := 7 - a, label := (0 : Int),
                 features := [some 0], next := if a < 2 then some (a + 1) else none } : dp Int))
    (dplist.mk (some 0) 3 []) [0, 1, 2] (by decide) 4 (by decide)

end listqsort_claims

section discovery_lemmas
variable {F : Type}

theorem discovered_snoc (ks : List (List Char)) (k : List Char) :
    discovered (ks ++ [k]) =
      if k ∈ discovered ks then discovered ks else discovered ks ++ [k] := by
  simp [discovered, List.foldl_append]

theorem mem_discovered (ks : List (List Char)) (k : List Char) :
    k ∈ discovered ks ↔ k ∈ ks := by
  induction ks using List.reverseRecOn with
  | nil => simp [discovered]
  | append_singleton ks a ih =>
    rw [discovered_snoc]
    by_cases h : a ∈ discovered ks
    · rw [if_pos h]
      constructor
      · intro hk; simp [ih.mp hk]
      · intro hk
        rcases List.mem_append.mp hk with hk | hk
        · exact ih.mpr hk
        · have : k = a := by simpa using hk
          rw [this]; exact h
    · rw [if_neg h]
      simp [ih]

theorem nodup_discovered (ks : List (List Char)) : (discovered ks).Nodup := by
  induction ks using List.reverseRecOn with
  | nil => simp [discovered]
  | append_singleton ks a ih =>
    rw [discovered_snoc]
    by_cases h : a ∈ discovered ks
    · rw [if_pos h]; exact ih
    · rw [if_neg h]
      exact List.nodup_append.mpr ⟨ih, List.nodup_singleton a, by
        intro x hx hx2
        have : x = a := by simpa using hx2
        exact h (this ▸ hx)⟩

theorem addrs_snoc (recs : List (Rec F)) (r : Rec F) (k : List Char) :
    addrs (recs ++ [r]) k =
      if r.key = k then recs.length :: addrs recs k else addrs recs k := by
  unfold addrs
  rw [List.length_append, List.length_singleton, List.range_succ, List.filter_append,
    List.reverse_append]
  have h1 : List.filter (fun a =>
        match (recs ++ [r])[a]? with
        | some r => r.key == k
        | none => false) (List.range recs.length) =
      List.filter (fun a =>
        match recs[a]? with
        | some r => r.key == k
        | none => false) (List.range recs.length) := by
    apply List.filter_congr
    intro a ha
    rw [List.getElem?_append_left (List.mem_range.mp ha)]
  rw [h1]
  by_cases hk : r.key = k
  · simp [hk]
  · simp [hk]

theorem lt_of_mem_addrs {recs : List (Rec F)} {k : List Char} {a : Nat}
    (h : a ∈ addrs recs k) : a < recs.length := by
  unfold addrs at h
  rw [List.mem_reverse] at h
  exact List.mem_range.mp (List.mem_filter.mp h).1

theorem group_recs_snoc (recs : List (Rec F)) (r : Rec F) (k : List Char) :
    group_recs (recs ++ [r]) k =
      if r.key = k then r :: group_recs recs k else group_recs recs k := by
  unfold group_recs
  rw [List.filter_append]
  by_cases hk : r.key = k
  · simp [hk]
  · simp [hk]

theorem addrs_map (recs : List (Rec F)) (k : List Char) :
    (addrs recs k).map (fun a => recs[a]?) = (group_recs recs k).map some := by
  induction recs using List.reverseRecOn with
  | nil => rfl
  | append_singleton recs r ih =>
    rw [addrs_snoc, group_recs_snoc]
    have h1 : (addrs recs k).map (fun a => (recs ++ [r])[a]?) =
        (addrs recs k).map (fun a => recs[a]?) := by
      apply List.map_congr_left
      intro a ha
      rw [List.getElem?_append_left (lt_of_mem_addrs ha)]
    by_cases hk : r.key = k
    · rw [if_pos hk, if_pos hk, List.map_cons, List.map_cons, h1, ih]
      simp
    · rw [if_neg hk, if_neg hk, h1, ih]

end discovery_lemmas

section bitarray_lemmas
variable {F : Type}

theorem bitarray.is_up_eq (b : bitarray) (i : Nat) : b.is_up i = (b[i]?).getD false := by
  simp [bitarray.is_up, List.getD_eq_getElem?_getD]

theorem bitarray.is_up_set_up (b : bitarray) (i j : Nat) :
    (b.set_up i).is_up j = (decide (j = i) || b.is_up j) := by
  rw [bitarray.is_up_eq, bitarray.is_up_eq, bitarray.set_up, List.getElem?_set]
  by_cases h : i = j
  · subst h
    have : i < b.length + (i + 1 - b.length) := by omega
    simp [this]
  · have h2 : ¬ j = i := fun e => h e.symm
    rw [if_neg h, List.getElem?_append]
    by_cases hj : j < b.length
    · simp [hj, h2]
    · rw [if_neg hj, List.getElem?_replicate, List.getElem?_eq_none (by omega)]
      split <;> simp [h2]

theorem bitarray.is_up_or (a b : bitarray) (j : Nat) :
    (a.or b).is_up j = (a.is_up j || b.is_up j) := by
  rw [bitarray.is_up_eq, bitarray.or, List.getElem?_map]
  by_cases hj : j < max a.length b.length
  · rw [List.getElem?_range hj]; rfl
  · rw [List.getElem?_eq_none (by simpa using hj)]
    have h1 : a.is_up j = false := by
      rw [bitarray.is_up_eq, List.getElem?_eq_none (by omega)]; rfl
    have h2 : b.is_up j = false := by
      rw [bitarray.is_up_eq, List.getElem?_eq_none (by omega)]; rfl
    simp [h1, h2]

theorem bitarray.mem_get_uparray (b : bitarray) (i : Nat) :
    i ∈ b.get_uparray ↔ b.is_up i = true := by
  unfold bitarray.get_uparray
  rw [List.mem_filter, List.mem_range]
  constructor
  · exact fun h => h.2
  · intro h
    refine ⟨?_, h⟩
    by_contra hlt
    rw [bitarray.is_up_eq, List.getElem?_eq_none (by omega)] at h
    simp at h

theorem bitarray.get_uparray_sorted (b : bitarray) :
    b.get_uparray.Pairwise (fun x y => x < y) :=
  (List.pairwise_lt_range b.length).filter _

theorem is_up_merge_usedfid (us : List bitarray) :
    ∀ (u0 : bitarray) (j : Nat),
      (merge_usedfid u0 us).is_up j = true ↔ ∃ u ∈ u0 :: us, u.is_up j = true := by
  induction us with
  | nil => intro u0 j; simp [merge_usedfid]
  | cons c rest ih =>
    intro u0 j
    rw [merge_usedfid, ih]
    constructor
    · rintro ⟨u, hu, hj⟩
      rcases List.mem_cons.mp hu with rfl | hu
      · rw [bitarray.is_up_or, Bool.or_eq_true] at hj
        rcases hj with hj | hj
        · exact ⟨u0, by simp, hj⟩
        · exact ⟨c, by simp, hj⟩
      · exact ⟨u, by simp [hu], hj⟩
    · rintro ⟨u, hu, hj⟩
      rcases List.mem_cons.mp hu with rfl | hu
      · exact ⟨u.or c, by simp, by rw [bitarray.is_up_or, hj]; rfl⟩
      · rcases List.mem_cons.mp hu with rfl | hu
        · exact ⟨u0.or u, by simp, by rw [bitarray.is_up_or, hj]; simp⟩
        · exact ⟨u, by simp [hu], hj⟩

theorem is_up_foldl_set_up (feats : List (Nat × F)) :
    ∀ (b : bitarray) (j : Nat),
      (feats.foldl (fun b p => bitarray.set_up b p.1) b).is_up j = true ↔
        (b.is_up j = true ∨ ∃ p ∈ feats, p.1 = j) := by
  induction feats with
  | nil => intro b j; simp
  | cons a rest ih =>
    intro b j
    rw [List.foldl_cons, ih, bitarray.is_up_set_up]
    constructor
    · rintro (h | ⟨p, hp, hj⟩)
      · rw [Bool.or_eq_true] at h
        rcases h with h | h
        · exact Or.inr ⟨a, by simp, (of_decide_eq_true h).symm⟩
        · exact Or.inl h
      · exact Or.inr ⟨p, by simp [hp], hj⟩
    · rintro (h | ⟨p, hp, hj⟩)
      · exact Or.inl (by rw [h]; simp)
      · rcases List.mem_cons.mp hp with rfl | hp
        · exact Or.inl (by simp [hj])
        · exact Or.inr ⟨p, hp, hj⟩

end bitarray_lemmas

section ingest_lemmas
variable {F : Type}

theorem sum_set_add (l : List Nat) : ∀ (i n v : Nat), l[i]? = some n →
    (l.set i v).sum + n = l.sum + v := by
  induction l with
  | nil => intro i n v h; simp at h
  | cons a rest ih =>
    intro i n v h
    cases i with
    | zero =>
      have : a = n := by simpa using h
      subst this
      simp [List.set]; omega
    | succ i =>
      have h2 : rest[i]? = some n := by simpa using h
      have := ih i n v h2
      simp [List.set]; omega

theorem exists_mem_set_iff {α : Type} (l : List α) (i : Nat) (x v : α) (h : l[i]? = some x)
    (P : α → Prop) (Q : Prop) (hv : P v ↔ (P x ∨ Q)) :
    (∃ u ∈ l.set i v, P u) ↔ ((∃ u ∈ l, P u) ∨ Q) := by
  have hi : i < l.length := (List.getElem?_eq_some.mp h).1
  constructor
  · rintro ⟨u, hu, hp⟩
    rcases List.mem_or_eq_of_mem_set hu with hu | rfl
    · exact Or.inl ⟨u, hu, hp⟩
    · rcases hv.mp hp with hx | hq
      · exact Or.inl ⟨x, List.mem_iff_getElem?.mpr ⟨i, h⟩, hx⟩
      · exact Or.inr hq
  · rintro (⟨u, hu, hp⟩ | hq)
    · obtain ⟨t, ht⟩ := List.mem_iff_getElem?.mp hu
      by_cases e : i = t
      · subst e
        have : u = x := by rw [h] at ht; exact (Option.some.inj ht).symm
        subst this
        exact ⟨v, List.mem_iff_getElem?.mpr ⟨i, by rw [List.getElem?_set, if_pos rfl, if_pos hi]⟩,
          hv.mpr (Or.inl hp)⟩
      · exact ⟨u, List.mem_iff_getElem?.mpr ⟨t, by rw [List.getElem?_set_ne e]; exact ht⟩, hp⟩
    · exact ⟨v, List.mem_iff_getElem?.mpr ⟨i, by rw [List.getElem?_set, if_pos rfl, if_pos hi]⟩,
        hv.mpr (Or.inr hq)⟩

theorem observed_snoc (recs : List (Rec F)) (r : Rec F) (j : Nat) :
    observed (recs ++ [r]) j ↔ (observed recs j ∨ ∃ p ∈ r.feats, p.1 = j) := by
  unfold observed
  constructor
  · rintro ⟨r1, hr, hp⟩
    rcases List.mem_append.mp hr with hr | hr
    · exact Or.inl ⟨r1, hr, hp⟩
    · have : r1 = r := by simpa using hr
      subst this
      exact Or.inr hp
  · rintro (⟨r1, hr, hp⟩ | hp)
    · exact ⟨r1, by simp [hr], hp⟩
    · exact ⟨r, by simp, hp⟩

theorem Holds.of_fields {undf : F} {d d1 : dp F} {r : Rec F} (h : Holds undf d r)
    (h1 : d1.maxsize = d.maxsize) (h2 : d1.maxfid = d.maxfid) (h3 : d1.nline = d.nline)
    (h4 : d1.label = d.label) (h5 : d1.features = d.features) : Holds undf d1 r := by
  obtain ⟨⟨i1, i2, i3, i4⟩, n, l, s, b⟩ := h
  refine ⟨⟨?_, ?_, ?_, ?_⟩, ?_, ?_, ?_, ?_⟩
  · rw [h1, h2]; exact i1
  · rw [h1, h5]; exact i2
  · rw [h1]; exact i3
  · rw [h2, h5]; exact i4
  · rw [h3]; exact n
  · rw [h4]; exact l
  · rw [h2, h5]; exact s
  · rw [h2]; exact b

theorem Holds.of_new (undf : F) (r : Rec F) (hi : r.initsize < UINT_RANGE)
    (hf : ∀ p ∈ r.feats, p.1 < 2 ^ 31) :
    ∃ d, dp.ins_features undf (dp.new undf r.label r.nline r.initsize) r.feats = some d ∧
      Holds undf d r := by
  have hnew := dp.new_inv undf r.label r.nline r.initsize hi
  obtain ⟨d, e1, i1, _, n1, l1, _, t1, t2⟩ :=
    dp.ins_features_spec undf r.feats (dp.new undf r.label r.nline r.initsize) (fun _ => undf)
      hnew hf
      (by
        intro i hi
        have hi0 : i = 0 := by simpa [dp.new] using hi
        subst hi0
        have hpos : 0 < (if r.initsize > 0 then r.initsize else 1) := by split <;> omega
        simp [dp.new, malloc, List.getElem?_set, hpos])
      (by intro i _; rfl)
  have hsup : ∀ i, r.feats.foldl (fun g p => Function.update g p.1 p.2) (fun _ => undf) i =
      supplied undf r.feats i := by
    intro i
    rw [foldl_update_eq_supplied]; rfl
  exact ⟨d, e1, i1, n1, l1, fun i hi => by rw [t1 i hi, hsup], fun i hi => by
    rw [← hsup]; exact t2 i hi⟩

end ingest_lemmas

section ingest_step
variable {F : Type}

theorem key_of_mem_addrs {recs : List (Rec F)} {k : List Char} {a : Nat}
    (h : a ∈ addrs recs k) : ∃ r, recs[a]? = some r ∧ r.key = k := by
  unfold addrs at h
  rw [List.mem_reverse] at h
  have h2 := (List.mem_filter.mp h).2
  cases e : recs[a]? with
  | none => simp [e] at h2
  | some r =>
    simp only [e] at h2
    exact ⟨r, rfl, by simpa using h2⟩

theorem addrs_eq_nil {recs : List (Rec F)} {k : List Char}
    (h : k ∉ recs.map (fun r => r.key)) : addrs recs k = [] := by
  apply List.eq_nil_iff_forall_not_mem.mpr
  intro a ha
  obtain ⟨r, hr, hk⟩ := key_of_mem_addrs ha
  apply h
  rw [← hk]
  exact List.mem_map.mpr ⟨r, List.mem_iff_getElem?.mpr ⟨a, hr⟩, rfl⟩

theorem Ingest.add_spec (undf : F) (NPROCESSORS : Nat) (st : Ingest F) (recs : List (Rec F))
    (hst : IngestInv undf NPROCESSORS st recs) (r : Rec F) (hr : r.Valid NPROCESSORS) :
    ∃ st1, st.add undf r = some st1 ∧ IngestInv undf NPROCESSORS st1 (recs ++ [r]) := by
  obtain ⟨d, ed, hd⟩ := Holds.of_new undf r hr.initsize_lt hr.fid_lt
  have hn : r.ith < st.th_ndps.length := by rw [hst.ndps_len]; exact hr.ith_lt
  have hu : r.ith < st.th_usedfid.length := by rw [hst.used_len]; exact hr.ith_lt
  obtain ⟨n, en⟩ : ∃ n, st.th_ndps[r.ith]? = some n := ⟨_, List.getElem?_eq_getElem hn⟩
  obtain ⟨used, eu⟩ : ∃ u, st.th_usedfid[r.ith]? = some u := ⟨_, List.getElem?_eq_getElem hu⟩
  have hleaf : (st.rltrie.insert r.key).leaf = st.rltrie.leaf := by
    unfold trie.insert
    split
    · rfl
    · rename_i hk
      funext k
      by_cases e : k = r.key
      · rw [e]
        show Function.update st.rltrie.leaf r.key (dplist.new r.key) r.key =
          st.rltrie.leaf r.key
        rw [Function.update_same]
        have hnil : addrs recs r.key = [] := addrs_eq_nil (by
          rw [hst.keys_eq, mem_discovered] at hk; exact hk)
        have h1 := hst.seg r.key
        have h2 := hst.size_eq r.key
        have h3 := hst.rid_eq r.key
        rw [hnil] at h1 h2
        have h1 : (st.rltrie.leaf r.key).head = none := h1
        cases hl : st.rltrie.leaf r.key with
        | mk hd sz rid =>
          rw [hl] at h1 h2 h3
          simp only at h1 h2 h3
          subst h1; subst h3
          simp at h2
          subst h2
          rfl
      · show Function.update st.rltrie.leaf r.key (dplist.new r.key) k = st.rltrie.leaf k
        rw [Function.update_noteq e]
  have hkeys : (st.rltrie.insert r.key).keys =
      discovered ((recs ++ [r]).map (fun r => r.key)) := by
    rw [List.map_append, List.map_singleton, discovered_snoc, ← hst.keys_eq]
    unfold trie.insert
    split <;> rfl
  have hfresh : ∀ k, st.nalloc ∉ addrs recs k := by
    intro k hm
    have := lt_of_mem_addrs hm
    rw [hst.nalloc_eq] at this
    exact lt_irrefl _ this
  have hadd : st.add undf r = some
      { heap := Function.update (Function.update st.heap st.nalloc d) st.nalloc
          { d with next := (st.rltrie.leaf r.key).head }
        nalloc := st.nalloc + 1
        rltrie :=
          { keys := (st.rltrie.insert r.key).keys
            leaf := Function.update st.rltrie.leaf r.key
              { st.rltrie.leaf r.key with
                head := some st.nalloc
                size := ((st.rltrie.leaf r.key).size + 1) % UINT_RANGE } }
        th_ndps := st.th_ndps.set r.ith ((n + 1) % UINT_RANGE)
        th_usedfid := st.th_usedfid.set r.ith
          (r.feats.foldl (fun b p => bitarray.set_up b p.1) used)
        maxfid := r.feats.foldl (fun m p => if p.1 > m then p.1 else m) st.maxfid
        linecounter := st.linecounter } := by
    simp only [Ingest.add, Ingest.store, ed, en, eu, if_pos hu, dplist.push, hleaf,
      Function.update_same]
  refine ⟨_, hadd, ?_⟩
  have hnexts : ∀ x, x ≠ st.nalloc →
      Heap.nexts (Function.update (Function.update st.heap st.nalloc d) st.nalloc
        { d with next := (st.rltrie.leaf r.key).head }) x = st.heap.nexts x := by
    intro x hx
    simp [Heap.nexts, Function.update_noteq hx]
  have hnext0 : Heap.nexts (Function.update (Function.update st.heap st.nalloc d) st.nalloc
      { d with next := (st.rltrie.leaf r.key).head }) st.nalloc =
        (st.rltrie.leaf r.key).head := by
    simp [Heap.nexts]
  have hupd : ∀ v : dplist, Function.update st.rltrie.leaf r.key v r.key = v :=
    fun v => Function.update_same _ _ _
  refine ⟨?_, ?_, ?_, ?_, ?_, ?_, ?_, ?_, ?_, ?_, ?_⟩
  · show st.nalloc + 1 = (recs ++ [r]).length
    rw [hst.nalloc_eq]; simp
  · exact hkeys
  · intro k
    show (Function.update st.rltrie.leaf r.key _ k).rid = k
    by_cases e : k = r.key
    · rw [e, hupd]
      exact hst.rid_eq r.key
    · rw [Function.update_noteq e]
      exact hst.rid_eq k
  · intro k
    show Seg (Heap.nexts _) (Function.update st.rltrie.leaf r.key _ k).head
      (addrs (recs ++ [r]) k) none
    rw [addrs_snoc]
    by_cases e : k = r.key
    · rw [e, hupd, if_pos rfl, ← hst.nalloc_eq]
      refine ⟨rfl, ?_⟩
      rw [hnext0]
      exact Seg.frame (fun x hx => hnexts x (fun e => hfresh r.key (e ▸ hx)))
        (hst.seg r.key)
    · rw [Function.update_noteq e, if_neg (fun h => e h.symm)]
      exact Seg.frame (fun x hx => hnexts x (fun e => hfresh k (e ▸ hx))) (hst.seg k)
  · intro k
    show (Function.update st.rltrie.leaf r.key _ k).size = _
    rw [addrs_snoc]
    by_cases e : k = r.key
    · rw [e, hupd, if_pos rfl]
      show ((st.rltrie.leaf r.key).size + 1) % UINT_RANGE = _
      rw [hst.size_eq r.key, List.length_cons, Nat.add_mod, Nat.mod_mod, ← Nat.add_mod]
    · rw [Function.update_noteq e, if_neg (fun h => e h.symm)]
      exact hst.size_eq k
  · intro a r1 ha
    show Holds undf (Function.update (Function.update st.heap st.nalloc d) st.nalloc
        { d with next := (st.rltrie.leaf r.key).head } a) r1
    by_cases e : a = st.nalloc
    · rw [e, Function.update_same]
      rw [e, hst.nalloc_eq, List.getElem?_append_right (le_refl _)] at ha
      have : r1 = r := by simpa using ha.symm
      rw [this]
      exact Holds.of_fields hd rfl rfl rfl rfl rfl
    · have ha2 : a < recs.length := by
        have := (List.getElem?_eq_some.mp ha).1
        rw [hst.nalloc_eq] at e
        simp at this
        omega
      rw [List.getElem?_append_left ha2] at ha
      rw [Function.update_noteq e, Function.update_noteq e]
      exact hst.holds a r1 ha
  · show (st.th_ndps.set r.ith _).length = NPROCESSORS
    rw [List.length_set]; exact hst.ndps_len
  · intro m hm
    have hm : m ∈ st.th_ndps.set r.ith ((n + 1) % UINT_RANGE) := hm
    rcases List.mem_or_eq_of_mem_set hm with hm | rfl
    · exact hst.ndps_lt m hm
    · exact Nat.mod_lt _ (by decide)
  · show (st.th_ndps.set r.ith ((n + 1) % UINT_RANGE)).sum % UINT_RANGE = _
    have h1 := sum_set_add st.th_ndps r.ith n ((n + 1) % UINT_RANGE) en
    have h2 := hst.ndps_sum
    rw [List.length_append, List.length_singleton]
    have h3 : ((st.th_ndps.set r.ith ((n + 1) % UINT_RANGE)).sum + n) % UINT_RANGE =
        (st.th_ndps.sum + 1 + n) % UINT_RANGE := by
      rw [h1]
      rw [Nat.add_mod, Nat.mod_mod, ← Nat.add_mod]
      congr 1; omega
    have h4 : (st.th_ndps.set r.ith ((n + 1) % UINT_RANGE)).sum % UINT_RANGE =
        (st.th_ndps.sum + 1) % UINT_RANGE := Nat.ModEq.add_right_cancel' n h3
    rw [h4, Nat.add_mod, h2, ← Nat.add_mod]
  · show (st.th_usedfid.set r.ith _).length = NPROCESSORS
    rw [List.length_set]; exact hst.used_len
  · intro j
    show (∃ u ∈ st.th_usedfid.set r.ith _, bitarray.is_up u j = true) ↔ _
    rw [observed_snoc, ← hst.used_iff j]
    exact exists_mem_set_iff st.th_usedfid r.ith used _ eu
      (fun u => bitarray.is_up u j = true) _ (is_up_foldl_set_up r.feats used j)

end ingest_step

section ingest_all
variable {F : Type}

theorem Ingest.init_inv (undf : F) (NPROCESSORS : Nat) :
    IngestInv undf NPROCESSORS (Ingest.init undf NPROCESSORS) [] := by
  refine ⟨rfl, rfl, fun _ => rfl, fun _ => rfl, fun _ => rfl, ?_, ?_, ?_, ?_, ?_, ?_⟩
  · intro a r h; simp at h
  · simp [Ingest.init]
  · intro n hn
    have : n = 0 := by
      simp only [Ingest.init] at hn
      exact List.eq_of_mem_replicate hn
    rw [this]; decide
  · simp [Ingest.init]
  · simp [Ingest.init]
  · intro j
    constructor
    · rintro ⟨u, hu, hj⟩
      have : u = [] := by
        simp only [Ingest.init] at hu
        exact List.eq_of_mem_replicate hu
      rw [this] at hj
      simp [bitarray.is_up] at hj
    · rintro ⟨r, hr, _⟩
      simp at hr

theorem Ingest.add_all_spec (undf : F) (NPROCESSORS : Nat) (rest : List (Rec F)) :
    ∀ (st : Ingest F) (recs : List (Rec F)), IngestInv undf NPROCESSORS st recs →
      (∀ r ∈ rest, r.Valid NPROCESSORS) →
      ∃ st1, Ingest.add_all undf st rest = some st1 ∧
        IngestInv undf NPROCESSORS st1 (recs ++ rest) := by
  induction rest with
  | nil =>
    intro st recs hst _
    exact ⟨st, rfl, by simpa using hst⟩
  | cons r rest ih =>
    intro st recs hst hv
    obtain ⟨st1, e1, h1⟩ := Ingest.add_spec undf NPROCESSORS st recs hst r (hv r (by simp))
    obtain ⟨st2, e2, h2⟩ := ih st1 (recs ++ [r]) h1 (fun x hx => hv x (by simp [hx]))
    exact ⟨st2, by simp only [Ingest.add_all, e1, e2], by simpa using h2⟩

theorem merge_ndps_eq (ns : List Nat) :
    ∀ n0, n0 < UINT_RANGE → merge_ndps n0 ns = (n0 + ns.sum) % UINT_RANGE := by
  induction ns with
  | nil => intro n0 h; simp [merge_ndps, Nat.mod_eq_of_lt h]
  | cons m rest ih =>
    intro n0 _
    rw [merge_ndps, ih _ (Nat.mod_lt _ (by decide)), List.sum_cons, Nat.add_mod, Nat.mod_mod,
      ← Nat.add_mod, Nat.add_assoc]

theorem length_le_of_sorted_lt {l : List Nat} {N : Nat} (hs : l.Pairwise (fun x y => x < y))
    (hb : ∀ x ∈ l, x < N) : l.length ≤ N := by
  have hnd : l.Nodup := hs.imp (fun h => Nat.ne_of_lt h)
  have hsub : l ⊆ List.range N := fun x hx => List.mem_range.mpr (hb x hx)
  have := (List.subperm_of_subset hnd hsub).length_le
  simpa using this

end ingest_all

section fill_lemmas
variable {F : Type}

theorem Holds.row {undf : F} {d : dp F} {r : Rec F} (h : Holds undf d r) (w : Nat) :
    ∃ d1 b, d.get_resizedfeatures undf w = some (d1, b) ∧ IsRow undf w r b ∧
      d1.next = d.next ∧ d1.nline = d.nline ∧ d1.get_label = r.label := by
  obtain ⟨d1, b, e, _, _, _, _, hn, hl, hx, hlen, r1, r2⟩ :=
    dp.get_resizedfeatures_spec undf d h.inv w
  refine ⟨d1, b, e, ⟨hlen, ?_⟩, hx, hn, by rw [dp.get_label, hl, h.label_eq]⟩
  intro i hi
  by_cases hm : i ≤ d.maxfid
  · rw [r1 i hm, h.slots i hm]
  · rw [r2 i (by omega) hi, h.beyond i (by omega)]

theorem fill_rows_spec (undf : F) (nf hi : Nat) (rf : Nat → Rec F) :
    ∀ (L : List Nat) (lo : Nat) (l : dplist) (s : Fill F),
      Seg s.heap.nexts l.head L none → (∀ a ∈ L, Holds undf (s.heap a) (rf a)) →
      lo + L.length = hi → hi ≤ s.tmpfeatures.length → hi ≤ s.labels.length →
      hi < UINT_RANGE →
      ∃ l2 s2, fill_rows undf nf hi (hi - lo) lo l s = some (l2, s2) ∧ l2.head = none ∧
        s2.tmpfeatures.length = s.tmpfeatures.length ∧
        s2.labels.length = s.labels.length ∧
        (∀ x, x ∉ L → s2.heap x = s.heap x) ∧
        (∀ x, (s2.heap x).next = (s.heap x).next ∧ (s2.heap x).nline = (s.heap x).nline) ∧
        (∀ t a, L[t]? = some a → s2.labels[lo + t]? = some (some (rf a).label) ∧
          ∃ b, s2.tmpfeatures[lo + t]? = some (some b) ∧ IsRow undf nf (rf a) b) ∧
        (∀ j, (j < lo ∨ hi ≤ j) →
          s2.labels[j]? = s.labels[j]? ∧ s2.tmpfeatures[j]? = s.tmpfeatures[j]?) := by
  intro L
  induction L with
  | nil =>
    intro lo l s hseg _ hlo _ _ _
    have hh : l.head = none := hseg
    have e0 : hi - lo = 0 := by simp at hlo; omega
    have e1 : ¬ lo < hi := by simp at hlo; omega
    refine ⟨l, s, by rw [e0]; simp [fill_rows, e1], hh, rfl, rfl, fun _ _ => rfl,
      fun _ => ⟨rfl, rfl⟩, ?_, fun _ _ => ⟨rfl, rfl⟩⟩
    intro t a h; simp at h
  | cons a L ih =>
    intro lo l s hseg hholds hlo htmp hlab hU
    have hnd : (a :: L).Nodup := Seg.nodup hseg (fun _ _ => by simp)
    have haL : a ∉ L := (List.nodup_cons.mp hnd).1
    have hh : l.head = some a := hseg.1
    have hrest : Seg s.heap.nexts (s.heap.nexts a) L none := hseg.2
    have hlen : lo + (L.length + 1) = hi := by simpa using hlo
    have e0 : hi - lo = L.length + 1 := by omega
    have e1 : lo < hi := by omega
    obtain ⟨d1, b, eb, hrow, hnx, hnl, hlb⟩ := (hholds a (by simp)).row nf
    have hst1 : store s.tmpfeatures lo b = some (s.tmpfeatures.set lo (some b)) :=
      store_eq_some b (by omega)
    have hst2 : store s.labels lo d1.get_label = some (s.labels.set lo (some d1.get_label)) :=
      store_eq_some _ (by omega)
    have hnexts : Heap.nexts (Function.update s.heap a d1) = s.heap.nexts := by
      funext x
      by_cases e : x = a
      · rw [e]; simp [Heap.nexts, hnx]
      · simp [Heap.nexts, Function.update_noteq e]
    obtain ⟨l2, s2, e2, h1, h2, h3, h4, h5, h6, h7⟩ := ih (lo + 1)
      { l with head := (Function.update s.heap a d1 a).next }
      { heap := Function.update s.heap a d1
        tmpfeatures := s.tmpfeatures.set lo (some b)
        labels := s.labels.set lo (some d1.get_label) }
      (by
        show Seg (Heap.nexts (Function.update s.heap a d1))
          (Function.update s.heap a d1 a).next L none
        rw [hnexts, Function.update_same, hnx]
        exact hrest)
      (by
        intro x hx
        show Holds undf (Function.update s.heap a d1 x) (rf x)
        have hxa : x ≠ a := fun e => haL (by rw [← e]; exact hx)
        rw [Function.update_noteq hxa]
        exact hholds x (by simp [hx]))
      (by omega) (by simpa using htmp) (by simpa using hlab) hU
    have hmod : (lo + 1) % UINT_RANGE = lo + 1 := Nat.mod_eq_of_lt (by omega)
    have e3 : hi - (lo + 1) = L.length := by omega
    refine ⟨l2, s2, ?_, h1, by simpa using h2, by simpa using h3, ?_, ?_, ?_, ?_⟩
    · rw [e0]
      rw [e3] at e2
      simp only [fill_rows, if_pos e1, dplist.front, hh, eb, hst1, hst2, dplist.pop, hmod, e2]
    · intro x hx
      have hx : x ≠ a ∧ x ∉ L := by simpa using hx
      rw [h4 x hx.2]
      exact Function.update_noteq hx.1 _ _
    · intro x
      obtain ⟨p1, p2⟩ := h5 x
      by_cases e : x = a
      · rw [p1, p2, e]
        simp [hnx, hnl]
      · rw [p1, p2]
        simp [Function.update_noteq e]
    · intro t x ht
      cases t with
      | zero =>
        have hx : a = x := by simpa using ht
        subst hx
        obtain ⟨q1, q2⟩ := h7 lo (Or.inl (by omega))
        refine ⟨?_, b, ?_, hrow⟩
        · rw [Nat.add_zero, q1]
          show (s.labels.set lo (some d1.get_label))[lo]? = _
          rw [List.getElem?_set, if_pos rfl, if_pos (by omega), hlb]
        · rw [Nat.add_zero, q2]
          show (s.tmpfeatures.set lo (some b))[lo]? = _
          rw [List.getElem?_set, if_pos rfl, if_pos (by omega)]
      | succ t =>
        have ht2 : L[t]? = some x := by simpa using ht
        have := h6 t x ht2
        rw [show lo + (t + 1) = lo + 1 + t by omega]
        exact this
    · intro j hj
      obtain ⟨q1, q2⟩ := h7 j (by omega)
      have hne : lo ≠ j := by omega
      refine ⟨?_, ?_⟩
      · rw [q1]
        show (s.labels.set lo (some d1.get_label))[j]? = _
        rw [List.getElem?_set_ne hne]
      · rw [q2]
        show (s.tmpfeatures.set lo (some b))[j]? = _
        rw [List.getElem?_set_ne hne]

end fill_lemmas

section fill_lists_lemmas
variable {F : Type}

theorem addrs_disjoint {recs : List (Rec F)} {k1 k2 : List Char} (hne : k1 ≠ k2) {a : Nat}
    (h1 : a ∈ addrs recs k1) : a ∉ addrs recs k2 := by
  intro h2
  obtain ⟨r1, e1, q1⟩ := key_of_mem_addrs h1
  obtain ⟨r2, e2, q2⟩ := key_of_mem_addrs h2
  rw [e1] at e2
  have : r1 = r2 := Option.some.inj e2
  subst this
  exact hne (q1.symm.trans q2)

theorem fill_lists_spec (undf : F) (nf fuel : Nat) (rloffsets : List Nat) (recs : List (Rec F))
    (rf : Nat → Rec F) (nl : Nat → Nat) (leaf : List Char → dplist) :
    ∀ (ks : List (List Char)) (i lo : Nat) (s : Fill F),
      ks.Nodup →
      (∀ k ∈ ks, Seg s.heap.nexts (leaf k).head (addrs recs k) none) →
      (∀ k ∈ ks, ∀ a ∈ addrs recs k, Holds undf (s.heap a) (rf a)) →
      (∀ a, (s.heap a).nline = nl a) →
      (∀ k ∈ ks, (addrs recs k).length < fuel) →
      (∀ t, t ≤ ks.length → rloffsets[i + t]? =
        some (lo + ((ks.take t).map (fun k => (addrs recs k).length)).sum)) →
      lo + (ks.map (fun k => (addrs recs k).length)).sum ≤ s.tmpfeatures.length →
      lo + (ks.map (fun k => (addrs recs k).length)).sum ≤ s.labels.length →
      lo + (ks.map (fun k => (addrs recs k).length)).sum < UINT_RANGE →
      ∃ ids s3, fill_lists undf nf fuel rloffsets i (ks.map leaf) s = some (ids, s3) ∧
        ids = ks.map (fun k => (leaf k).rid) ∧
        s3.tmpfeatures.length = s.tmpfeatures.length ∧
        s3.labels.length = s.labels.length ∧
        (∀ t a, (ks.flatMap (fun k =>
            quicksort (fun a b => decide (nl a > nl b)) (addrs recs k)))[t]? = some a →
          s3.labels[lo + t]? = some (some (rf a).label) ∧
          ∃ b, s3.tmpfeatures[lo + t]? = some (some b) ∧ IsRow undf nf (rf a) b) ∧
        (∀ j, (j < lo ∨ lo + (ks.map (fun k => (addrs recs k).length)).sum ≤ j) →
          s3.labels[j]? = s.labels[j]? ∧ s3.tmpfeatures[j]? = s.tmpfeatures[j]?) := by
  intro ks
  induction ks with
  | nil =>
    intro i lo s _ _ _ _ _ _ _ _ _
    refine ⟨[], s, rfl, rfl, rfl, rfl, ?_, fun _ _ => ⟨rfl, rfl⟩⟩
    intro t a h; simp at h
  | cons k ks ih =>
    intro i lo s hnd hseg hholds hnl hfuel hoff htmp hlab hU
    obtain ⟨hk, hnd2⟩ := List.nodup_cons.mp hnd
    have hg : dp_gt s.heap = fun a b => decide (nl a > nl b) := by
      funext a b
      simp [dp_gt, hnl]
    have hsum : ((k :: ks).map (fun k => (addrs recs k).length)).sum =
        (addrs recs k).length + (ks.map (fun k => (addrs recs k).length)).sum := by simp
    rw [hsum] at htmp hlab hU
    -- sort
    have hsegk := hseg k (by simp)
    have hend : ∀ a ∈ addrs recs k, some a ≠ (none : Ptr) := fun _ _ => by simp
    obtain ⟨next1, head1, e1, hS1, hf1⟩ := listqsort_spec (fun a b => decide (nl a > nl b))
      fuel (addrs recs k) s.heap.nexts (leaf k).head none hsegk (Seg.nodup hsegk hend) hend
      (hfuel k (by simp))
    have hperm := quicksort_perm (fun a b => decide (nl a > nl b)) (addrs recs k)
    have esort : (leaf k).sort_bynline fuel s.heap =
        some (fun a => { s.heap a with next := next1 a }, { leaf k with head := head1 }) := by
      simp only [dplist.sort_bynline, hg, e1]
    have eo0 : rloffsets[i]? = some lo := by simpa using hoff 0 (by simp)
    have eo1 : rloffsets[i + 1]? = some (lo + (addrs recs k).length) := by
      simpa using hoff 1 (by simp)
    -- drain
    obtain ⟨l2, s2, e2, _, g2, g3, g4, g5, g6, g7⟩ := fill_rows_spec undf nf
      (lo + (addrs recs k).length) rf
      (quicksort (fun a b => decide (nl a > nl b)) (addrs recs k)) lo
      { leaf k with head := head1 }
      { s with heap := fun a => { s.heap a with next := next1 a } }
      hS1
      (fun a ha => Holds.of_fields (hholds k (by simp) a (hperm.mem_iff.mp ha))
        rfl rfl rfl rfl rfl)
      (by rw [hperm.length_eq]) (by show _ ≤ s.tmpfeatures.length; omega)
      (by show _ ≤ s.labels.length; omega) (by omega)
    have g2 : s2.tmpfeatures.length = s.tmpfeatures.length := g2
    have g3 : s2.labels.length = s.labels.length := g3
    -- the remaining lists
    obtain ⟨ids, s3, e3, q1, q2, q3, q4, q5⟩ := ih (i + 1) (lo + (addrs recs k).length) s2 hnd2
      (by
        intro k2 hk2
        have hne : k2 ≠ k := fun e => hk (e ▸ hk2)
        refine Seg.frame ?_ (hseg k2 (by simp [hk2]))
        intro x hx
        show (s2.heap x).next = (s.heap x).next
        rw [(g5 x).1]
        exact hf1 x (addrs_disjoint hne hx))
      (by
        intro k2 hk2 a ha
        have hne : k2 ≠ k := fun e => hk (e ▸ hk2)
        have hnot : a ∉ quicksort (fun a b => decide (nl a > nl b)) (addrs recs k) :=
          fun hm => addrs_disjoint hne ha (hperm.mem_iff.mp hm)
        rw [g4 a hnot]
        exact Holds.of_fields (hholds k2 (by simp [hk2]) a ha) rfl rfl rfl rfl rfl)
      (by
        intro a
        rw [(g5 a).2]
        exact hnl a)
      (fun k2 hk2 => hfuel k2 (by simp [hk2]))
      (by
        intro t ht
        have := hoff (t + 1) (by simpa using ht)
        rw [show i + 1 + t = i + (t + 1) by omega, this]
        simp [Nat.add_assoc])
      (by rw [g2]; omega) (by rw [g3]; omega) (by omega)
    refine ⟨(leaf k).get_rid :: ids, s3, ?_, ?_, by rw [q2, g2], by rw [q3, g3], ?_, ?_⟩
    · have e2' : fill_rows undf nf (lo + (addrs recs k).length)
          (lo + (addrs recs k).length - lo) lo { leaf k with head := head1 }
          { s with heap := fun a => { s.heap a with next := next1 a } } = some (l2, s2) := e2
      simp only [List.map_cons, fill_lists, esort, eo0, eo1, e2', e3]
    · rw [q1]; rfl
    · intro t a ht
      rw [List.flatMap_cons, List.getElem?_append] at ht
      by_cases hlt : t < (quicksort (fun a b => decide (nl a > nl b)) (addrs recs k)).length
      · rw [if_pos hlt] at ht
        obtain ⟨p1, b, p2, p3⟩ := g6 t a ht
        rw [hperm.length_eq] at hlt
        obtain ⟨r1, r2⟩ := q5 (lo + t) (Or.inl (by omega))
        exact ⟨by rw [r1, p1], b, by rw [r2, p2], p3⟩
      · rw [if_neg hlt, hperm.length_eq] at ht
        rw [hperm.length_eq] at hlt
        have := q4 _ a ht
        rw [show lo + (addrs recs k).length + (t - (addrs recs k).length) = lo + t by omega]
          at this
        exact this
    · intro j hj
      rw [hsum] at hj
      obtain ⟨r1, r2⟩ := q5 j (by omega)
      obtain ⟨r3, r4⟩ := g7 j (by omega)
      exact ⟨by rw [r1, r3], by rw [r2, r4]⟩

end fill_lists_lemmas

section matrix_lemmas
variable {F : Type}

theorem transpose_spec (tmp : Buf (Buf F)) (nrows ncols : Nat) (val : Nat → Nat → F)
    (h : ∀ r, r < nrows → ∃ b, tmp[r]? = some (some b) ∧ ncols ≤ b.length ∧
      ∀ i, i < ncols → b[i]? = some (some (val r i))) :
    transpose tmp nrows ncols =
      some ((List.range ncols).map (fun f => (List.range nrows).map (fun r => some (val r f)))) := by
  have hall : (List.range nrows).all (fun r =>
      match tmp[r]? with
      | some (some row) => decide (ncols ≤ row.length)
      | _ => false) = true := by
    rw [List.all_eq_true]
    intro r hr
    obtain ⟨b, hb, hlen, _⟩ := h r (List.mem_range.mp hr)
    simp [hb, hlen]
  unfold transpose
  rw [if_pos hall]
  congr 1
  apply List.map_congr_left
  intro f hf
  apply List.map_congr_left
  intro r hr
  obtain ⟨b, hb, _, hv⟩ := h r (List.mem_range.mp hr)
  have h1 : tmp.getD r none = some b := by
    rw [List.getD_eq_getElem?_getD, hb]; rfl
  rw [h1]
  show b.getD f none = _
  rw [List.getD_eq_getElem?_getD, hv f (List.mem_range.mp hf)]; rfl

theorem skip_unused_spec (target : Nat) :
    ∀ (n j fuel : Nat) (c : Columns F), j + n = target → n < fuel →
      target < c.features.length → c.features.length < UINT_RANGE →
      skip_unused target fuel j c =
        some (target, { c with freed := c.freed ++ List.range' j n }) := by
  intro n
  induction n with
  | zero =>
    intro j fuel c hj hf _ _
    obtain ⟨k, rfl⟩ : ∃ k, fuel = k + 1 := ⟨fuel - 1, by omega⟩
    have : j = target := by omega
    simp [skip_unused, this]
  | succ n ih =>
    intro j fuel c hj hf hlt hU
    obtain ⟨k, rfl⟩ : ∃ k, fuel = k + 1 := ⟨fuel - 1, by omega⟩
    have h1 : j ≠ target := by omega
    have h2 : j < c.features.length := by omega
    have h3 : (j + 1) % UINT_RANGE = j + 1 := Nat.mod_eq_of_lt (by omega)
    rw [skip_unused, if_neg h1, if_pos h2, h3,
      ih (j + 1) k { c with freed := c.freed ++ [j] } (by omega) (by omega) hlt hU]
    simp [List.range'_succ]

theorem compact_spec :
    ∀ (us : List Nat) (i j : Nat) (c : Columns F), i ≤ j →
      us.Pairwise (fun x y => x < y) → (∀ u ∈ us, j ≤ u ∧ u < c.features.length) →
      c.features.length < UINT_RANGE →
      ∃ c1, compact us i j c = some c1 ∧ c1.features.length = c.features.length ∧
        (∀ x, x < i → c1.features[x]? = c.features[x]?) ∧
        (∀ t u, us[t]? = some u → c1.features[i + t]? = c.features[u]?) := by
  intro us
  induction us with
  | nil =>
    intro i j c _ _ _ _
    refine ⟨c, rfl, rfl, fun _ _ => rfl, ?_⟩
    intro t u h; simp at h
  | cons u us ih =>
    intro i j c hij hs hb hU
    obtain ⟨hju, hul⟩ := hb u (by simp)
    obtain ⟨hlt, hs2⟩ := List.pairwise_cons.mp hs
    have hskip := skip_unused_spec (F := F) u (u - j) j (c.features.length + 1) c (by omega)
      (by omega) hul hU
    obtain ⟨col, hcol⟩ : ∃ col, c.features[u]? = some col :=
      ⟨_, List.getElem?_eq_getElem hul⟩
    have hi : i < c.features.length := by omega
    have hmod : (u + 1) % UINT_RANGE = u + 1 := Nat.mod_eq_of_lt (by omega)
    obtain ⟨c1, e1, l1, p1, p2⟩ := ih (i + 1) (u + 1)
      { features := c.features.set i col, freed := c.freed ++ List.range' j (u - j) }
      (by omega) hs2
      (by
        intro v hv
        have := hlt v hv
        have := (hb v (by simp [hv])).2
        simp only [List.length_set]
        omega)
      (by simpa using hU)
    refine ⟨c1, ?_, by simpa using l1, ?_, ?_⟩
    · simp only [compact, hskip, hcol, if_pos hi, hmod, e1]
    · intro x hx
      rw [p1 x (by omega)]
      show (c.features.set i col)[x]? = _
      rw [List.getElem?_set_ne (by omega)]
    · intro t v ht
      cases t with
      | zero =>
        have hv : u = v := by simpa using ht
        subst hv
        rw [Nat.add_zero, p1 i (by omega)]
        show (c.features.set i col)[i]? = _
        rw [List.getElem?_set, if_pos rfl, if_pos hi, hcol]
      | succ t =>
        have ht2 : us[t]? = some v := by simpa using ht
        rw [show i + (t + 1) = i + 1 + t by omega, p2 t v ht2]
        show (c.features.set i col)[v]? = _
        have := hlt v (List.mem_iff_getElem?.mpr ⟨t, ht2⟩)
        rw [List.getElem?_set_ne (by omega)]

theorem prefix_sizes_spec (leaf : List Char → dplist) (cnt : List Char → Nat) :
    ∀ (ks : List (List Char)) (sum m : Nat), (∀ k ∈ ks, (leaf k).size = cnt k) →
      sum + (ks.map cnt).sum < UINT_RANGE →
      (prefix_sizes (ks.map leaf) sum m).1.length = ks.length ∧
      ∀ t, t < ks.length → (prefix_sizes (ks.map leaf) sum m).1[t]? =
        some (sum + ((ks.take t).map cnt).sum) := by
  intro ks
  induction ks with
  | nil => intro sum m _ _; simp [prefix_sizes]
  | cons k ks ih =>
    intro sum m hsz hU
    have hk : (leaf k).size = cnt k := hsz k (by simp)
    have hsum : ((k :: ks).map cnt).sum = cnt k + (ks.map cnt).sum := by simp
    rw [hsum] at hU
    have hmod : (sum + cnt k) % UINT_RANGE = sum + cnt k := Nat.mod_eq_of_lt (by omega)
    obtain ⟨h1, h2⟩ := ih (sum + cnt k) (if cnt k > m then cnt k else m)
      (fun x hx => hsz x (by simp [hx])) (by omega)
    simp only [List.map_cons, prefix_sizes, dplist.get_size, hk, hmod, List.length_cons]
    refine ⟨by rw [h1], ?_⟩
    intro t ht
    cases t with
    | zero => simp
    | succ t =>
      rw [List.getElem?_cons_succ, h2 t (by omega)]
      simp [Nat.add_assoc]

end matrix_lemmas

section rows_lemmas
variable {F : Type}

theorem length_addrs (recs : List (Rec F)) (k : List Char) :
    (addrs recs k).length = (group_recs recs k).length := by
  have := congrArg List.length (addrs_map recs k)
  simpa using this

theorem length_group_recs_le (recs : List (Rec F)) (k : List Char) :
    (group_recs recs k).length ≤ recs.length := by
  rw [group_recs, List.length_reverse]
  exact List.length_filter_le _ _

theorem flatMap_filter_perm (ks : List (List Char)) :
    ∀ (recs : List (Rec F)), ks.Nodup → (∀ r ∈ recs, r.key ∈ ks) →
      (ks.flatMap (fun k => recs.filter (fun r => r.key == k))).Perm recs := by
  induction ks with
  | nil =>
    intro recs _ hall
    cases recs with
    | nil => exact List.Perm.refl _
    | cons r _ => exact absurd (hall r (by simp)) (by simp)
  | cons k ks ih =>
    intro recs hnd hall
    obtain ⟨hk, hnd2⟩ := List.nodup_cons.mp hnd
    rw [List.flatMap_cons]
    have h2 := ih (recs.filter (fun r => !(r.key == k))) hnd2 (by
      intro r hr
      obtain ⟨h3, h4⟩ := List.mem_filter.mp hr
      have := hall r h3
      rcases List.mem_cons.mp this with e | e
      · simp [e] at h4
      · exact e)
    have h5 : (ks.flatMap fun k1 => (recs.filter (fun r => !(r.key == k))).filter
        (fun r => r.key == k1)) = ks.flatMap fun k1 => recs.filter (fun r => r.key == k1) := by
      apply List.flatMap_congr
      intro k1 hk1
      rw [List.filter_filter]
      apply List.filter_congr
      intro r _
      by_cases e : r.key = k1
      · have : r.key ≠ k := fun e2 => hk (by rw [← e2, e]; exact hk1)
        simp [e, this]
        intro e3; exact this (e.trans e3)
      · simp [e]
    rw [h5] at h2
    exact (List.Perm.append_left _ h2).trans (List.filter_append_perm _ recs)

theorem group_recs_flatMap_perm (recs : List (Rec F)) :
    ((discovered (recs.map (fun r => r.key))).flatMap (fun k => group_recs recs k)).Perm
      recs := by
  have h1 : ((discovered (recs.map (fun r => r.key))).flatMap
      (fun k => group_recs recs k)).Perm
      ((discovered (recs.map (fun r => r.key))).flatMap
        (fun k => recs.filter (fun r => r.key == k))) :=
    List.Perm.flatMap_left _ (fun k _ => List.reverse_perm _)
  exact h1.trans (flatMap_filter_perm _ recs (nodup_discovered _) (fun r hr =>
    (mem_discovered _ _).mpr (List.mem_map.mpr ⟨r, hr, rfl⟩)))

theorem sum_group_recs (recs : List (Rec F)) :
    ((discovered (recs.map (fun r => r.key))).map
      (fun k => (group_recs recs k).length)).sum = recs.length := by
  have := (group_recs_flatMap_perm recs).length_eq
  rw [List.length_flatMap] at this
  exact this

theorem sum_take_le (ks : List (List Char)) (c : List Char → Nat) (t : Nat) :
    ((ks.take t).map c).sum ≤ (ks.map c).sum := by
  induction ks generalizing t with
  | nil => simp
  | cons k ks ih =>
    cases t with
    | zero => simp
    | succ t =>
      simp only [List.take_succ_cons, List.map_cons, List.sum_cons]
      exact Nat.add_le_add_left (ih t) _

theorem qsort_ref_map {α β : Type} (f : α → β) (gt : α → α → Bool) (gt1 : β → β → Bool) :
    ∀ (n : Nat) (l : List α), (∀ a ∈ l, ∀ b ∈ l, gt a b = gt1 (f a) (f b)) →
      (qsort_ref gt n l).map f = qsort_ref gt1 n (l.map f) := by
  intro n
  induction n with
  | zero => intro l _; rfl
  | succ n ih =>
    intro l h
    cases l with
    | nil => rfl
    | cons p rest =>
      have e1 : (rest.map f).filter (fun x => !gt1 x (f p)) =
          (rest.filter (fun x => !gt x p)).map f := by
        rw [List.filter_map]
        congr 1
        apply List.filter_congr
        intro x hx
        simp [h x (by simp [hx]) p (by simp)]
      have e2 : (rest.map f).filter (fun x => gt1 x (f p)) =
          (rest.filter (fun x => gt x p)).map f := by
        rw [List.filter_map]
        congr 1
        apply List.filter_congr
        intro x hx
        simp [h x (by simp [hx]) p (by simp)]
      show (qsort_ref gt n _ ++ p :: qsort_ref gt n _).map f =
        qsort_ref gt1 n ((rest.map f).filter _) ++ f p :: qsort_ref gt1 n ((rest.map f).filter _)
      rw [e1, e2, List.map_append, List.map_cons,
        ih _ (fun a ha b hb => h a (by simp [(List.mem_filter.mp ha).1]) b
          (by simp [(List.mem_filter.mp hb).1])),
        ih _ (fun a ha b hb => h a (by simp [(List.mem_filter.mp ha).1]) b
          (by simp [(List.mem_filter.mp hb).1]))]

theorem quicksort_map {α β : Type} (f : α → β) (gt : α → α → Bool) (gt1 : β → β → Bool)
    (l : List α) (h : ∀ a ∈ l, ∀ b ∈ l, gt a b = gt1 (f a) (f b)) :
    (quicksort gt l).map f = quicksort gt1 (l.map f) := by
  unfold quicksort
  rw [qsort_ref_map f gt gt1 l.length l h, List.length_map]

theorem row_addrs_map (recs : List (Rec F)) (nl : Nat → Nat)
    (hnl : ∀ a r, recs[a]? = some r → nl a = r.nline) :
    (row_addrs recs nl).map (fun a => recs[a]?) = (row_recs recs).map some := by
  unfold row_addrs row_recs
  rw [List.map_flatMap, List.map_flatMap]
  congr 1
  funext k
  rw [quicksort_map (fun a => recs[a]?) (fun a b => decide (nl a > nl b)) opt_gt, addrs_map,
    ← quicksort_map some rec_gt opt_gt]
  · intro a _ b _; rfl
  · intro a ha b hb
    obtain ⟨ra, ea, _⟩ := key_of_mem_addrs ha
    obtain ⟨rb, eb, _⟩ := key_of_mem_addrs hb
    simp only [opt_gt, ea, eb, hnl a ra ea, hnl b rb eb]

theorem length_row_recs (recs : List (Rec F)) : (row_recs recs).length = recs.length := by
  unfold row_recs
  rw [List.length_flatMap]
  have : (List.length ∘ fun k => quicksort rec_gt (group_recs recs k)) =
      fun k => (group_recs recs k).length := by
    funext k
    exact (quicksort_perm rec_gt (group_recs recs k)).length_eq
  rw [this, sum_group_recs]

theorem row_recs_perm (recs : List (Rec F)) : (row_recs recs).Perm recs := by
  unfold row_recs
  have h1 : ((discovered (recs.map (fun r => r.key))).flatMap
      (fun k => quicksort rec_gt (group_recs recs k))).Perm
      ((discovered (recs.map (fun r => r.key))).flatMap (fun k => group_recs recs k)) :=
    List.Perm.flatMap_left _ (fun k _ => quicksort_perm rec_gt (group_recs recs k))
  exact h1.trans (group_recs_flatMap_perm recs)

end rows_lemmas

section build_lemmas
variable {F : Type}

theorem rec_at_eq {undf : F} {recs : List (Rec F)} {a : Nat} {r : Rec F}
    (h : recs[a]? = some r) : rec_at undf recs a = r := by
  simp [rec_at, h]

theorem getElem?_offsets_of (recs : List (Rec F)) (t : Nat)
    (ht : t ≤ (discovered (recs.map (fun r => r.key))).length) :
    (offsets_of recs)[t]? = some
      ((((discovered (recs.map (fun r => r.key))).take t).map
        (fun k => (group_recs recs k).length)).sum) := by
  unfold offsets_of
  rw [List.getElem?_map, List.getElem?_range (by omega)]
  rfl

theorem dpset.build_spec (undf : F) (NPROCESSORS : Nat) (recs : List (Rec F))
    (hvalid : ∀ r ∈ recs, r.Valid NPROCESSORS) (hlen : recs.length < UINT_RANGE)
    (hobs : ∃ u, observed recs u) :
    ∃ (st : Ingest F) (ds : dpset F) (usedfid : List Nat),
      Ingest.add_all undf (Ingest.init undf NPROCESSORS) recs = some st ∧
      IngestInv undf NPROCESSORS st recs ∧
      dpset.build undf st = some ds ∧
      usedfid.Pairwise (fun x y => x < y) ∧ (∀ u, u ∈ usedfid ↔ observed recs u) ∧
      ds.nrankedlists = (discovered (recs.map (fun r => r.key))).length ∧
      ds.ndps = recs.length ∧
      ds.nfeatures = usedfid.length ∧
      ds.rlids = discovered (recs.map (fun r => r.key)) ∧
      ds.rloffsets = offsets_of recs ∧
      ds.labels = (row_recs recs).map (fun r => some r.label) ∧
      ds.features = usedfid.map (fun u =>
        (row_recs recs).map (fun r => some (supplied undf r.feats u))) := by
  obtain ⟨st, est, hst⟩ := Ingest.add_all_spec undf NPROCESSORS recs
    (Ingest.init undf NPROCESSORS) [] (Ingest.init_inv undf NPROCESSORS) hvalid
  simp only [List.nil_append] at hst
  obtain ⟨u0, r0, hr0, p0, hp0, hu0⟩ := hobs
  have hN : 0 < NPROCESSORS := lt_of_le_of_lt (Nat.zero_le _) (hvalid r0 hr0).ith_lt
  obtain ⟨n0, ns, en⟩ : ∃ n0 ns, st.th_ndps = n0 :: ns := by
    have := hst.ndps_len
    cases h : st.th_ndps with
    | nil => rw [h] at this; simp at this; omega
    | cons a b => exact ⟨a, b, rfl⟩
  obtain ⟨b0, bs, eb⟩ : ∃ b0 bs, st.th_usedfid = b0 :: bs := by
    have := hst.used_len
    cases h : st.th_usedfid with
    | nil => rw [h] at this; simp at this; omega
    | cons a b => exact ⟨a, b, rfl⟩
  -- the used feature ids
  have hused : ∀ j, j ∈ (merge_usedfid b0 bs).get_uparray ↔ observed recs j := by
    intro j
    rw [bitarray.mem_get_uparray, is_up_merge_usedfid, ← eb]
    exact hst.used_iff j
  have hsorted := (merge_usedfid b0 bs).get_uparray_sorted
  have hbound : ∀ u ∈ (merge_usedfid b0 bs).get_uparray, u < 2 ^ 31 := by
    intro u hu
    obtain ⟨r, hr, p, hp, e⟩ := (hused u).mp hu
    rw [← e]
    exact (hvalid r hr).fid_lt p hp
  have hlen1 := length_le_of_sorted_lt hsorted hbound
  have hne : u0 ∈ (merge_usedfid b0 bs).get_uparray := (hused u0).mpr ⟨r0, hr0, p0, hp0, hu0⟩
  have hpos : 0 < (merge_usedfid b0 bs).get_uparray.length := List.length_pos_of_mem hne
  have hidx : ((merge_usedfid b0 bs).get_upcounter + UINT_RANGE - 1) % UINT_RANGE =
      (merge_usedfid b0 bs).get_uparray.length - 1 := by
    unfold bitarray.get_upcounter
    have hU : UINT_RANGE = 2 ^ 32 := rfl
    rw [show (merge_usedfid b0 bs).get_uparray.length + UINT_RANGE - 1 =
      ((merge_usedfid b0 bs).get_uparray.length - 1) + UINT_RANGE by omega,
      Nat.add_mod_right]
    exact Nat.mod_eq_of_lt (by omega)
  obtain ⟨last, elast⟩ : ∃ last, (merge_usedfid b0 bs).get_uparray[
      (merge_usedfid b0 bs).get_uparray.length - 1]? = some last :=
    ⟨_, List.getElem?_eq_getElem (by omega)⟩
  have hlast_mem : last ∈ (merge_usedfid b0 bs).get_uparray :=
    List.mem_iff_getElem?.mpr ⟨_, elast⟩
  have hlast_lt := hbound last hlast_mem
  have hle_last : ∀ u ∈ (merge_usedfid b0 bs).get_uparray, u ≤ last := by
    intro u hu
    obtain ⟨t, ht⟩ := List.mem_iff_getElem?.mp hu
    obtain ⟨ht1, ht2⟩ := List.getElem?_eq_some.mp ht
    obtain ⟨hl1, hl2⟩ := List.getElem?_eq_some.mp elast
    by_cases e : t = (merge_usedfid b0 bs).get_uparray.length - 1
    · subst e
      rw [← ht2, ← hl2]
    · have := List.pairwise_iff_getElem.mp hsorted t
        ((merge_usedfid b0 bs).get_uparray.length - 1) ht1 hl1 (by omega)
      rw [ht2, hl2] at this
      omega
  have hnf : (last + 1) % UINT_RANGE = last + 1 := by
    have hU : UINT_RANGE = 2 ^ 32 := rfl
    exact Nat.mod_eq_of_lt (by omega)
  -- the number of records
  have hndps : merge_ndps n0 ns = recs.length := by
    rw [merge_ndps_eq ns n0 (hst.ndps_lt n0 (by rw [en]; simp))]
    have := hst.ndps_sum
    rw [en, List.sum_cons] at this
    rw [this]
    exact Nat.mod_eq_of_lt hlen
  -- the offsets
  have hcnt : ∀ k, (addrs recs k).length = (group_recs recs k).length := length_addrs recs
  have hsize : ∀ k ∈ st.rltrie.keys, (st.rltrie.leaf k).size = (group_recs recs k).length := by
    intro k _
    rw [hst.size_eq k, hcnt]
    exact Nat.mod_eq_of_lt (lt_of_le_of_lt (length_group_recs_le recs k) hlen)
  have hsumk : (st.rltrie.keys.map (fun k => (group_recs recs k).length)).sum = recs.length := by
    rw [hst.keys_eq]; exact sum_group_recs recs
  obtain ⟨ho1, ho2⟩ := prefix_sizes_spec st.rltrie.leaf (fun k => (group_recs recs k).length)
    st.rltrie.keys 0 0 hsize (by rw [hsumk]; omega)
  have hoffs : (prefix_sizes (st.rltrie.keys.map st.rltrie.leaf) 0 0).1 ++ [recs.length] =
      offsets_of recs := by
    apply List.ext_getElem?
    intro t
    by_cases h1 : t < st.rltrie.keys.length
    · rw [List.getElem?_append_left (by rw [ho1]; exact h1),
        ho2 t h1, getElem?_offsets_of recs t (by rw [← hst.keys_eq]; omega),
        hst.keys_eq]
      simp
    · by_cases h2 : t = st.rltrie.keys.length
      · rw [List.getElem?_append_right (by rw [ho1]; omega),
          ho1, h2, Nat.sub_self,
          getElem?_offsets_of recs _ (by rw [← hst.keys_eq]), ← hst.keys_eq,
          List.take_length, hsumk]
        rfl
      · rw [List.getElem?_eq_none (by
            rw [List.length_append, ho1]; simp; omega),
          List.getElem?_eq_none (by
            unfold offsets_of
            rw [List.length_map, List.length_range, ← hst.keys_eq]; omega)]
  -- the rows
  have hfun : (fun k => (addrs recs k).length) = (fun k => (group_recs recs k).length) :=
    funext hcnt
  have hnl : ∀ a r, recs[a]? = some r → (fun a => (st.heap a).nline) a = r.nline :=
    fun a r h => (hst.holds a r h).nline_eq
  obtain ⟨ids, s3, e3, q1, q2, q3, q4, _⟩ := fill_lists_spec undf (last + 1) (st.nalloc + 1)
    ((prefix_sizes (st.rltrie.keys.map st.rltrie.leaf) 0 0).1 ++ [recs.length]) recs
    (rec_at undf recs) (fun a => (st.heap a).nline) st.rltrie.leaf st.rltrie.keys 0 0
    { heap := st.heap, tmpfeatures := malloc recs.length, labels := malloc recs.length }
    (by rw [hst.keys_eq]; exact nodup_discovered _)
    (fun k _ => hst.seg k)
    (fun k _ a ha => by
      obtain ⟨r, hr, _⟩ := key_of_mem_addrs ha
      rw [rec_at_eq hr]
      exact hst.holds a r hr)
    (fun a => rfl)
    (fun k _ => by
      rw [hst.nalloc_eq, hcnt]
      exact Nat.lt_succ_of_le (length_group_recs_le recs k))
    (by
      intro t ht
      rw [hoffs, Nat.zero_add, getElem?_offsets_of recs t (by rw [← hst.keys_eq]; exact ht),
        Nat.zero_add, hst.keys_eq, hfun])
    (by rw [hfun, hsumk]; simp [malloc])
    (by rw [hfun, hsumk]; simp [malloc])
    (by rw [hfun, hsumk]; omega)
  have q2 : s3.tmpfeatures.length = recs.length := by rw [q2]; simp [malloc]
  have q3 : s3.labels.length = recs.length := by rw [q3]; simp [malloc]
  have hmap := row_addrs_map recs (fun a => (st.heap a).nline) hnl
  have hrow : ∀ (t : Nat) (r : Rec F), (row_recs recs)[t]? = some r →
      s3.labels[t]? = some (some r.label) ∧
        ∃ b : Buf F, s3.tmpfeatures[t]? = some (some b) ∧ IsRow undf (last + 1) r b := by
    intro t r ht
    have h1 := congrArg (fun l => l[t]?) hmap
    simp only [List.getElem?_map, ht, Option.map_some'] at h1
    cases ha : (row_addrs recs (fun a => (st.heap a).nline))[t]? with
    | none => rw [ha] at h1; simp at h1
    | some a =>
      rw [ha] at h1
      have hra : recs[a]? = some r := by simpa using h1
      have ha2 : (st.rltrie.keys.flatMap (fun k =>
          quicksort (fun a b => decide ((st.heap a).nline > (st.heap b).nline))
            (addrs recs k)))[t]? = some a := by
        rw [hst.keys_eq]; exact ha
      have := q4 t a ha2
      rw [Nat.zero_add, rec_at_eq hra] at this
      exact this
  have hrowlen := length_row_recs recs
  -- the transposed matrix
  have etr := transpose_spec s3.tmpfeatures recs.length (last + 1)
    (fun t f => match (row_recs recs)[t]? with
      | some r => supplied undf r.feats f
      | none => undf)
    (by
      intro t ht
      obtain ⟨r, hr⟩ : ∃ r, (row_recs recs)[t]? = some r :=
        ⟨_, List.getElem?_eq_getElem (by rw [hrowlen]; exact ht)⟩
      obtain ⟨_, b, hb, hb1, hb2⟩ := hrow t r hr
      exact ⟨b, hb, hb1, fun i hi => by rw [hb2 i hi]; simp only [hr]⟩)
  have hcol : ∀ u, (List.range recs.length).map (fun t => some
      (match (row_recs recs)[t]? with
        | some r => supplied undf r.feats u
        | none => undf)) =
      (row_recs recs).map (fun r => some (supplied undf r.feats u)) := by
    intro u
    apply List.ext_getElem?
    intro t
    rw [List.getElem?_map, List.getElem?_map]
    by_cases ht : t < recs.length
    · obtain ⟨r, hr⟩ : ∃ r, (row_recs recs)[t]? = some r :=
        ⟨_, List.getElem?_eq_getElem (by rw [hrowlen]; exact ht)⟩
      rw [List.getElem?_range ht, hr]
      simp [hr]
    · rw [List.getElem?_eq_none (by simpa using ht),
        List.getElem?_eq_none (by rw [hrowlen]; omega)]
      rfl
  -- the compaction
  obtain ⟨c1, ec, cl, _, cp⟩ := compact_spec (F := F) (merge_usedfid b0 bs).get_uparray 0 0
    { features := (List.range (last + 1)).map (fun f =>
        (List.range recs.length).map (fun t => some
          (match (row_recs recs)[t]? with
            | some r => supplied undf r.feats f
            | none => undf)))
      freed := [] }
    (le_refl _) hsorted
    (by
      intro u hu
      have := hle_last u hu
      simp only [List.length_map, List.length_range]
      omega)
    (by
      have hU : UINT_RANGE = 2 ^ 32 := rfl
      simp only [List.length_map, List.length_range]
      omega)
  have ebuild : dpset.build undf st = some
      { nrankedlists := st.rltrie.get_nleaves
        ndps := recs.length
        nfeatures := (merge_usedfid b0 bs).get_upcounter
        maxrlsize := (prefix_sizes (st.rltrie.keys.map st.rltrie.leaf) 0 0).2
        rloffsets := (prefix_sizes (st.rltrie.keys.map st.rltrie.leaf) 0 0).1 ++ [recs.length]
        labels := s3.labels
        features := c1.features.take (merge_usedfid b0 bs).get_upcounter
        rlids := ids } := by
    simp only [dpset.build, en, eb, hidx, elast, hnf, hndps, trie.get_leaves, e3, etr, ec]
  refine ⟨st, _, (merge_usedfid b0 bs).get_uparray, est, hst, ebuild, hsorted, hused, ?_⟩
  refine ⟨by rw [← hst.keys_eq]; rfl, rfl, rfl, ?_, hoffs, ?_, ?_⟩
  · show ids = _
    rw [q1, ← hst.keys_eq]
    conv_rhs => rw [← List.map_id st.rltrie.keys]
    apply List.map_congr_left
    intro k _
    exact hst.rid_eq k
  · show s3.labels = _
    apply List.ext_getElem?
    intro t
    rw [List.getElem?_map]
    by_cases ht : t < recs.length
    · obtain ⟨r, hr⟩ : ∃ r, (row_recs recs)[t]? = some r :=
        ⟨_, List.getElem?_eq_getElem (by rw [hrowlen]; exact ht)⟩
      rw [(hrow t r hr).1, hr]; rfl
    · rw [List.getElem?_eq_none (by rw [q3]; omega),
        List.getElem?_eq_none (by rw [hrowlen]; omega)]
      rfl
  · show c1.features.take (merge_usedfid b0 bs).get_upcounter = _
    apply List.ext_getElem?
    intro t
    rw [List.getElem?_take, List.getElem?_map]
    unfold bitarray.get_upcounter
    by_cases ht : t < (merge_usedfid b0 bs).get_uparray.length
    · obtain ⟨u, hu⟩ : ∃ u, (merge_usedfid b0 bs).get_uparray[t]? = some u :=
        ⟨_, List.getElem?_eq_getElem ht⟩
      have := cp t u hu
      rw [Nat.zero_add] at this
      have hul : u < last + 1 := by
        have := hle_last u (List.mem_iff_getElem?.mpr ⟨t, hu⟩)
        omega
      rw [if_pos ht, this, hu, List.getElem?_map, List.getElem?_range hul]
      simp only [Option.map_some']
      rw [hcol u]
    · rw [if_neg ht, List.getElem?_eq_none (by omega)]
      rfl

end build_lemmas

section matrix_claims
variable {F : Type}

theorem scenario1_valid : ∀ r ∈ scenario1, r.Valid 2 := by
  intro r hr
  simp only [scenario1, List.mem_cons, List.mem_singleton, List.not_mem_nil, or_false] at hr
  rcases hr with rfl | rfl
  · exact ⟨by decide, by decide, by decide⟩
  · exact ⟨by decide, by decide, by decide⟩

theorem scenario1_observed : ∃ u, observed scenario1 u :=
  ⟨1, _, List.mem_cons_self _ _, (1, 5), List.mem_cons_self _ _, rfl⟩

/-- C1: for every sequence of accepted lines (in any push order, parsed by any threads, with
any capacity hints) with feature ids below 2^31, fewer than 2^32 lines and at least one
observed feature id, the reading loop and the matrix construction return a dataset; its
used-id array is strictly ascending and holds exactly the observed ids; the dataset has
exactly one column per distinct observed id; and for every column index `c` and row `r`,
column `c` at row `r` holds the value that the record placed at row `r` (the one whose label
is at row `r`) supplied for the `c`-th smallest observed id, or the missing marker if the
record did not supply it. -/
theorem compacted_matrix_columns (undf : F) (NPROCESSORS : Nat) (recs : List (Rec F))
    (hvalid : ∀ r ∈ recs, r.Valid NPROCESSORS) (hlen : recs.length < UINT_RANGE)
    (hobs : ∃ u, observed recs u) :
    ∃ (st : Ingest F) (ds : dpset F) (usedfid : List Nat),
      Ingest.add_all undf (Ingest.init undf NPROCESSORS) recs = some st ∧
      dpset.build undf st = some ds ∧
      usedfid.Sorted (fun x y => x < y) ∧ (∀ u, u ∈ usedfid ↔ observed recs u) ∧
      ds.get_nfeatures = usedfid.length ∧ ds.features.length = usedfid.length ∧
      ds.get_ndatapoints = recs.length ∧ (row_recs recs).Perm recs ∧
      ∀ c u, usedfid[c]? = some u → ∀ r rec, (row_recs recs)[r]? = some rec →
        ds.get_label r = some rec.label ∧
        ∃ col, ds.get_fvector c = some col ∧ col.length = recs.length ∧
          col[r]? = some (some (supplied undf rec.feats u)) := by
  obtain ⟨st, ds, usedfid, e1, _, e2, hs, hu, _, h2, h3, _, _, h6, h7⟩ :=
    dpset.build_spec undf NPROCESSORS recs hvalid hlen hobs
  refine ⟨st, ds, usedfid, e1, e2, hs, hu, h3, by rw [h7]; simp, h2, row_recs_perm recs, ?_⟩
  intro c u hc r rec hr
  refine ⟨?_, (row_recs recs).map (fun r => some (supplied undf r.feats u)), ?_, ?_, ?_⟩
  · simp [dpset.get_label, h6, hr]
  · simp [dpset.get_fvector, h7, hc]
  · rw [List.length_map, length_row_recs]
  · simp [hr]

theorem compacted_matrix_columns_witness :
    ∃ (st : Ingest Int) (ds : dpset Int) (usedfid : List Nat),
      Ingest.add_all (-1) (Ingest.init (-1) 2) scenario1 = some st ∧
      dpset.build (-1) st = some ds ∧
      usedfid.Sorted (fun x y => x < y) ∧ (∀ u, u ∈ usedfid ↔ observed scenario1 u) ∧
      ds.get_nfeatures = usedfid.length ∧ ds.features.length = usedfid.length ∧
      ds.get_ndatapoints = scenario1.length ∧ (row_recs scenario1).Perm scenario1 ∧
      ∀ c u, usedfid[c]? = some u → ∀ r rec, (row_recs scenario1)[r]? = some rec →
        ds.get_label r = some rec.label ∧
        ∃ col, ds.get_fvector c = some col ∧ col.length = scenario1.length ∧
          col[r]? = some (some (supplied (-1) rec.feats u)) :=
  compacted_matrix_columns (-1) 2 scenario1 scenario1_valid (by decide) scenario1_observed

end matrix_claims

section offsets_claims
variable {F : Type}

theorem sum_take_succ (ks : List (List Char)) (c : List Char → Nat) :
    ∀ (t : Nat) (k : List Char), ks[t]? = some k →
      ((ks.take (t + 1)).map c).sum = ((ks.take t).map c).sum + c k := by
  induction ks with
  | nil => intro t k h; simp at h
  | cons k0 ks ih =>
    intro t k h
    cases t with
    | zero =>
      have : k0 = k := by simpa using h
      subst this
      simp
    | succ t =>
      have h2 : ks[t]? = some k := by simpa using h
      simp only [List.take_succ_cons, List.map_cons, List.sum_cons, ih t k h2]
      omega

theorem sum_take_mono (ks : List (List Char)) (c : List Char → Nat) :
    ∀ (i j : Nat), i ≤ j → ((ks.take i).map c).sum ≤ ((ks.take j).map c).sum := by
  induction ks with
  | nil => intro i j _; simp
  | cons k ks ih =>
    intro i j hij
    cases i with
    | zero => simp
    | succ i =>
      cases j with
      | zero => omega
      | succ j =>
        simp only [List.take_succ_cons, List.map_cons, List.sum_cons]
        exact Nat.add_le_add_left (ih i j (by omega)) _

theorem offsets_of_sorted (recs : List (Rec F)) :
    (offsets_of recs).Sorted (fun x y => x ≤ y) := by
  unfold offsets_of
  apply List.pairwise_iff_getElem.mpr
  intro i j hi hj hij
  simp only [List.getElem_map, List.getElem_range]
  exact sum_take_mono _ _ i j (by omega)

theorem length_offsets_of (recs : List (Rec F)) :
    (offsets_of recs).length = (discovered (recs.map (fun r => r.key))).length + 1 := by
  simp [offsets_of]

/-- C5: for every sequence of accepted lines (any push order, threads and capacity hints)
with feature ids below 2^31, fewer than 2^32 lines and at least one observed feature id, the
construction returns a dataset whose group offset table is the exclusive prefix sum of the
group sizes in leaf order: it has one entry more than there are groups, `offsets[0] = 0`, it
is non-decreasing, for every group `i` (the last one included) `offsets[i+1] - offsets[i]` is
the size stored in the `i`-th list, which is the number of records pushed with its key, and
`offsets[groupCount]` is the total record count, which is the number of accepted lines and
the sum of all group sizes. -/
theorem rloffsets_prefix_sum (undf : F) (NPROCESSORS : Nat) (recs : List (Rec F))
    (hvalid : ∀ r ∈ recs, r.Valid NPROCESSORS) (hlen : recs.length < UINT_RANGE)
    (hobs : ∃ u, observed recs u) :
    ∃ (st : Ingest F) (ds : dpset F),
      Ingest.add_all undf (Ingest.init undf NPROCESSORS) recs = some st ∧
      dpset.build undf st = some ds ∧
      ds.rloffsets.length = ds.get_nrankedlists + 1 ∧
      st.rltrie.get_leaves.length = ds.get_nrankedlists ∧
      ds.rloffsets[0]? = some 0 ∧
      ds.rloffsets.Sorted (fun x y => x ≤ y) ∧
      (∀ i l, st.rltrie.get_leaves[i]? = some l →
        ∃ lo hi : Nat, ds.rloffsets[i]? = some lo ∧ ds.rloffsets[i + 1]? = some hi ∧
          lo = ((st.rltrie.get_leaves.take i).map dplist.get_size).sum ∧
          hi = lo + l.get_size ∧
          l.get_size = (recs.filter (fun r => r.key == l.get_rid)).length) ∧
      ds.rloffsets[ds.get_nrankedlists]? = some ds.get_ndatapoints ∧
      ds.get_ndatapoints = recs.length ∧
      (st.rltrie.get_leaves.map dplist.get_size).sum = ds.get_ndatapoints := by
  obtain ⟨st, ds, usedfid, e1, hst, e2, _, _, h1, h2, _, _, h5, _, _⟩ :=
    dpset.build_spec undf NPROCESSORS recs hvalid hlen hobs
  have hsz : ∀ k, (st.rltrie.leaf k).get_size = (group_recs recs k).length := by
    intro k
    rw [dplist.get_size, hst.size_eq k, length_addrs]
    exact Nat.mod_eq_of_lt (lt_of_le_of_lt (length_group_recs_le recs k) hlen)
  have hmapsz : ∀ ks : List (List Char), (ks.map st.rltrie.leaf).map dplist.get_size =
      ks.map (fun k => (group_recs recs k).length) := by
    intro ks
    rw [List.map_map]
    exact List.map_congr_left (fun k _ => hsz k)
  have hkeys := hst.keys_eq
  refine ⟨st, ds, e1, e2, ?_, ?_, ?_, ?_, ?_, ?_, h2, ?_⟩
  · rw [h5, length_offsets_of, dpset.get_nrankedlists, h1]
  · rw [trie.get_leaves, List.length_map, hkeys, dpset.get_nrankedlists, h1]
  · rw [h5, getElem?_offsets_of recs 0 (Nat.zero_le _)]
    simp
  · rw [h5]; exact offsets_of_sorted recs
  · intro i l hl
    rw [trie.get_leaves, List.getElem?_map] at hl
    cases hk : st.rltrie.keys[i]? with
    | none => rw [hk] at hl; simp at hl
    | some k =>
      rw [hk] at hl
      have hlk : st.rltrie.leaf k = l := by simpa using hl
      have hi : i < st.rltrie.keys.length := (List.getElem?_eq_some.mp hk).1
      have hk2 : (discovered (recs.map (fun r => r.key)))[i]? = some k := by
        rw [← hkeys]; exact hk
      refine ⟨(((discovered (recs.map (fun r => r.key))).take i).map
          (fun k => (group_recs recs k).length)).sum,
        (((discovered (recs.map (fun r => r.key))).take (i + 1)).map
          (fun k => (group_recs recs k).length)).sum, ?_, ?_, ?_, ?_, ?_⟩
      · rw [h5]; exact getElem?_offsets_of recs i (by rw [← hkeys]; omega)
      · rw [h5]; exact getElem?_offsets_of recs (i + 1) (by rw [← hkeys]; omega)
      · rw [trie.get_leaves, ← List.map_take, hmapsz, hkeys]
      · rw [sum_take_succ _ _ i k hk2, ← hlk, hsz]
      · rw [← hlk, hsz, dplist.get_rid, hst.rid_eq k, group_recs, List.length_reverse]
  · rw [h5, dpset.get_nrankedlists, h1,
      getElem?_offsets_of recs _ (le_refl _), List.take_length, sum_group_recs,
      dpset.get_ndatapoints, h2]
  · rw [trie.get_leaves, hmapsz, hkeys, sum_group_recs, dpset.get_ndatapoints, h2]

theorem rloffsets_prefix_sum_witness :
    ∃ (st : Ingest Int) (ds : dpset Int),
      Ingest.add_all (-1) (Ingest.init (-1) 2) scenario1 = some st ∧
      dpset.build (-1) st = some ds ∧
      ds.rloffsets.length = ds.get_nrankedlists + 1 ∧
      st.rltrie.get_leaves.length = ds.get_nrankedlists ∧
      ds.rloffsets[0]? = some 0 ∧
      ds.rloffsets.Sorted (fun x y => x ≤ y) ∧
      (∀ i l, st.rltrie.get_leaves[i]? = some l →
        ∃ lo hi : Nat, ds.rloffsets[i]? = some lo ∧ ds.rloffsets[i + 1]? = some hi ∧
          lo = ((st.rltrie.get_leaves.take i).map dplist.get_size).sum ∧
          hi = lo + l.get_size ∧
          l.get_size = (scenario1.filter (fun r => r.key == l.get_rid)).length) ∧
      ds.rloffsets[ds.get_nrankedlists]? = some ds.get_ndatapoints ∧
      ds.get_ndatapoints = scenario1.length ∧
      (st.rltrie.get_leaves.map dplist.get_size).sum = ds.get_ndatapoints :=
  rloffsets_prefix_sum (-1) 2 scenario1 scenario1_valid (by decide) scenario1_observed

end offsets_claims

section ranklist_claims
variable {F : Type}

theorem flatMap_block {α β : Type} (f : α → List β) :
    ∀ (ks : List α) (i : Nat) (k : α), ks[i]? = some k →
      ((ks.flatMap f).drop (((ks.take i).map (fun k => (f k).length)).sum)).take
        (f k).length = f k := by
  intro ks
  induction ks with
  | nil => intro i k h; simp at h
  | cons k0 ks ih =>
    intro i k h
    cases i with
    | zero =>
      have : k0 = k := by simpa using h
      subst this
      simp [List.flatMap_cons]
    | succ i =>
      have h2 : ks[i]? = some k := by simpa using h
      simp only [List.take_succ_cons, List.map_cons, List.sum_cons, List.flatMap_cons,
        List.drop_append]
      exact ih i k h2

theorem length_discovered_le (ks : List (List Char)) : (discovered ks).length ≤ ks.length :=
  (List.subperm_of_subset (nodup_discovered ks)
    (fun k hk => (mem_discovered ks k).mp hk)).length_le

/-- C6: for every sequence of accepted lines (any push order, threads and capacity hints)
with feature ids below 2^31, fewer than 2^32 lines and at least one observed feature id, the
construction returns a dataset such that for every group index `i` below the group count
`get_ranklist(i)` returns the key of the `i`-th list of the trie, a size equal to the number
of records pushed with that key, and a label view whose first `size` entries are the labels
of the records of the group in ascending order of line number: entry `k` is the label of the
record with the `k`-th smallest line number when the line numbers of the group are distinct. -/
theorem get_ranklist_group (undf : F) (NPROCESSORS : Nat) (recs : List (Rec F))
    (hvalid : ∀ r ∈ recs, r.Valid NPROCESSORS) (hlen : recs.length < UINT_RANGE)
    (hobs : ∃ u, observed recs u) :
    ∃ (st : Ingest F) (ds : dpset F),
      Ingest.add_all undf (Ingest.init undf NPROCESSORS) recs = some st ∧
      dpset.build undf st = some ds ∧
      ∀ i, i < ds.get_nrankedlists →
        ∃ (l : dplist) (rl : rnklst F) (S : List (Rec F)),
          st.rltrie.get_leaves[i]? = some l ∧
          ds.get_ranklist i = some rl ∧
          rl.id = l.get_rid ∧
          rl.size = (recs.filter (fun r => r.key == l.get_rid)).length ∧
          S.Perm (recs.filter (fun r => r.key == l.get_rid)) ∧
          (S.map (fun r => r.nline)).Sorted (fun x y => x ≤ y) ∧
          (((recs.filter (fun r => r.key == l.get_rid)).map (fun r => r.nline)).Nodup →
            (S.map (fun r => r.nline)).Sorted (fun x y => x < y)) ∧
          rl.labels.take rl.size = S.map (fun r => some r.label) := by
  obtain ⟨st, ds, usedfid, e1, hst, e2, _, _, h1, _, _, h4, h5, h6, _⟩ :=
    dpset.build_spec undf NPROCESSORS recs hvalid hlen hobs
  refine ⟨st, ds, e1, e2, ?_⟩
  intro i hi
  rw [dpset.get_nrankedlists, h1] at hi
  obtain ⟨k, hk⟩ : ∃ k, (discovered (recs.map (fun r => r.key)))[i]? = some k :=
    ⟨_, List.getElem?_eq_getElem hi⟩
  have hdl : (discovered (recs.map (fun r => r.key))).length ≤ recs.length := by
    have := length_discovered_le (recs.map (fun r => r.key))
    simpa using this
  have hmod : (i + 1) % UINT_RANGE = i + 1 := Nat.mod_eq_of_lt (by omega)
  have hqlen : (fun k => (quicksort rec_gt (group_recs recs k)).length) =
      (fun k => (group_recs recs k).length) := by
    funext k
    exact (quicksort_perm rec_gt (group_recs recs k)).length_eq
  have hlo := getElem?_offsets_of recs i (by omega)
  have hhi := getElem?_offsets_of recs (i + 1) (by omega)
  rw [sum_take_succ _ _ i k hk] at hhi
  have hle : (((discovered (recs.map (fun r => r.key))).take i).map
      (fun k => (group_recs recs k).length)).sum + (group_recs recs k).length ≤ recs.length := by
    rw [← sum_take_succ _ _ i k hk]
    have := sum_take_le (discovered (recs.map (fun r => r.key)))
      (fun k => (group_recs recs k).length) (i + 1)
    rw [sum_group_recs] at this
    exact this
  have hsize : ((((discovered (recs.map (fun r => r.key))).take i).map
      (fun k => (group_recs recs k).length)).sum + (group_recs recs k).length + UINT_RANGE -
      (((discovered (recs.map (fun r => r.key))).take i).map
        (fun k => (group_recs recs k).length)).sum) % UINT_RANGE =
      (group_recs recs k).length := by
    rw [show ∀ a b c : Nat, a + b + c - a = b + c by omega, Nat.add_mod_right]
    exact Nat.mod_eq_of_lt (by omega)
  have hrid : (st.rltrie.leaf k).get_rid = k := hst.rid_eq k
  have hfilter : (group_recs recs k).Perm (recs.filter (fun r => r.key == k)) :=
    List.reverse_perm _
  have hgt : (rec_gt : Rec F → Rec F → Bool) =
      fun a b => decide ((fun r : Rec F => r.nline) a > (fun r : Rec F => r.nline) b) := rfl
  refine ⟨st.rltrie.leaf k,
    { size := (group_recs recs k).length
      labels := ds.labels.drop ((((discovered (recs.map (fun r => r.key))).take i).map
        (fun k => (group_recs recs k).length)).sum)
      id := k },
    quicksort rec_gt (group_recs recs k), ?_, ?_, hrid.symm, ?_, ?_, ?_, ?_, ?_⟩
  · rw [trie.get_leaves, List.getElem?_map, hst.keys_eq, hk]; rfl
  · simp only [dpset.get_ranklist, hmod, h5, hlo, hhi, h4, hk, hsize]
  · rw [hrid, hfilter.length_eq]
  · rw [hrid]
    exact (quicksort_perm rec_gt _).trans hfilter
  · rw [hgt]
    exact List.pairwise_map.mpr (quicksort_sorted (fun r : Rec F => r.nline) _)
  · intro hd
    rw [hrid] at hd
    rw [hgt]
    exact List.pairwise_map.mpr (quicksort_strict (fun r : Rec F => r.nline) _
      ((hfilter.map _).nodup_iff.mpr hd))
  · show (ds.labels.drop _).take (group_recs recs k).length = _
    rw [h6, ← List.map_drop, ← List.map_take]
    congr 1
    have := flatMap_block (fun k => quicksort rec_gt (group_recs recs k))
      (discovered (recs.map (fun r => r.key))) i k hk
    simp only [hqlen] at this
    rw [(quicksort_perm rec_gt (group_recs recs k)).length_eq] at this
    exact this

theorem get_ranklist_group_witness :
    ∃ (st : Ingest Int) (ds : dpset Int),
      Ingest.add_all (-1) (Ingest.init (-1) 2) scenario1 = some st ∧
      dpset.build (-1) st = some ds ∧
      ∀ i, i < ds.get_nrankedlists →
        ∃ (l : dplist) (rl : rnklst Int) (S : List (Rec Int)),
          st.rltrie.get_leaves[i]? = some l ∧
          ds.get_ranklist i = some rl ∧
          rl.id = l.get_rid ∧
          rl.size = (scenario1.filter (fun r => r.key == l.get_rid)).length ∧
          S.Perm (scenario1.filter (fun r => r.key == l.get_rid)) ∧
          (S.map (fun r => r.nline)).Sorted (fun x y => x ≤ y) ∧
          (((scenario1.filter (fun r => r.key == l.get_rid)).map (fun r => r.nline)).Nodup →
            (S.map (fun r => r.nline)).Sorted (fun x y => x < y)) ∧
          rl.labels.take rl.size = S.map (fun r => some r.label) :=
  get_ranklist_group (-1) 2 scenario1 scenario1_valid (by decide) scenario1_observed

end ranklist_claims

section reading_lemmas
variable {F : Type}

theorem dp.ins_feature_fields (undf : F) (d d1 : dp F) (fid : Nat) (fval : F)
    (h : d.ins_feature undf fid fval = some d1) : d1.nline = d.nline ∧ d1.label = d.label := by
  unfold dp.ins_feature at h
  by_cases hc : fid ≥ d.maxsize
  · simp only [if_pos hc] at h
    split at h
    · cases h
    · split at h
      · cases h
      · cases h; exact ⟨rfl, rfl⟩
  · simp only [if_neg hc] at h
    split at h
    · cases h
    · split at h
      · cases h
      · cases h; exact ⟨rfl, rfl⟩

theorem read_features_fields (undf : F) (libc : Libc F) :
    ∀ (fuel : Nat) (pch : List Char) (d : dp F) (used : bitarray) (maxfid : Nat)
      (d1 : dp F) (used1 : bitarray) (maxfid1 : Nat),
      read_features undf libc fuel pch d used maxfid = .ok (d1, used1, maxfid1) →
      d1.nline = d.nline ∧ d1.label = d.label := by
  intro fuel
  induction fuel with
  | zero => intro pch d used maxfid d1 used1 maxfid1 h; simp [read_features] at h
  | succ fuel ih =>
    intro pch d used maxfid d1 used1 maxfid1 h
    simp only [read_features] at h
    split at h
    · cases h; exact ⟨rfl, rfl⟩
    · split at h
      · cases h; exact ⟨rfl, rfl⟩
      · split at h
        · exact ih _ _ _ _ _ _ _ h
        · split at h
          · cases h
          · split at h
            · cases h
            · rename_i d2 hd2
              obtain ⟨h1, h2⟩ := ih _ _ _ _ _ _ _ h
              obtain ⟨h3, h4⟩ := dp.ins_feature_fields undf d d2 _ _ hd2
              exact ⟨h1.trans h3, h2.trans h4⟩

theorem Ingest.store_fields (st st1 : Ingest F) (ith : Nat) (key : List Char) (d : dp F)
    (used : bitarray) (maxfid : Nat) (h : st.store ith key d used maxfid = some st1) :
    st1.nalloc = st.nalloc + 1 ∧ st1.linecounter = st.linecounter ∧
      (st1.heap st.nalloc).nline = d.nline ∧ (st1.heap st.nalloc).label = d.label ∧
      ∀ a, a ≠ st.nalloc → st1.heap a = st.heap a := by
  unfold Ingest.store at h
  split at h
  · cases h
  · split at h
    · cases h
      refine ⟨rfl, rfl, ?_, ?_, ?_⟩
      · simp [dplist.push]
      · simp [dplist.push]
      · intro a ha
        simp [dplist.push, Function.update_noteq ha]
    · cases h

theorem process_line_cases (undf : F) (libc : Libc F) (ith : Nat) (nread : Int)
    (line : List Char) (nline : Nat) (st st1 : Ingest F)
    (h : process_line undf libc ith nread line nline st = .ok st1) :
    st1 = st ∨
      (st1.nalloc = st.nalloc + 1 ∧ st1.linecounter = st.linecounter ∧
        (st1.heap st.nalloc).nline = nline ∧ ∀ a, a ≠ st.nalloc → st1.heap a = st.heap a) := by
  unfold process_line at h
  split at h
  · cases h; exact Or.inl rfl
  · simp only at h
    split at h
    · cases h; exact Or.inl rfl
    · split at h
      · cases h
      · split at h
        · cases h
        · split at h
          · cases h
          · split at h
            · cases h
            · split at h
              · cases h
              · split at h
                · cases h
                · rename_i d used1 maxfid1 hrf
                  split at h
                  · cases h
                  · rename_i st2 hst2
                    cases h
                    obtain ⟨s1, s2, s3, _, s5⟩ := Ingest.store_fields _ _ _ _ _ _ _ hst2
                    obtain ⟨r1, _⟩ := read_features_fields undf libc _ _ _ _ _ _ _ _ hrf
                    exact Or.inr ⟨s1, s2, by rw [s3, r1]; rfl, s5⟩

end reading_lemmas

section line_number_lemmas
variable {F : Type}

theorem dropWhile_spaces (ws : List Char) (c : Char) (rest : List Char)
    (hws : ∀ x ∈ ws, ISSPC x = true) (hc : ISSPC c = false) :
    (ws ++ c :: rest).dropWhile ISSPC = c :: rest := by
  induction ws with
  | nil => simp [List.dropWhile, hc]
  | cons x ws ih =>
    rw [List.cons_append, List.dropWhile_cons, if_pos (hws x (by simp))]
    exact ih (fun y hy => hws y (by simp [hy]))

theorem takeWhile_nonzero_spaces (ws : List Char) (rest : List Char)
    (hws : ∀ x ∈ ws, ISSPC x = true) :
    (ws ++ rest).takeWhile (fun c => c != '\x00') =
      ws ++ rest.takeWhile (fun c => c != '\x00') := by
  induction ws with
  | nil => rfl
  | cons x ws ih =>
    have hx : (x != '\x00') = true := by
      have := hws x (by simp)
      by_contra hne
      have : x = '\x00' := by simpa using hne
      subst this
      simp [ISSPC] at *
    rw [List.cons_append, List.takeWhile_cons, hx]
    simp only [if_true, List.cons_append]
    rw [ih (fun y hy => hws y (by simp [hy]))]

theorem process_line_comment (undf : F) (libc : Libc F) (ith : Nat) (nread : Int)
    (nline : Nat) (st : Ingest F) (ws rest : List Char)
    (hws : ∀ x ∈ ws, ISSPC x = true) :
    process_line undf libc ith nread (ws ++ '#' :: rest) nline st = .ok st := by
  unfold process_line
  split
  · rfl
  · have h1 : ((ws ++ '#' :: rest).takeWhile (fun c => c != '\x00')).dropWhile ISSPC =
        '#' :: rest.takeWhile (fun c => c != '\x00') := by
      rw [takeWhile_nonzero_spaces ws _ hws]
      have : ('#' :: rest).takeWhile (fun c => c != '\x00') =
          '#' :: rest.takeWhile (fun c => c != '\x00') := by
        rw [List.takeWhile_cons]
        simp
      rw [this]
      exact dropWhile_spaces ws '#' _ hws (by decide)
    simp only [h1, List.head?_cons, if_true]

theorem read_step_comment (undf : F) (libc : Libc F) (ith : Nat) (st : Ingest F)
    (ws rest : List Char) (hws : ∀ x ∈ ws, ISSPC x = true) :
    read_step undf libc ith (ws ++ '#' :: rest) st =
      .ok { st with linecounter := (st.linecounter + 1) % UINT_RANGE } :=
  process_line_comment undf libc ith _ _ _ ws rest hws

theorem LineInv.step (undf : F) (libc : Libc F) (ith : Nat) (line : List Char)
    (st st1 : Ingest F) (n : Nat) (hst : LineInv st n) (hn : n + 1 < UINT_RANGE)
    (h : read_step undf libc ith line st = .ok st1) :
    LineInv st1 (n + 1) ∧
      ((st1.nalloc = st.nalloc ∧ st1.heap = st.heap) ∨
        (st1.nalloc = st.nalloc + 1 ∧ (st1.heap st.nalloc).nline = n + 1 ∧
          ∀ a, a < st.nalloc → st1.heap a = st.heap a)) := by
  have hmod : (st.linecounter + 1) % UINT_RANGE = n + 1 := by
    rw [hst.counter]; exact Nat.mod_eq_of_lt hn
  unfold read_step at h
  rw [hmod] at h
  rcases process_line_cases undf libc ith _ line (n + 1) _ st1 h with e | ⟨e1, e2, e3, e4⟩
  · subst e
    refine ⟨⟨rfl, ?_, hst.increasing⟩, Or.inl ⟨rfl, rfl⟩⟩
    intro a ha
    have := hst.bounds a ha
    exact ⟨this.1, Nat.le_succ_of_le this.2⟩
  · have e1 : st1.nalloc = st.nalloc + 1 := e1
    have e3 : (st1.heap st.nalloc).nline = n + 1 := e3
    have e4 : ∀ a, a ≠ st.nalloc → st1.heap a = st.heap a := e4
    refine ⟨⟨e2, ?_, ?_⟩, Or.inr ⟨e1, e3, fun a ha => e4 a (by omega)⟩⟩
    · intro a ha
      by_cases e : a = st.nalloc
      · rw [e, e3]; omega
      · rw [e4 a e]
        have := hst.bounds a (by omega)
        exact ⟨this.1, by omega⟩
    · intro a b hab hb
      by_cases e : b = st.nalloc
      · rw [e, e3, e4 a (by omega)]
        have := hst.bounds a (by omega)
        omega
      · rw [e4 b e, e4 a (by omega)]
        exact hst.increasing a b hab (by omega)

theorem read_lines_inv (undf : F) (libc : Libc F) (sched : Nat → Nat) :
    ∀ (lines : List (List Char)) (k n : Nat) (st st1 : Ingest F), LineInv st n →
      n + lines.length < UINT_RANGE →
      read_lines undf libc sched k lines st = .ok st1 → LineInv st1 (n + lines.length) := by
  intro lines
  induction lines with
  | nil =>
    intro k n st st1 hst _ h
    simp only [read_lines, Except.ok.injEq] at h
    subst h
    exact hst
  | cons line rest ih =>
    intro k n st st1 hst hn h
    simp only [List.length_cons] at hn
    simp only [read_lines] at h
    split at h
    · cases h
    · rename_i st2 h2
      have := (LineInv.step undf libc (sched k) line st st2 n hst (by omega) h2).1
      have := ih (k + 1) (n + 1) st2 st1 this (by omega) h
      rw [List.length_cons, show n + (rest.length + 1) = n + 1 + rest.length by omega]
      exact this

theorem read_lines_append (undf : F) (libc : Libc F) (sched : Nat → Nat) :
    ∀ (pre post : List (List Char)) (k : Nat) (st : Ingest F),
      read_lines undf libc sched k (pre ++ post) st =
        match read_lines undf libc sched k pre st with
        | .error e => .error e
        | .ok st1 => read_lines undf libc sched (k + pre.length) post st1 := by
  intro pre
  induction pre with
  | nil => intro post k st; simp [read_lines]
  | cons line rest ih =>
    intro post k st
    show read_lines undf libc sched k (line :: (rest ++ post)) st = _
    simp only [read_lines]
    cases h : read_step undf libc (sched k) line st with
    | error e => rfl
    | ok st1 =>
      simp only
      rw [ih post (k + 1) st1, List.length_cons,
        show k + (rest.length + 1) = k + 1 + rest.length by omega]

theorem read_lines_comments (undf : F) (libc : Libc F) (sched : Nat → Nat)
    (ws rest : List Char) (hws : ∀ x ∈ ws, ISSPC x = true) :
    ∀ (n k : Nat) (st : Ingest F), st.linecounter < UINT_RANGE →
      read_lines undf libc sched k (List.replicate n (ws ++ '#' :: rest)) st =
        .ok { st with linecounter := (st.linecounter + n) % UINT_RANGE } := by
  intro n
  induction n with
  | zero =>
    intro k st hlt
    simp only [List.replicate, read_lines, Nat.add_zero, Nat.mod_eq_of_lt hlt]
  | succ n ih =>
    intro k st _
    simp only [List.replicate, read_lines, read_step_comment undf libc _ st ws rest hws]
    rw [ih _ _ (Nat.mod_lt _ (by decide))]
    simp only [Nat.mod_add_mod]
    rw [show st.linecounter + 1 + n = st.linecounter + (n + 1) by omega]

theorem Ingest.init_line_inv (undf : F) (NPROCESSORS : Nat) :
    LineInv (Ingest.init undf NPROCESSORS) 0 :=
  ⟨rfl, fun a ha => absurd ha (Nat.not_lt_zero a), fun _ b _ hb => absurd hb (Nat.not_lt_zero b)⟩

end line_number_lemmas

section line_number_claims
variable {F : Type}

/-- C8, as amended: for every input and every `k` below 2^32, if the loop has read the first
`k-1` physical lines without stopping, then the line counter is `k-1`, the line numbers of
the records created so far are pairwise distinct, and the iteration for the `k`-th physical
line, when it does not stop the run, leaves the counter at `k` and either creates no record
or creates exactly one record, which carries the original line number `k` and leaves the
line numbers pairwise distinct; a line whose first non-space character is `#` creates no
record and no error: its iteration only moves the line counter to `k`. -/
theorem line_numbers_of_records (undf : F) (libc : Libc F) (sched : Nat → Nat)
    (NPROCESSORS : Nat) (pre : List (List Char)) (line : List Char) (st : Ingest F)
    (hpre : read_lines undf libc sched 0 pre (Ingest.init undf NPROCESSORS) = .ok st)
    (hlen : pre.length + 1 < UINT_RANGE) :
    st.linecounter = pre.length ∧
    (∀ a b, a < st.nalloc → b < st.nalloc → a ≠ b → (st.heap a).nline ≠ (st.heap b).nline) ∧
    (∀ st1, read_step undf libc (sched pre.length) line st = .ok st1 →
      st1.linecounter = pre.length + 1 ∧
      ((st1.nalloc = st.nalloc ∧ st1.heap = st.heap) ∨
        (st1.nalloc = st.nalloc + 1 ∧ (st1.heap st.nalloc).nline = pre.length + 1 ∧
          ∀ a, a < st.nalloc → st1.heap a = st.heap a)) ∧
      (∀ a b, a < st1.nalloc → b < st1.nalloc → a ≠ b →
        (st1.heap a).nline ≠ (st1.heap b).nline)) ∧
    (∀ ws rest, line = ws ++ '#' :: rest → (∀ x ∈ ws, ISSPC x = true) →
      read_step undf libc (sched pre.length) line st =
        .ok { st with linecounter := pre.length + 1 }) := by
  have hinv := read_lines_inv undf libc sched pre 0 0 _ st
    (Ingest.init_line_inv undf NPROCESSORS) (by omega) hpre
  rw [Nat.zero_add] at hinv
  have hdist : ∀ (s : Ingest F) (n : Nat), LineInv s n →
      ∀ a b, a < s.nalloc → b < s.nalloc → a ≠ b → (s.heap a).nline ≠ (s.heap b).nline := by
    intro s n hs a b ha hb hab
    rcases Nat.lt_or_gt_of_ne hab with h | h
    · exact Nat.ne_of_lt (hs.increasing a b h hb)
    · exact Nat.ne_of_gt (hs.increasing b a h ha)
  refine ⟨hinv.counter, hdist st _ hinv, ?_, ?_⟩
  · intro st1 h1
    obtain ⟨i1, c1⟩ := LineInv.step undf libc _ line st st1 _ hinv hlen h1
    exact ⟨i1.counter, c1, hdist st1 _ i1⟩
  · intro ws rest hline hws
    rw [hline, read_step_comment undf libc _ st ws rest hws, hinv.counter,
      Nat.mod_eq_of_lt hlen]

theorem after_two_lines_eq :
    read_lines (-1) test_libc (fun _ => 0) 0 [record_line, comment_line]
      (Ingest.init (-1) 1) = .ok after_two_lines := rfl

theorem line_numbers_of_records_witness :
    after_two_lines.linecounter = [record_line, comment_line].length ∧
    (∀ a b, a < after_two_lines.nalloc → b < after_two_lines.nalloc → a ≠ b →
      (after_two_lines.heap a).nline ≠ (after_two_lines.heap b).nline) ∧
    (∀ st1, read_step (-1) test_libc ((fun _ => 0) [record_line, comment_line].length)
        record_line after_two_lines = .ok st1 →
      st1.linecounter = [record_line, comment_line].length + 1 ∧
      ((st1.nalloc = after_two_lines.nalloc ∧ st1.heap = after_two_lines.heap) ∨
        (st1.nalloc = after_two_lines.nalloc + 1 ∧
          (st1.heap after_two_lines.nalloc).nline = [record_line, comment_line].length + 1 ∧
          ∀ a, a < after_two_lines.nalloc → st1.heap a = after_two_lines.heap a)) ∧
      (∀ a b, a < st1.nalloc → b < st1.nalloc → a ≠ b →
        (st1.heap a).nline ≠ (st1.heap b).nline)) ∧
    (∀ ws rest, record_line = ws ++ '#' :: rest → (∀ x ∈ ws, ISSPC x = true) →
      read_step (-1) test_libc ((fun _ => 0) [record_line, comment_line].length)
        record_line after_two_lines =
        .ok { after_two_lines with
              linecounter := [record_line, comment_line].length + 1 }) :=
  line_numbers_of_records (-1) test_libc (fun _ => 0) 1 [record_line, comment_line]
    record_line after_two_lines after_two_lines_eq (by decide)

theorem after_record_line_eq :
    read_step (-1) test_libc 0 record_line (Ingest.init (-1) 1) = .ok after_record_line := rfl

theorem after_record_line_counter : after_record_line.linecounter = 1 := rfl

theorem read_lines_wrapped (n : Nat) (hn : (1 + n) % UINT_RANGE = 0) :
    ∃ st : Ingest Int,
      read_lines (-1) test_libc (fun _ => 0) 0
        (record_line :: List.replicate n comment_line ++ [record_line])
        (Ingest.init (-1) 1) = .ok st ∧
      st.nalloc = 2 ∧ (st.heap 0).nline = 1 ∧ (st.heap 1).nline = 1 := by
  have h2 := read_lines_comments (-1) test_libc (fun _ => 0) [' ', ' '] " note\n".toList
    (by decide) n 1 after_record_line (by decide)
  rw [after_record_line_counter, hn] at h2
  have h3 : ∃ st : Ingest Int,
      read_step (-1) test_libc 0 record_line { after_record_line with linecounter := 0 }
        = .ok st ∧
      st.nalloc = 2 ∧ (st.heap 0).nline = 1 ∧ (st.heap 1).nline = 1 :=
    ⟨_, rfl, rfl, rfl, rfl⟩
  obtain ⟨st, e3, p1, p2, p3⟩ := h3
  refine ⟨st, ?_, p1, p2, p3⟩
  have hsplit : record_line :: List.replicate n comment_line ++ [record_line] =
      [record_line] ++ (List.replicate n comment_line ++ [record_line]) := rfl
  rw [hsplit, read_lines_append]
  simp only [read_lines, after_record_line_eq]
  rw [read_lines_append]
  have h2' : read_lines (-1) test_libc (fun _ => 0) (0 + [record_line].length)
      (List.replicate n comment_line) after_record_line =
        .ok { after_record_line with linecounter := 0 } := h2
  rw [h2']
  simp only [read_lines, e3]

/-- C8, counterexample: in the file of 2^32+1 physical lines made of the line
`1.0 q1 1:0.5 3:2.0`, then 2^32-1 comment lines, then the same line again, the loop of one
thread creates two records; the one created from physical line 2^32+1 carries the line
number 1, not 2^32+1, which is also the number of the record created from line 1. -/
theorem line_number_wraps :
    ∃ st : Ingest Int,
      read_lines (-1) test_libc (fun _ => 0) 0
        (record_line :: List.replicate (2 ^ 32 - 1) comment_line ++ [record_line])
        (Ingest.init (-1) 1) = .ok st ∧
      st.nalloc = 2 ∧ (st.heap 0).nline = 1 ∧ (st.heap 1).nline = 1 :=
  read_lines_wrapped (2 ^ 32 - 1) (by decide)

end line_number_claims

section malformed_line_claims
variable {F : Type}

theorem process_line_spaces (undf : F) (libc : Libc F) (ith : Nat) (nline : Nat)
    (st : Ingest F) (ws : List Char) (hws : ∀ x ∈ ws, ISSPC x = true) :
    process_line undf libc ith ((ws ++ ['\n']).length : Int) (ws ++ ['\n']) nline st =
      .error (Stop.exit 2) := by
  have hall : ∀ x ∈ ws ++ ['\n'], ISSPC x = true := by
    intro x hx
    rcases List.mem_append.mp hx with h | h
    · exact hws x h
    · have : x = '\n' := by simpa using h
      rw [this]; decide
  have h1 : (ws ++ ['\n']).takeWhile (fun c => c != '\x00') = ws ++ ['\n'] := by
    have := takeWhile_nonzero_spaces (ws ++ ['\n']) [] hall
    simpa using this
  have h2 : (ws ++ ['\n']).dropWhile ISSPC = [] :=
    List.dropWhile_eq_nil_iff.mpr hall
  have h3 : ¬ (((ws ++ ['\n']).length : Int) ≤ 0) := by
    simp only [List.length_append, List.length_singleton]
    omega
  unfold process_line
  rw [if_neg h3]
  simp only [h1, h2]
  rfl

/-- C9, failing run: when the loop has read the lines `pre` without stopping and the next
line holds only space characters before its line feed (an empty line), the constructor does
not skip the line: it stops the run with `exit(2)`, whatever follows. -/
theorem empty_line_exits (undf : F) (libc : Libc F) (sched : Nat → Nat) (NPROCESSORS : Nat)
    (pre post : List (List Char)) (ws : List Char) (st : Ingest F)
    (hpre : read_lines undf libc sched 0 pre (Ingest.init undf NPROCESSORS) = .ok st)
    (hws : ∀ x ∈ ws, ISSPC x = true) :
    dpset.new undf libc NPROCESSORS sched (some (pre ++ (ws ++ ['\n']) :: post)) =
      .error (Stop.exit 2) := by
  have h1 : read_lines undf libc sched 0 (pre ++ (ws ++ ['\n']) :: post)
      (Ingest.init undf NPROCESSORS) = .error (Stop.exit 2) := by
    rw [read_lines_append, hpre]
    simp only [read_lines, read_step, process_line_spaces undf libc _ _ _ ws hws]
  simp only [dpset.new, read_loop, h1]

theorem empty_line_exits_witness :
    dpset.new (-1) test_libc 1 (fun _ => 0)
      (some ([record_line] ++ ([' '] ++ ['\n']) :: [record_line])) = .error (Stop.exit 2) :=
  empty_line_exits (-1) test_libc (fun _ => 0) 1 [record_line] [record_line] [' ']
    after_record_line (by rfl) (by decide)

/-- C10, failing run: the single line `abc q1 1:1.0`, whose first field is not a
floating-point literal, does not stop the run: the constructor returns a dataset with one
record, one group and one feature column, whose label is what `atof` returns for `abc`. -/
theorem non_numeric_label_accepted (atof : List Char → Int) :
    ∃ ds : dpset Int,
      dpset.new (-1) { atof := atof, sscanf_pair := test_libc.sscanf_pair } 1 (fun _ => 0)
        (some ["abc q1 1:1.0\n".toList]) = .ok ds ∧
      ds.get_ndatapoints = 1 ∧ ds.get_nrankedlists = 1 ∧
      ds.get_label 0 = some (atof "abc".toList) ∧
      ds.get_fvector 0 = some [some 10] :=
  ⟨_, rfl, rfl, rfl, rfl, rfl⟩

end malformed_line_claims

section reading_link
variable {F : Type}

theorem read_features_eq (undf : F) (libc : Libc F) :
    ∀ (fuel : Nat) (pch : List Char) (d : dp F) (used : bitarray) (maxfid : Nat)
      (d1 : dp F) (used1 : bitarray) (maxfid1 : Nat),
      read_features undf libc fuel pch d used maxfid = .ok (d1, used1, maxfid1) →
      ∃ feats : List (Nat × F), dp.ins_features undf d feats = some d1 ∧
        used1 = feats.foldl (fun b p => bitarray.set_up b p.1) used ∧
        maxfid1 = feats.foldl (fun m p => if p.1 > m then p.1 else m) maxfid ∧
        ∀ p ∈ feats, ∃ token fid0, libc.sscanf_pair token = some (fid0, p.2) ∧
          p.1 = fid0 % UINT_RANGE := by
  intro fuel
  induction fuel with
  | zero => intro pch d used maxfid d1 used1 maxfid1 h; simp [read_features] at h
  | succ fuel ih =>
    intro pch d used maxfid d1 used1 maxfid1 h
    simp only [read_features] at h
    split at h
    · cases h; exact ⟨[], rfl, rfl, rfl, fun p hp => absurd hp (List.not_mem_nil p)⟩
    · split at h
      · cases h; exact ⟨[], rfl, rfl, rfl, fun p hp => absurd hp (List.not_mem_nil p)⟩
      · split at h
        · exact ih _ _ _ _ _ _ _ h
        · split at h
          · cases h
          · rename_i token _ _ _ fid0 fval hscan
            split at h
            · cases h
            · rename_i d2 hd2
              obtain ⟨feats, e1, e2, e3, e4⟩ := ih _ _ _ _ _ _ _ h
              refine ⟨(fid0 % UINT_RANGE, fval) :: feats, ?_, e2, e3, ?_⟩
              · simp only [dp.ins_features, hd2, e1]
              · intro p hp
                rcases List.mem_cons.mp hp with rfl | hp
                · exact ⟨token, fid0, hscan, rfl⟩
                · exact e4 p hp

theorem process_line_add (undf : F) (libc : Libc F) (ith : Nat) (nread : Int)
    (line : List Char) (nline : Nat) (st st1 : Ingest F)
    (h : process_line undf libc ith nread line nline st = .ok st1) :
    st1 = st ∨
      ∃ r : Rec F, r.ith = ith ∧ r.nline = nline ∧
        r.initsize = (st.maxfid + 1) % UINT_RANGE ∧
        (∀ p ∈ r.feats, ∃ token fid0, libc.sscanf_pair token = some (fid0, p.2) ∧
          p.1 = fid0 % UINT_RANGE) ∧
        st.add undf r = some st1 := by
  unfold process_line at h
  split at h
  · cases h; exact Or.inl rfl
  · simp only at h
    split at h
    · cases h; exact Or.inl rfl
    · split at h
      · cases h
      · rename_i token _
        split at h
        · cases h
        · split at h
          · cases h
          · rename_i key _
            split at h
            · cases h
            · split at h
              · cases h
              · rename_i used hused
                split at h
                · cases h
                · rename_i d used1 maxfid1 hrf
                  split at h
                  · cases h
                  · rename_i st2 hst2
                    cases h
                    obtain ⟨feats, e1, e2, e3, e4⟩ :=
                      read_features_eq undf libc _ _ _ _ _ _ _ _ hrf
                    refine Or.inr ⟨Rec.mk ith nline (libc.atof token)
                      ((st.maxfid + 1) % UINT_RANGE) key feats, rfl, rfl, rfl, e4, ?_⟩
                    simp only [Ingest.add, e1, hused]
                    rw [← e2, ← e3]
                    exact hst2

theorem Ingest.add_linecounter (undf : F) (st st1 : Ingest F) (r : Rec F) (c : Nat)
    (h : st.add undf r = some st1) :
    Ingest.add undf { st with linecounter := c } r = some { st1 with linecounter := c } := by
  unfold Ingest.add at h ⊢
  split at h
  · rename_i d used hd hu
    simp only [hd, hu]
    unfold Ingest.store at h ⊢
    split at h
    · cases h
    · rename_i n hn
      simp only [hn]
      split at h
      · rename_i hlt
        cases h
        simp only [if_pos hlt]
      · cases h
  · cases h

theorem Ingest.add_all_linecounter (undf : F) (recs : List (Rec F)) :
    ∀ (st st1 : Ingest F) (c : Nat), Ingest.add_all undf st recs = some st1 →
      Ingest.add_all undf { st with linecounter := c } recs =
        some { st1 with linecounter := c } := by
  induction recs with
  | nil =>
    intro st st1 c h
    simp only [Ingest.add_all, Option.some.injEq] at h
    subst h
    rfl
  | cons r rest ih =>
    intro st st1 c h
    simp only [Ingest.add_all] at h
    split at h
    · cases h
    · rename_i st2 h2
      simp only [Ingest.add_all, Ingest.add_linecounter undf st st2 r c h2]
      exact ih st2 st1 c h

theorem Ingest.add_all_append (undf : F) (l1 : List (Rec F)) :
    ∀ (l2 : List (Rec F)) (st st1 st2 : Ingest F), Ingest.add_all undf st l1 = some st1 →
      Ingest.add_all undf st1 l2 = some st2 → Ingest.add_all undf st (l1 ++ l2) = some st2 := by
  induction l1 with
  | nil =>
    intro l2 st st1 st2 h1 h2
    simp only [Ingest.add_all, Option.some.injEq] at h1
    subst h1
    exact h2
  | cons r rest ih =>
    intro l2 st st1 st2 h1 h2
    simp only [Ingest.add_all] at h1
    split at h1
    · cases h1
    · rename_i st3 h3
      simp only [List.cons_append, Ingest.add_all, h3]
      exact ih l2 st3 st1 st2 h1 h2

/-- The reading loop as a sequence of accepted lines: when the iterations for `lines` do not
stop the run, the state they reach is the state the accepted lines give, in the order of the
file, with the threads of the schedule and the capacity hints that the loop passes; only the
line counter differs. -/
theorem read_lines_eq_add_all (undf : F) (libc : Libc F) (sched : Nat → Nat) :
    ∀ (lines : List (List Char)) (k : Nat) (st st1 : Ingest F),
      read_lines undf libc sched k lines st = .ok st1 →
      ∃ recs : List (Rec F), recs.length ≤ lines.length ∧
        (∀ r ∈ recs, (∃ j, r.ith = sched j) ∧ r.initsize < UINT_RANGE ∧
          ∀ p ∈ r.feats, ∃ token fid0, libc.sscanf_pair token = some (fid0, p.2) ∧
            p.1 = fid0 % UINT_RANGE) ∧
        Ingest.add_all undf st recs = some { st1 with linecounter := st.linecounter } := by
  intro lines
  induction lines with
  | nil =>
    intro k st st1 h
    simp only [read_lines, Except.ok.injEq] at h
    subst h
    exact ⟨[], le_refl _, fun r hr => absurd hr (List.not_mem_nil r), rfl⟩
  | cons line rest ih =>
    intro k st st1 h
    simp only [read_lines] at h
    split at h
    · cases h
    · rename_i st2 h2
      obtain ⟨recs, hl, hv, ha⟩ := ih (k + 1) st2 st1 h
      unfold read_step at h2
      rcases process_line_add undf libc _ _ _ _ _ _ h2 with e | ⟨r, r1, _, r3, r4, r5⟩
      · refine ⟨recs, by simp only [List.length_cons]; omega, hv, ?_⟩
        have := Ingest.add_all_linecounter undf recs st2 _ st.linecounter ha
        rw [e] at this
        exact this
      · refine ⟨r :: recs, by simp only [List.length_cons]; omega, ?_, ?_⟩
        · intro x hx
          rcases List.mem_cons.mp hx with rfl | hx
          · exact ⟨⟨k, r1⟩, by rw [r3]; exact Nat.mod_lt _ (by decide), r4⟩
          · exact hv x hx
        · have h5 := Ingest.add_linecounter undf _ st2 r st.linecounter r5
          have h6 := Ingest.add_all_linecounter undf recs st2 _ st.linecounter ha
          exact Ingest.add_all_append undf [r] recs st _ _
            (by simp only [Ingest.add_all]; rw [h5]) h6

end reading_link

section token_lemmas
variable {F : Type}

theorem read_token_length (pch : List Char) (exitch : Option Char) (token : List Char)
    (h : (read_token pch exitch).1 = some token) :
    (read_token pch exitch).2.length < pch.length := by
  unfold read_token at h ⊢
  have hle := (List.dropWhile_suffix (l := pch) ISSPC).length_le
  cases hd : pch.dropWhile ISSPC with
  | nil => rw [hd] at h; cases h
  | cons c cs =>
    rw [hd] at hle
    simp only [List.length_cons] at hle
    simp only []
    split
    · simp only [List.length_nil]; omega
    · have h2 := (List.dropWhile_suffix (l := c :: cs) (fun x => !ISSPC x)).length_le
      simp only [List.length_drop, List.length_cons] at h2 ⊢
      omega

theorem read_features_outcome (undf : F) (libc : Libc F) :
    ∀ (fuel : Nat) (pch : List Char) (d : dp F) (used : bitarray) (maxfid : Nat),
      pch.length < fuel → d.Inv →
      ((∀ t ∈ feature_tokens fuel pch, reads_pair libc t) →
        ∃ r, read_features undf libc fuel pch d used maxfid = .ok r) ∧
      (∀ good bad rest, feature_tokens fuel pch = good ++ bad :: rest →
        (∀ t ∈ good, reads_pair libc t) → libc.sscanf_pair bad = none →
        read_features undf libc fuel pch d used maxfid = .error (Stop.exit 4)) := by
  intro fuel
  induction fuel with
  | zero => intro pch d used maxfid h; omega
  | succ fuel ih =>
    intro pch d used maxfid hlen hd
    simp only [read_features, feature_tokens]
    by_cases hemp : ISEMPTY (read_token pch (some '#')).1 = true
    · simp only [hemp, if_true]
      refine ⟨fun _ => ⟨_, rfl⟩, ?_⟩
      intro good bad rest h; simp at h
    · simp only [hemp]
      cases htok : (read_token pch (some '#')).1 with
      | none => rw [htok] at hemp; simp [ISEMPTY] at hemp
      | some token =>
        have hl := read_token_length pch (some '#') token htok
        simp only [Bool.false_eq_true, if_false]
        by_cases hh : token.head? = some '#'
        · simp only [hh, if_true]
          exact ih [] d used maxfid (by simp only [List.length_nil]; omega) hd
        · simp only [hh, if_false]
          constructor
          · intro hall
            obtain ⟨fid, fval, hs, hf⟩ := hall token (by simp)
            obtain ⟨d1, e1, hd1, _⟩ := dp.ins_feature_spec undf d hd _ hf fval
            simp only [hs, e1]
            exact (ih _ d1 _ _ (by omega) hd1).1 (fun t ht => hall t (by simp [ht]))
          · intro good bad rest hsplit hgood hbad
            cases good with
            | nil =>
              simp only [List.nil_append, List.cons.injEq] at hsplit
              rw [hsplit.1, hbad]
            | cons g gs =>
              simp only [List.cons_append, List.cons.injEq] at hsplit
              obtain ⟨fid, fval, hs, hf⟩ := hgood g (by simp)
              rw [← hsplit.1] at hs
              obtain ⟨d1, e1, hd1, _⟩ := dp.ins_feature_spec undf d hd _ hf fval
              simp only [hs, e1]
              exact (ih _ d1 _ _ (by omega) hd1).2 gs bad rest hsplit.2
                (fun t ht => hgood t (by simp [ht])) hbad

theorem Ingest.store_lengths (st st1 : Ingest F) (ith : Nat) (key : List Char) (d : dp F)
    (used : bitarray) (maxfid : Nat) (h : st.store ith key d used maxfid = some st1) :
    st1.th_ndps.length = st.th_ndps.length ∧
      st1.th_usedfid.length = st.th_usedfid.length := by
  unfold Ingest.store at h
  split at h
  · cases h
  · split at h
    · cases h; simp
    · cases h

theorem Ingest.store_total (st : Ingest F) (ith : Nat) (key : List Char) (d : dp F)
    (used : bitarray) (maxfid : Nat) (h1 : ith < st.th_ndps.length)
    (h2 : ith < st.th_usedfid.length) :
    ∃ st1, st.store ith key d used maxfid = some st1 := by
  unfold Ingest.store
  rw [List.getElem?_eq_getElem h1]
  simp only [if_pos h2]
  exact ⟨_, rfl⟩

theorem process_line_lengths (undf : F) (libc : Libc F) (ith : Nat) (nread : Int)
    (line : List Char) (nline : Nat) (st st1 : Ingest F)
    (h : process_line undf libc ith nread line nline st = .ok st1) :
    st1.th_ndps.length = st.th_ndps.length ∧
      st1.th_usedfid.length = st.th_usedfid.length := by
  unfold process_line at h
  split at h
  · cases h; exact ⟨rfl, rfl⟩
  · simp only at h
    split at h
    · cases h; exact ⟨rfl, rfl⟩
    · split at h
      · cases h
      · split at h
        · cases h
        · split at h
          · cases h
          · split at h
            · cases h
            · split at h
              · cases h
              · split at h
                · cases h
                · split at h
                  · cases h
                  · rename_i st2 hst2
                    cases h
                    exact Ingest.store_lengths _ _ _ _ _ _ _ hst2

theorem read_lines_lengths (undf : F) (libc : Libc F) (sched : Nat → Nat) :
    ∀ (lines : List (List Char)) (k : Nat) (st st1 : Ingest F),
      read_lines undf libc sched k lines st = .ok st1 →
      st1.th_ndps.length = st.th_ndps.length ∧
        st1.th_usedfid.length = st.th_usedfid.length := by
  intro lines
  induction lines with
  | nil =>
    intro k st st1 h
    simp only [read_lines, Except.ok.injEq] at h
    subst h; exact ⟨rfl, rfl⟩
  | cons line rest ih =>
    intro k st st1 h
    simp only [read_lines] at h
    cases hs : read_step undf libc (sched k) line st with
    | error e => rw [hs] at h; cases h
    | ok st2 =>
      rw [hs] at h
      obtain ⟨a1, a2⟩ := ih _ _ _ h
      obtain ⟨b1, b2⟩ := process_line_lengths undf libc _ _ _ _ _ _ hs
      exact ⟨a1.trans b1, a2.trans b2⟩

end token_lemmas

section process_line_lemmas
variable {F : Type}

theorem process_line_outcome (undf : F) (libc : Libc F) (ith : Nat) (nread : Int)
    (line : List Char) (nline : Nat) (st : Ingest F)
    (hread : 0 < nread) (hcomment : (line_fields line).head? ≠ some '#')
    (h1 : ith < st.th_ndps.length) (h2 : ith < st.th_usedfid.length) :
    (ISEMPTY (label_token line) = true →
      process_line undf libc ith nread line nline st = .error (Stop.exit 2)) ∧
    (ISEMPTY (label_token line) = false → ISEMPTY (key_token line) = true →
      process_line undf libc ith nread line nline st = .error (Stop.exit 3)) ∧
    (ISEMPTY (label_token line) = false → ISEMPTY (key_token line) = false →
      ∀ good bad rest, line_feature_tokens line = good ++ bad :: rest →
        (∀ t ∈ good, reads_pair libc t) → libc.sscanf_pair bad = none →
        process_line undf libc ith nread line nline st = .error (Stop.exit 4)) ∧
    (ISEMPTY (label_token line) = false → ISEMPTY (key_token line) = false →
      (∀ t ∈ line_feature_tokens line, reads_pair libc t) →
      ∃ st1 token, label_token line = some token ∧
        process_line undf libc ith nread line nline st = .ok st1 ∧
        st1.nalloc = st.nalloc + 1 ∧ (st1.heap st.nalloc).nline = nline ∧
        (st1.heap st.nalloc).label = libc.atof token) := by
  have hn : ¬ nread ≤ 0 := by omega
  unfold label_token key_token line_feature_tokens
  unfold line_fields at hcomment ⊢
  unfold process_line
  simp only [if_neg hn, if_neg hcomment]
  generalize (line.takeWhile (fun c => c != '\x00')).dropWhile ISSPC = pch
  cases ht1 : (read_token pch none).1 with
  | none =>
    refine ⟨fun _ => rfl, ?_, ?_, ?_⟩ <;> intro h <;> simp [ISEMPTY] at h
  | some token =>
    simp only []
    by_cases he1 : ISEMPTY (some token) = true
    · simp only [he1, if_true]
      refine ⟨fun _ => trivial, ?_, ?_, ?_⟩ <;> intro h <;> simp at h
    · simp only [he1]
      simp only [Bool.false_eq_true, if_false, false_implies, true_and, forall_const]
      cases ht2 : (read_token (read_token pch none).2 none).1 with
      | none =>
        refine ⟨fun _ => rfl, ?_, ?_⟩ <;> intro h <;> simp [ISEMPTY] at h
      | some key =>
        simp only []
        by_cases he2 : ISEMPTY (some key) = true
        · simp only [he2, if_true]
          refine ⟨fun _ => trivial, ?_, ?_⟩ <;> intro h <;> simp at h
        · simp only [he2]
          simp only [Bool.false_eq_true, if_false, false_implies, true_and, forall_const]
          obtain ⟨used, hused⟩ : ∃ used, st.th_usedfid[ith]? = some used :=
            ⟨_, List.getElem?_eq_getElem h2⟩
          simp only [hused]
          have hinv : (dp.new undf (libc.atof token) nline ((st.maxfid + 1) % UINT_RANGE)).Inv :=
            dp.new_inv undf _ _ _ (Nat.mod_lt _ (by decide))
          have hout := read_features_outcome undf libc
            ((read_token (read_token pch none).2 none).2.length + 1)
            (read_token (read_token pch none).2 none).2 _ used st.maxfid (by omega) hinv
          constructor
          · intro good bad rest hs hg hb
            rw [hout.2 good bad rest hs hg hb]
          · intro hall
            obtain ⟨⟨d, used1, maxfid1⟩, hr⟩ := hout.1 hall
            obtain ⟨st1, hst1⟩ := Ingest.store_total st ith key d used1 maxfid1 h1 h2
            obtain ⟨s1, _, s3, s4, _⟩ := Ingest.store_fields _ _ _ _ _ _ _ hst1
            obtain ⟨r1, r2⟩ := read_features_fields undf libc _ _ _ _ _ _ _ _ hr
            refine ⟨st1, token, rfl, ?_, s1, by rw [s3, r1]; rfl, by rw [s4, r2]; rfl⟩
            simp only [hr, hst1]

end process_line_lemmas

section malformed_record_claims
variable {F : Type}

/-- C11: when the loop has read the lines `pre` without stopping and the thread that reads
the next line has an index below `NPROCESSORS`, a next line that is not skipped (it is not
empty for `getline` and its first non-space character is not `#`) has exactly these
outcomes. If the label token is absent the constructor stops with `exit(2)`; otherwise, if
the id token is absent, with `exit(3)`; otherwise, if a feature token before any `#`
annotation is not read as a pair by `sscanf` (those before it being pairs with ids below
2^31), with `exit(4)`; in these cases no dataset is returned, whatever follows the line. If
none of them holds (every feature token before a `#` annotation is a pair with an id below
2^31) the line is accepted: the loop goes on with one more record, which carries the line
number of the line and the label `atof` returns. A source that cannot be opened gives
`exit(5)`. -/
theorem malformed_record_exit_codes (undf : F) (libc : Libc F) (sched : Nat → Nat)
    (NPROCESSORS : Nat) (pre post : List (List Char)) (line : List Char) (st : Ingest F)
    (hpre : read_lines undf libc sched 0 pre (Ingest.init undf NPROCESSORS) = .ok st)
    (hith : sched pre.length < NPROCESSORS)
    (hread : line ≠ []) (hcomment : (line_fields line).head? ≠ some '#') :
    dpset.new undf libc NPROCESSORS sched none = .error (Stop.exit 5) ∧
    (ISEMPTY (label_token line) = true →
      dpset.new undf libc NPROCESSORS sched (some (pre ++ line :: post)) =
        .error (Stop.exit 2)) ∧
    (ISEMPTY (label_token line) = false → ISEMPTY (key_token line) = true →
      dpset.new undf libc NPROCESSORS sched (some (pre ++ line :: post)) =
        .error (Stop.exit 3)) ∧
    (ISEMPTY (label_token line) = false → ISEMPTY (key_token line) = false →
      ∀ good bad rest, line_feature_tokens line = good ++ bad :: rest →
        (∀ t ∈ good, reads_pair libc t) → libc.sscanf_pair bad = none →
        dpset.new undf libc NPROCESSORS sched (some (pre ++ line :: post)) =
          .error (Stop.exit 4)) ∧
    (ISEMPTY (label_token line) = false → ISEMPTY (key_token line) = false →
      (∀ t ∈ line_feature_tokens line, reads_pair libc t) →
      ∃ st1 token, label_token line = some token ∧
        read_lines undf libc sched 0 (pre ++ [line]) (Ingest.init undf NPROCESSORS) = .ok st1 ∧
        st1.nalloc = st.nalloc + 1 ∧
        (st1.heap st.nalloc).nline = (st.linecounter + 1) % UINT_RANGE ∧
        (st1.heap st.nalloc).label = libc.atof token) := by
  obtain ⟨l1, l2⟩ := read_lines_lengths undf libc sched pre 0 _ st hpre
  have hl1 : sched pre.length < st.th_ndps.length := by
    rw [l1]; simpa [Ingest.init] using hith
  have hl2 : sched pre.length < st.th_usedfid.length := by
    rw [l2]; simpa [Ingest.init] using hith
  have hpos : 0 < (line.length : Int) := by
    have := List.length_pos.mpr hread
    omega
  obtain ⟨o2, o3, o4, o5⟩ := process_line_outcome undf libc (sched pre.length) line.length line
    ((st.linecounter + 1) % UINT_RANGE)
    { st with linecounter := (st.linecounter + 1) % UINT_RANGE } hpos hcomment hl1 hl2
  have hstop : ∀ e, process_line undf libc (sched pre.length) line.length line
      ((st.linecounter + 1) % UINT_RANGE)
      { st with linecounter := (st.linecounter + 1) % UINT_RANGE } = .error e →
      dpset.new undf libc NPROCESSORS sched (some (pre ++ line :: post)) = .error e := by
    intro e he
    have h1 : read_lines undf libc sched 0 (pre ++ line :: post)
        (Ingest.init undf NPROCESSORS) = .error e := by
      rw [read_lines_append, hpre]
      simp only [read_lines, read_step, Nat.zero_add, he]
    simp only [dpset.new, read_loop, h1]
  refine ⟨rfl, fun h => hstop _ (o2 h), fun h1 h2 => hstop _ (o3 h1 h2),
    fun h1 h2 good bad rest hs hg hb => hstop _ (o4 h1 h2 good bad rest hs hg hb), ?_⟩
  intro h1 h2 hall
  obtain ⟨st1, token, e1, e2, e3, e4, e5⟩ := o5 h1 h2 hall
  refine ⟨st1, token, e1, ?_, e3, e4, e5⟩
  rw [read_lines_append, hpre]
  simp only [read_lines, read_step, Nat.zero_add, e2]

theorem malformed_record_exit_codes_witness :
    dpset.new (-1) test_libc 1 (fun _ => 0) none = .error (Stop.exit 5) ∧
    dpset.new (-1) test_libc 1 (fun _ => 0)
      (some ([record_line] ++ bad_feature_line :: [record_line])) = .error (Stop.exit 4) :=
  have h := malformed_record_exit_codes (-1) test_libc (fun _ => 0) 1 [record_line]
    [record_line] bad_feature_line after_record_line (by rfl) (by decide) (by decide)
    (by decide)
  ⟨h.1, h.2.2.2.1 (by decide) (by decide) ["1:0.5".toList] "bad".toList [] (by decide)
    (fun t ht => ⟨1, 5, by
      have : t = "1:0.5".toList := by simpa using ht
      rw [this]; rfl, by decide⟩) (by decide)⟩

end malformed_record_claims

section no_feature_claims
variable {F : Type}

theorem no_pairs_file_undefined :
    dpset.new (-1) test_libc 1 (fun _ => 0) (some ["1.0 q1\n".toList]) =
      .error Stop.undefined := rfl

/-- C12, failing runs: for every sequence of accepted lines none of which has a feature pair
(any push order, threads below `NPROCESSORS`, capacity hints), the reading loop completes,
the merged set of used ids is empty, so that `nfeatureids` is 0 and
`usedfid[nfeatureids-1]` reads the element at index 2^32-1 of an array without elements: the
construction of the matrix is undefined and no dataset with zero columns is produced. -/
theorem no_feature_pairs_out_of_range (undf : F) (NPROCESSORS : Nat) (recs : List (Rec F))
    (hvalid : ∀ r ∈ recs, r.Valid NPROCESSORS) (hnone : ∀ r ∈ recs, r.feats = []) :
    ∃ st, Ingest.add_all undf (Ingest.init undf NPROCESSORS) recs = some st ∧
      (∀ u0 us, st.th_usedfid = u0 :: us →
        (merge_usedfid u0 us).get_upcounter = 0 ∧
        (merge_usedfid u0 us).get_uparray[(0 + UINT_RANGE - 1) % UINT_RANGE]? = none) ∧
      dpset.build undf st = none := by
  obtain ⟨st, est, hst⟩ := Ingest.add_all_spec undf NPROCESSORS recs
    (Ingest.init undf NPROCESSORS) [] (Ingest.init_inv undf NPROCESSORS) hvalid
  simp only [List.nil_append] at hst
  have hobs : ∀ j, ¬ observed recs j := by
    rintro j ⟨r, hr, p, hp, _⟩
    rw [hnone r hr] at hp
    simp at hp
  have hempty : ∀ u0 us, st.th_usedfid = u0 :: us → (merge_usedfid u0 us).get_uparray = [] := by
    intro u0 us e
    apply List.eq_nil_iff_forall_not_mem.mpr
    intro j hj
    rw [bitarray.mem_get_uparray, is_up_merge_usedfid] at hj
    rw [← e] at hj
    exact hobs j ((hst.used_iff j).mp hj)
  refine ⟨st, est, ?_, ?_⟩
  · intro u0 us e
    simp [bitarray.get_upcounter, hempty u0 us e]
  · unfold dpset.build
    split
    · rename_i n0 ns u0 us _ e
      simp [bitarray.get_upcounter, hempty u0 us e]
    · rfl

theorem no_pairs_input_valid : ∀ r ∈ no_pairs_input, r.Valid 1 ∧ r.feats = [] := by
  intro r hr
  simp only [no_pairs_input, List.mem_singleton] at hr
  subst hr
  exact ⟨⟨by decide, by decide, by decide⟩, rfl⟩

theorem no_feature_pairs_out_of_range_witness :
    ∃ st, Ingest.add_all (-1) (Ingest.init (-1) 1) no_pairs_input = some st ∧
      (∀ u0 us, st.th_usedfid = u0 :: us →
        (merge_usedfid u0 us).get_upcounter = 0 ∧
        (merge_usedfid u0 us).get_uparray[(0 + UINT_RANGE - 1) % UINT_RANGE]? = none) ∧
      dpset.build (-1) st = none :=
  no_feature_pairs_out_of_range (-1) 1 no_pairs_input
    (fun r hr => (no_pairs_input_valid r hr).1) (fun r hr => (no_pairs_input_valid r hr).2)

end no_feature_claims

section capacity_claims
variable {F : Type}

theorem dp.ins_feature_maxsize (undf : F) (d d1 : dp F) (fid : Nat) (fval : F)
    (h : d.ins_feature undf fid fval = some d1) :
    d1.maxsize = if fid ≥ d.maxsize then (2 * fid + 1) % UINT_RANGE else d.maxsize := by
  unfold dp.ins_feature at h
  by_cases hc : fid ≥ d.maxsize
  · simp only [if_pos hc] at h ⊢
    split at h
    · cases h
    · split at h
      · cases h
      · cases h; rfl
  · simp only [if_neg hc] at h ⊢
    split at h
    · cases h
    · split at h
      · cases h
      · cases h; rfl

theorem fill_undf_overrun (undf : F) (hi : Nat) :
    ∀ (k i : Nat) (b : Buf F), k = hi - i → i < hi → b.length < hi →
      fill_undf undf hi k i b = none := by
  intro k
  induction k with
  | zero => intro i b hk hi1 _; omega
  | succ k ih =>
    intro i b hk hi1 hb
    simp only [fill_undf, if_pos hi1]
    by_cases hs : i < b.length
    · simp only [store, if_pos hs]
      have hlen : (b.set i (some undf)).length = b.length := List.length_set _ _ _
      by_cases hk0 : i + 1 < hi
      · exact ih (i + 1) _ (by omega) hk0 (by rw [hlen]; exact hb)
      · omega
    · simp only [store, if_neg hs]

theorem dp.ins_feature_overrun (undf : F) (d : dp F) (fid : Nat)
    (hlo : 2 ^ 31 ≤ fid) (hhi : fid < UINT_RANGE) (hcap : fid ≥ d.maxsize) (fval : F) :
    (2 * fid + 1) % UINT_RANGE ≤ fid ∧ d.ins_feature undf fid fval = none := by
  have hm : (2 * fid + 1) % UINT_RANGE = 2 * fid + 1 - UINT_RANGE := by
    unfold UINT_RANGE at hhi ⊢
    omega
  have hle : (2 * fid + 1) % UINT_RANGE ≤ fid := by
    rw [hm]; unfold UINT_RANGE at hhi ⊢; omega
  refine ⟨hle, ?_⟩
  unfold dp.ins_feature
  simp only [if_pos hcap]
  have hlen : (realloc d.features ((2 * fid + 1) % UINT_RANGE)).length =
      (2 * fid + 1) % UINT_RANGE := length_realloc _ _
  by_cases hfill : (d.maxfid + 1) % UINT_RANGE < fid
  · by_cases hlt : (2 * fid + 1) % UINT_RANGE < fid
    · rw [fill_undf_overrun undf fid _ _ _ rfl hfill (by rw [hlen]; exact hlt)]
    · obtain ⟨b1, e1, l1, _⟩ := fill_undf_spec undf fid (fid - (d.maxfid + 1) % UINT_RANGE)
        ((d.maxfid + 1) % UINT_RANGE) (realloc d.features ((2 * fid + 1) % UINT_RANGE)) rfl
        (fun _ => by rw [hlen]; omega)
      simp only [e1]
      have : ¬ fid < b1.length := by rw [l1, hlen]; omega
      simp only [store, if_neg this]
  · obtain ⟨b1, e1, l1, _⟩ := fill_undf_spec undf fid (fid - (d.maxfid + 1) % UINT_RANGE)
      ((d.maxfid + 1) % UINT_RANGE) (realloc d.features ((2 * fid + 1) % UINT_RANGE)) rfl
      (fun h => absurd h hfill)
    simp only [e1]
    have : ¬ fid < b1.length := by rw [l1, hlen]; omega
    simp only [store, if_neg this]

/-- C13, counterexample: on a new record of capacity 50 the id 2^31, an unsigned 32-bit id
that is not within the capacity, makes `ins_feature` assign the capacity
`(2*2^31+1) mod 2^32 = 1`, which is not greater than the id, and the write to slot 2^31 is
outside the buffer: the call is undefined. -/
theorem ins_feature_capacity_wraps :
    (dp.new (-1 : Int) 10 1 50).Inv ∧ 2 ^ 31 < UINT_RANGE ∧
      2 ^ 31 ≥ (dp.new (-1 : Int) 10 1 50).maxsize ∧
      (2 * 2 ^ 31 + 1) % UINT_RANGE = 1 ∧
      dp.ins_feature (-1) (dp.new (-1 : Int) 10 1 50) (2 ^ 31) 5 = none :=
  ⟨dp.new_inv _ _ _ _ (by decide), by decide, by decide, by decide,
    (dp.ins_feature_overrun (-1) _ (2 ^ 31) (le_refl _)
      (by decide) (by decide) 5).2⟩

/-- C13, amended: for every record that satisfies the representation invariant and every
feature id below 2^31 that is not within the record's capacity, `ins_feature` returns and
grows the capacity to `2*id+1` (no wrap-around), so that after the call the capacity is
strictly greater than the id, the buffer has at least that many slots, the write to slot
`id` is in bounds (the slot holds the value) and the slots up to the previous maximum id are
preserved. -/
theorem ins_feature_grows_capacity (undf : F) (d : dp F) (hd : d.Inv) (fid : Nat)
    (hfid : fid < 2 ^ 31) (hcap : fid ≥ d.maxsize) (fval : F) :
    ∃ d1, d.ins_feature undf fid fval = some d1 ∧ d1.maxsize = 2 * fid + 1 ∧
      fid < d1.maxsize ∧ d1.maxsize ≤ d1.features.length ∧
      d1.features[fid]? = some (some fval) ∧
      (∀ j, j ≤ d.maxfid → j ≠ fid → d1.features[j]? = d.features[j]?) := by
  obtain ⟨d1, e1, hinv, _, _, _, _, hw, _, hkeep⟩ := dp.ins_feature_spec undf d hd fid hfid fval
  have hm := dp.ins_feature_maxsize undf d d1 fid fval e1
  rw [if_pos hcap] at hm
  have hmod : (2 * fid + 1) % UINT_RANGE = 2 * fid + 1 :=
    Nat.mod_eq_of_lt (by unfold UINT_RANGE; omega)
  rw [hmod] at hm
  exact ⟨d1, e1, hm, by omega, hinv.maxsize_le, hw, hkeep⟩

theorem ins_feature_grows_capacity_witness :
    ∃ d1, dp.ins_feature (-1 : Int) (dp.new (-1) 10 1 1) 3 5 = some d1 ∧
      d1.maxsize = 2 * 3 + 1 ∧ 3 < d1.maxsize ∧ d1.maxsize ≤ d1.features.length ∧
      d1.features[3]? = some (some 5) ∧
      (∀ j, j ≤ (dp.new (-1 : Int) 10 1 1).maxfid → j ≠ 3 →
        d1.features[j]? = (dp.new (-1 : Int) 10 1 1).features[j]?) :=
  ins_feature_grows_capacity (-1) (dp.new (-1) 10 1 1) (dp.new_inv _ _ _ _ (by decide)) 3
    (by decide) (by decide) 5

end capacity_claims

section renaming_lemmas
variable {F : Type}

theorem dpset.build_maxrlsize (undf : F) (st : Ingest F) (ds : dpset F)
    (h : dpset.build undf st = some ds) :
    ds.maxrlsize = (prefix_sizes st.rltrie.get_leaves 0 0).2 := by
  unfold dpset.build at h
  split at h
  · simp only at h
    split at h
    · cases h
    · split at h
      · cases h
      · split at h
        · cases h
        · split at h
          · cases h
          · cases h; rfl
  · cases h

theorem prefix_sizes_congr (leaf1 leaf2 : List Char → dplist) :
    ∀ (ks : List (List Char)) (sum m : Nat), (∀ k ∈ ks, (leaf1 k).size = (leaf2 k).size) →
      prefix_sizes (ks.map leaf1) sum m = prefix_sizes (ks.map leaf2) sum m := by
  intro ks
  induction ks with
  | nil => intro sum m _; rfl
  | cons k ks ih =>
    intro sum m h
    have hk : (leaf1 k).size = (leaf2 k).size := h k (by simp)
    simp only [List.map_cons, prefix_sizes, dplist.get_size, hk]
    rw [ih _ _ (fun x hx => h x (by simp [hx]))]

theorem supplied_rename (undf : F) (f : Nat → Nat) (hf : Function.Injective f)
    (r : Rec F) (u : Nat) :
    supplied undf (r.rename f).feats (f u) = supplied undf r.feats u := by
  have e : (r.rename f).feats.reverse = r.feats.reverse.map (fun p => (f p.1, p.2)) := by
    simp [Rec.rename]
  unfold supplied
  rw [e]
  generalize r.feats.reverse = l
  induction l with
  | nil => rfl
  | cons p l ih =>
    simp only [List.map_cons, List.find?_cons]
    by_cases hp : p.1 = u
    · simp [hp]
    · have h1 : (f p.1 == f u) = false := beq_eq_false_iff_ne.mpr (fun e => hp (hf e))
      have h2 : (p.1 == u) = false := beq_eq_false_iff_ne.mpr hp
      simp only [h1, h2]
      exact ih

theorem group_recs_rename (f : Nat → Nat) (recs : List (Rec F)) (k : List Char) :
    group_recs (recs.map (Rec.rename f)) k = (group_recs recs k).map (Rec.rename f) := by
  unfold group_recs
  rw [List.filter_map, List.map_reverse]
  rfl

theorem row_recs_rename (f : Nat → Nat) (recs : List (Rec F)) :
    row_recs (recs.map (Rec.rename f)) = (row_recs recs).map (Rec.rename f) := by
  unfold row_recs
  rw [List.map_flatMap, List.map_map]
  have hk : ((fun r => r.key) ∘ Rec.rename f : Rec F → List Char) = fun r => r.key := rfl
  rw [hk]
  congr 1
  funext k
  rw [group_recs_rename, quicksort_map (Rec.rename f) rec_gt rec_gt]
  intro a _ b _
  rfl

theorem observed_rename (f : Nat → Nat) (recs : List (Rec F)) (v : Nat) :
    observed (recs.map (Rec.rename f)) v ↔ ∃ u, observed recs u ∧ f u = v := by
  unfold observed
  constructor
  · rintro ⟨r, hr, p, hp, rfl⟩
    obtain ⟨r0, hr0, rfl⟩ := List.mem_map.mp hr
    obtain ⟨p0, hp0, rfl⟩ := List.mem_map.mp hp
    exact ⟨p0.1, ⟨r0, hr0, p0, hp0, rfl⟩, rfl⟩
  · rintro ⟨u, ⟨r, hr, p, hp, rfl⟩, rfl⟩
    exact ⟨r.rename f, List.mem_map_of_mem _ hr, (f p.1, p.2),
      List.mem_map_of_mem (fun p => (f p.1, p.2)) hp, rfl⟩

end renaming_lemmas

section retained_ids_claims
variable {F : Type}

theorem sorted_ext {l1 l2 : List Nat} (h1 : l1.Pairwise (fun x y => x < y))
    (h2 : l2.Pairwise (fun x y => x < y)) (h : ∀ x, x ∈ l1 ↔ x ∈ l2) : l1 = l2 := by
  have n1 : l1.Nodup := h1.imp (fun hxy => Nat.ne_of_lt hxy)
  have n2 : l2.Nodup := h2.imp (fun hxy => Nat.ne_of_lt hxy)
  exact List.eq_of_perm_of_sorted ((List.perm_ext_iff_of_nodup n1 n2).mpr h) h1 h2

/-- C14, counterexample: the input `1.0 q1 1:1.0` and the input `1.0 q1 2:1.0`, which differ
only in the feature id that carries the value, yield identical datasets (one column that
holds the value): the original id of the column is not determined by the dataset. -/
theorem feature_ids_not_retained :
    dpset.new (-1) test_libc 1 (fun _ => 0) (some ["1.0 q1 1:1.0\n".toList]) =
      dpset.new (-1) test_libc 1 (fun _ => 0) (some ["1.0 q1 2:1.0\n".toList]) ∧
    ∃ ds, dpset.new (-1) test_libc 1 (fun _ => 0) (some ["1.0 q1 2:1.0\n".toList]) = .ok ds ∧
      ds.get_nfeatures = 1 ∧ ds.get_fvector 0 = some [some 10] :=
  ⟨rfl, _, rfl, rfl, rfl⟩

/-- C14, amended: the constructed dataset does not retain the mapping from a column index
to the original feature id. For every sequence of accepted lines (ids below 2^31, fewer than
2^32 lines, at least one observed id) the construction returns a dataset whose column `c`
holds the values of the `c`-th smallest observed id, and the sequence in which every id `i`
is replaced by `f i`, for an increasing `f`, yields the identical dataset: the ids are known
to the construction only (the array `usedfid`, deleted at its end), not to the dataset. -/
theorem dataset_forgets_feature_ids (undf : F) (NPROCESSORS : Nat) (recs : List (Rec F))
    (f : Nat → Nat) (hf : StrictMono f)
    (hvalid : ∀ r ∈ recs, r.Valid NPROCESSORS)
    (hvalid2 : ∀ r ∈ recs, (r.rename f).Valid NPROCESSORS)
    (hlen : recs.length < UINT_RANGE) (hobs : ∃ u, observed recs u) :
    ∃ (st st2 : Ingest F) (ds : dpset F) (usedfid : List Nat),
      Ingest.add_all undf (Ingest.init undf NPROCESSORS) recs = some st ∧
      Ingest.add_all undf (Ingest.init undf NPROCESSORS) (recs.map (Rec.rename f)) =
        some st2 ∧
      dpset.build undf st = some ds ∧ dpset.build undf st2 = some ds ∧
      usedfid.Sorted (fun x y => x < y) ∧ (∀ u, u ∈ usedfid ↔ observed recs u) ∧
      ds.features = usedfid.map (fun u =>
        (row_recs recs).map (fun r => some (supplied undf r.feats u))) := by
  obtain ⟨st, ds, usedfid, a1, ainv, a2, as, au, an, ad, af, ai, ao, al, ac⟩ :=
    dpset.build_spec undf NPROCESSORS recs hvalid hlen hobs
  have hvalid3 : ∀ r ∈ recs.map (Rec.rename f), r.Valid NPROCESSORS := by
    intro r hr
    obtain ⟨r0, hr0, rfl⟩ := List.mem_map.mp hr
    exact hvalid2 r0 hr0
  have hobs3 : ∃ u, observed (recs.map (Rec.rename f)) u := by
    obtain ⟨u, hu⟩ := hobs
    exact ⟨f u, (observed_rename f recs (f u)).mpr ⟨u, hu, rfl⟩⟩
  obtain ⟨st2, ds2, usedfid2, b1, binv, b2, bs, bu, bn, bd, bf, bi, bo, bl, bc⟩ :=
    dpset.build_spec undf NPROCESSORS (recs.map (Rec.rename f)) hvalid3
      (by rw [List.length_map]; exact hlen) hobs3
  have hkeys : (recs.map (Rec.rename f)).map (fun r => r.key) = recs.map (fun r => r.key) := by
    rw [List.map_map]; rfl
  have hused : usedfid2 = usedfid.map f := by
    apply sorted_ext bs
    · exact List.Pairwise.map f (fun a b hab => hf hab) as
    · intro x
      rw [bu, observed_rename, List.mem_map]
      constructor
      · rintro ⟨u, hu, rfl⟩; exact ⟨u, (au u).mpr hu, rfl⟩
      · rintro ⟨u, hu, rfl⟩; exact ⟨u, (au u).mp hu, rfl⟩
  have hoff : offsets_of (recs.map (Rec.rename f)) = offsets_of recs := by
    unfold offsets_of
    simp only [hkeys, group_recs_rename, List.length_map]
  have hsizes : ∀ k, (st2.rltrie.leaf k).size = (st.rltrie.leaf k).size := by
    intro k
    rw [binv.size_eq, ainv.size_eq, length_addrs, length_addrs, group_recs_rename,
      List.length_map]
  have hmax : ds2.maxrlsize = ds.maxrlsize := by
    rw [dpset.build_maxrlsize undf st2 ds2 b2, dpset.build_maxrlsize undf st ds a2]
    unfold trie.get_leaves
    rw [binv.keys_eq, ainv.keys_eq, hkeys]
    rw [prefix_sizes_congr _ _ _ 0 0 (fun k _ => hsizes k)]
  have hds : ds2 = ds := by
    cases ds
    cases ds2
    simp only at an ad af ai ao al ac bn bd bf bi bo bl bc hmax
    simp only [dpset.mk.injEq]
    refine ⟨?_, ?_, ?_, hmax, ?_, ?_, ?_, ?_⟩
    · rw [bn, an, hkeys]
    · rw [bd, ad, List.length_map]
    · rw [bf, af, hused, List.length_map]
    · rw [bo, ao, hoff]
    · rw [bl, al, row_recs_rename, List.map_map]; rfl
    · rw [bc, ac, hused, row_recs_rename, List.map_map]
      apply List.map_congr_left
      intro u _
      simp only [Function.comp, List.map_map]
      apply List.map_congr_left
      intro r _
      simp only [Function.comp, supplied_rename undf f hf.injective]
    · rw [bi, ai, hkeys]
  rw [hds] at b2
  exact ⟨st, st2, ds, usedfid, a1, b1, a2, b2, as, au, ac⟩

theorem scenario1_renamed_valid : ∀ r ∈ scenario1, (r.rename (fun i => i + 1)).Valid 2 := by
  intro r hr
  simp only [scenario1, List.mem_cons, List.mem_singleton, List.not_mem_nil, or_false] at hr
  rcases hr with rfl | rfl
  · exact ⟨by decide, by decide, by decide⟩
  · exact ⟨by decide, by decide, by decide⟩

theorem dataset_forgets_feature_ids_witness :
    ∃ (st st2 : Ingest Int) (ds : dpset Int) (usedfid : List Nat),
      Ingest.add_all (-1) (Ingest.init (-1) 2) scenario1 = some st ∧
      Ingest.add_all (-1) (Ingest.init (-1) 2)
        (scenario1.map (Rec.rename (fun i => i + 1))) = some st2 ∧
      dpset.build (-1) st = some ds ∧ dpset.build (-1) st2 = some ds ∧
      usedfid.Sorted (fun x y => x < y) ∧ (∀ u, u ∈ usedfid ↔ observed scenario1 u) ∧
      ds.features = usedfid.map (fun u =>
        (row_recs scenario1).map (fun r => some (supplied (-1) r.feats u))) :=
  dataset_forgets_feature_ids (-1) 2 scenario1 (fun i => i + 1)
    (fun _ _ h => Nat.succ_lt_succ h) scenario1_valid scenario1_renamed_valid (by decide)
    scenario1_observed

end retained_ids_claims

section group_content_lemmas
variable {F : Type}

theorem group_block (recs : List (Rec F)) (i : Nat) (k : List Char)
    (hk : (discovered (recs.map (fun r => r.key)))[i]? = some k) :
    ((row_recs recs).drop ((((discovered (recs.map (fun r => r.key))).take i).map
      (fun k => (group_recs recs k).length)).sum)).take (group_recs recs k).length =
      quicksort rec_gt (group_recs recs k) := by
  have hqlen : (fun k => (quicksort rec_gt (group_recs recs k)).length) =
      (fun k => (group_recs recs k).length) := by
    funext k
    exact (quicksort_perm rec_gt (group_recs recs k)).length_eq
  have := flatMap_block (fun k => quicksort rec_gt (group_recs recs k))
    (discovered (recs.map (fun r => r.key))) i k hk
  simp only [hqlen] at this
  rw [(quicksort_perm rec_gt (group_recs recs k)).length_eq] at this
  exact this

theorem dpset.group_content_spec (undf : F) (recs : List (Rec F)) (ds : dpset F)
    (usedfid : List Nat) (hlen : recs.length < UINT_RANGE)
    (hids : ds.rlids = discovered (recs.map (fun r => r.key)))
    (hoff : ds.rloffsets = offsets_of recs)
    (hlab : ds.labels = (row_recs recs).map (fun r => some r.label))
    (hcol : ds.features = usedfid.map (fun u =>
      (row_recs recs).map (fun r => some (supplied undf r.feats u))))
    (i : Nat) (k : List Char) (hk : ds.rlids[i]? = some k) :
    ds.group_content i = some
      ((quicksort rec_gt (group_recs recs k)).map (fun r => some r.label),
        usedfid.map (fun u =>
          (quicksort rec_gt (group_recs recs k)).map (fun r => some (supplied undf r.feats u)))) := by
  have hk2 : (discovered (recs.map (fun r => r.key)))[i]? = some k := by rw [← hids]; exact hk
  have hi : i < (discovered (recs.map (fun r => r.key))).length := by
    rcases Nat.lt_or_ge i (discovered (recs.map (fun r => r.key))).length with h | h
    · exact h
    · rw [List.getElem?_eq_none h] at hk2; cases hk2
  have hdl : (discovered (recs.map (fun r => r.key))).length ≤ recs.length := by
    have := length_discovered_le (recs.map (fun r => r.key))
    simpa using this
  have hmod : (i + 1) % UINT_RANGE = i + 1 := Nat.mod_eq_of_lt (by omega)
  have hlo := getElem?_offsets_of recs i (by omega)
  have hhi := getElem?_offsets_of recs (i + 1) (by omega)
  rw [sum_take_succ _ _ i k hk2] at hhi
  have hle : (((discovered (recs.map (fun r => r.key))).take i).map
      (fun k => (group_recs recs k).length)).sum + (group_recs recs k).length ≤ recs.length := by
    rw [← sum_take_succ _ _ i k hk2]
    have := sum_take_le (discovered (recs.map (fun r => r.key)))
      (fun k => (group_recs recs k).length) (i + 1)
    rw [sum_group_recs] at this
    exact this
  have hsize : ((((discovered (recs.map (fun r => r.key))).take i).map
      (fun k => (group_recs recs k).length)).sum + (group_recs recs k).length + UINT_RANGE -
      (((discovered (recs.map (fun r => r.key))).take i).map
        (fun k => (group_recs recs k).length)).sum) % UINT_RANGE =
      (group_recs recs k).length := by
    rw [show ∀ a b c : Nat, a + b + c - a = b + c by omega, Nat.add_mod_right]
    exact Nat.mod_eq_of_lt (by omega)
  have hblock := group_block recs i k hk2
  simp only [dpset.group_content, dpset.get_ranklist, hmod, hoff, hlo, hhi, hk, hsize, hlab,
    hcol, Option.some.injEq, Prod.mk.injEq]
  constructor
  · rw [← List.map_drop, ← List.map_take, hblock]
  · rw [List.map_map]
    apply List.map_congr_left
    intro u _
    simp only [Function.comp]
    rw [← List.map_drop, ← List.map_take, hblock]

theorem quicksort_perm_invariant (l1 l2 : List (Rec F)) (hp : l1.Perm l2)
    (hd : (l1.map (fun r => r.nline)).Nodup) :
    quicksort rec_gt l1 = quicksort rec_gt l2 := by
  have hgt : (rec_gt : Rec F → Rec F → Bool) =
      fun a b => decide ((fun r : Rec F => r.nline) a > (fun r : Rec F => r.nline) b) := rfl
  have hd2 : (l2.map (fun r => r.nline)).Nodup := (hp.map _).nodup_iff.mp hd
  have s1 := quicksort_strict (fun r : Rec F => r.nline) l1 hd
  have s2 := quicksort_strict (fun r : Rec F => r.nline) l2 hd2
  rw [← hgt] at s1 s2
  haveI : IsAntisymm (Rec F) (fun a b => a.nline < b.nline) :=
    ⟨fun a b h1 h2 => absurd h1 (Nat.lt_asymm h2)⟩
  exact List.eq_of_perm_of_sorted
    (((quicksort_perm rec_gt l1).trans hp).trans (quicksort_perm rec_gt l2).symm) s1 s2

theorem group_recs_perm (recs1 recs2 : List (Rec F)) (hp : recs1.Perm recs2) (k : List Char) :
    (group_recs recs1 k).Perm (group_recs recs2 k) :=
  ((List.reverse_perm _).trans (hp.filter _)).trans (List.reverse_perm _).symm

theorem group_recs_nodup (recs : List (Rec F)) (k : List Char)
    (hd : (recs.map (fun r => r.nline)).Nodup) :
    ((group_recs recs k).map (fun r => r.nline)).Nodup := by
  unfold group_recs
  rw [List.map_reverse, List.nodup_reverse]
  exact hd.sublist ((List.filter_sublist _).map _)

end group_content_lemmas

section push_order_claims
variable {F : Type}

theorem observed_perm (recs1 recs2 : List (Rec F)) (hp : recs1.Perm recs2) (u : Nat) :
    observed recs1 u ↔ observed recs2 u := by
  unfold observed
  constructor
  · rintro ⟨r, hr, h⟩; exact ⟨r, hp.mem_iff.mp hr, h⟩
  · rintro ⟨r, hr, h⟩; exact ⟨r, hp.mem_iff.mpr hr, h⟩

/-- C15: for every set of accepted lines with pairwise distinct line numbers (ids below
2^31, fewer than 2^32 lines, at least one observed feature id) and any two orders `recs1`,
`recs2` in which the workers push them, both constructions return a dataset; for every key
the restored member sequence of its group is the same list of records in both; and the
groups of one key have the same content in the two datasets: the same labels, in the same
order, and in every feature column the same values in the same order (the index of the group
may differ, since it follows the discovery order of the keys). -/
theorem group_content_push_order (undf : F) (NPROCESSORS : Nat) (recs1 recs2 : List (Rec F))
    (hperm : recs1.Perm recs2) (hvalid : ∀ r ∈ recs1, r.Valid NPROCESSORS)
    (hlen : recs1.length < UINT_RANGE) (hobs : ∃ u, observed recs1 u)
    (hdistinct : (recs1.map (fun r => r.nline)).Nodup) :
    ∃ (st1 st2 : Ingest F) (ds1 ds2 : dpset F),
      Ingest.add_all undf (Ingest.init undf NPROCESSORS) recs1 = some st1 ∧
      Ingest.add_all undf (Ingest.init undf NPROCESSORS) recs2 = some st2 ∧
      dpset.build undf st1 = some ds1 ∧ dpset.build undf st2 = some ds2 ∧
      (∀ k, quicksort rec_gt (group_recs recs1 k) = quicksort rec_gt (group_recs recs2 k)) ∧
      (∀ k, k ∈ ds1.rlids ↔ k ∈ ds2.rlids) ∧
      ∀ i1 i2 k, ds1.rlids[i1]? = some k → ds2.rlids[i2]? = some k →
        ∃ labels columns, ds1.group_content i1 = some (labels, columns) ∧
          ds2.group_content i2 = some (labels, columns) ∧
          labels = (quicksort rec_gt (group_recs recs1 k)).map (fun r => some r.label) ∧
          columns.length = ds1.get_nfeatures ∧ ds1.get_nfeatures = ds2.get_nfeatures := by
  obtain ⟨st1, ds1, usedfid1, a1, _, a2, as, au, _, _, af, ai, ao, al, ac⟩ :=
    dpset.build_spec undf NPROCESSORS recs1 hvalid hlen hobs
  have hobs2 : ∃ u, observed recs2 u := by
    obtain ⟨u, hu⟩ := hobs
    exact ⟨u, (observed_perm recs1 recs2 hperm u).mp hu⟩
  obtain ⟨st2, ds2, usedfid2, b1, _, b2, bs, bu, _, _, bf, bi, bo, bl, bc⟩ :=
    dpset.build_spec undf NPROCESSORS recs2 (fun r hr => hvalid r (hperm.mem_iff.mpr hr))
      (by rw [← hperm.length_eq]; exact hlen) hobs2
  have hused : usedfid2 = usedfid1 :=
    sorted_ext bs as (fun x => by rw [bu, au, observed_perm recs1 recs2 hperm])
  have hqs : ∀ k, quicksort rec_gt (group_recs recs1 k) = quicksort rec_gt (group_recs recs2 k) :=
    fun k => quicksort_perm_invariant _ _ (group_recs_perm recs1 recs2 hperm k)
      (group_recs_nodup recs1 k hdistinct)
  refine ⟨st1, st2, ds1, ds2, a1, b1, a2, b2, hqs, ?_, ?_⟩
  · intro k
    rw [ai, bi, mem_discovered, mem_discovered, List.mem_map, List.mem_map]
    constructor
    · rintro ⟨r, hr, h⟩; exact ⟨r, hperm.mem_iff.mp hr, h⟩
    · rintro ⟨r, hr, h⟩; exact ⟨r, hperm.mem_iff.mpr hr, h⟩
  · intro i1 i2 k h1 h2
    have c1 := dpset.group_content_spec undf recs1 ds1 usedfid1 hlen ai ao al ac i1 k h1
    have c2 := dpset.group_content_spec undf recs2 ds2 usedfid2
      (by rw [← hperm.length_eq]; exact hlen) bi bo bl bc i2 k h2
    rw [hused, ← hqs k] at c2
    refine ⟨_, _, c1, c2, rfl, ?_, ?_⟩
    · rw [List.length_map, dpset.get_nfeatures, af]
    · rw [dpset.get_nfeatures, dpset.get_nfeatures, af, bf, hused]

theorem group_content_push_order_witness :
    ∃ (st1 st2 : Ingest Int) (ds1 ds2 : dpset Int),
      Ingest.add_all (-1) (Ingest.init (-1) 2) scenario1 = some st1 ∧
      Ingest.add_all (-1) (Ingest.init (-1) 2) scenario1.reverse = some st2 ∧
      dpset.build (-1) st1 = some ds1 ∧ dpset.build (-1) st2 = some ds2 ∧
      (∀ k, quicksort rec_gt (group_recs scenario1 k) =
        quicksort rec_gt (group_recs scenario1.reverse k)) ∧
      (∀ k, k ∈ ds1.rlids ↔ k ∈ ds2.rlids) ∧
      ∀ i1 i2 k, ds1.rlids[i1]? = some k → ds2.rlids[i2]? = some k →
        ∃ labels columns, ds1.group_content i1 = some (labels, columns) ∧
          ds2.group_content i2 = some (labels, columns) ∧
          labels = (quicksort rec_gt (group_recs scenario1 k)).map (fun r => some r.label) ∧
          columns.length = ds1.get_nfeatures ∧ ds1.get_nfeatures = ds2.get_nfeatures :=
  group_content_push_order (-1) 2 scenario1 scenario1.reverse (List.reverse_perm _).symm
    scenario1_valid (by decide) scenario1_observed (by decide)

end push_order_claims

section ranking_claims
variable {F : Type}

theorem idxnanfloat_radixsort_spec (fk : FloatKey F) (vals : List F) :
    ∃ sorted m, idxnanfloat_radixsort fk (vals.map some) vals.length =
        some (sorted, vals.length) ∧
      sorted.Perm (List.range vals.length) ∧
      (∀ j ∈ sorted.take m, ∃ x, vals[j]? = some x ∧ fk.isundf x = false) ∧
      (∀ j ∈ sorted.drop m, ∃ x, vals[j]? = some x ∧ fk.isundf x = true) ∧
      (sorted.take m).Pairwise (fun a b =>
        ∀ x y, vals[a]? = some x → vals[b]? = some y → fk.key x ≤ fk.key y) := by
  have hall : (List.range vals.length).all (fun i =>
      match (vals.map some)[i]? with
      | some (some _) => true
      | _ => false) = true := by
    rw [List.all_eq_true]
    intro i hi
    rw [List.mem_range] at hi
    simp [List.getElem?_eq_getElem hi]
  let missing : Nat → Bool := fun i =>
    match (vals.map some)[i]? with
    | some (some x) => fk.isundf x
    | _ => false
  let key : Nat → Nat := fun i =>
    match (vals.map some)[i]? with
    | some (some x) => fk.key x
    | _ => 0
  have hmiss : ∀ j x, vals[j]? = some x → missing j = fk.isundf x := by
    intro j x h
    simp [missing, h]
  have hkey : ∀ j x, vals[j]? = some x → key j = fk.key x := by
    intro j x h
    simp [key, h]
  haveI : IsTotal Nat (fun a b => key a ≤ key b) := ⟨fun a b => Nat.le_total _ _⟩
  haveI : IsTrans Nat (fun a b => key a ≤ key b) := ⟨fun a b c h1 h2 => Nat.le_trans h1 h2⟩
  have hperm := List.perm_insertionSort (fun a b => key a ≤ key b)
    ((List.range vals.length).filter (fun i => !missing i))
  have hsorted := List.sorted_insertionSort (fun a b => key a ≤ key b)
    ((List.range vals.length).filter (fun i => !missing i))
  refine ⟨((List.range vals.length).filter (fun i => !missing i)).insertionSort
      (fun a b => key a ≤ key b) ++ (List.range vals.length).filter missing,
    (((List.range vals.length).filter (fun i => !missing i)).insertionSort
      (fun a b => key a ≤ key b)).length, ?_, ?_, ?_, ?_, ?_⟩
  · unfold idxnanfloat_radixsort
    rw [if_pos hall]
  · refine (List.Perm.append hperm (List.Perm.refl _)).trans ?_
    exact List.perm_append_comm.trans (List.filter_append_perm missing _)
  · rw [List.take_left']
    · intro j hj
      have hj2 := (List.mem_filter.mp (hperm.mem_iff.mp hj))
      have hlt : j < vals.length := List.mem_range.mp hj2.1
      refine ⟨vals[j], List.getElem?_eq_getElem hlt, ?_⟩
      rw [← hmiss j _ (List.getElem?_eq_getElem hlt)]
      simpa using hj2.2
    · rfl
  · rw [List.drop_left']
    · intro j hj
      have hj2 := List.mem_filter.mp hj
      have hlt : j < vals.length := List.mem_range.mp hj2.1
      refine ⟨vals[j], List.getElem?_eq_getElem hlt, ?_⟩
      rw [← hmiss j _ (List.getElem?_eq_getElem hlt)]
      exact hj2.2
    · rfl
  · rw [List.take_left']
    · refine List.Pairwise.imp ?_ hsorted
      intro a b hab x y hx hy
      rw [← hkey a x hx, ← hkey b y hy]
      exact hab
    · rfl

/-- C16: for every sequence of accepted lines (ids below 2^31, fewer than 2^32 lines, at
least one observed feature id) the construction returns a dataset such that for every column
index `i` below the feature count, `sort_dpbyfeature(i)` returns a count equal to the
record count and an index array that is a permutation of the row indices
`0 .. ndps-1`; read through the array, column `i` gives first the values that are not
missing, in ascending order of their keys, and then, together at the end, all the missing
values. -/
theorem sort_dpbyfeature_ranks (undf : F) (fk : FloatKey F) (NPROCESSORS : Nat)
    (recs : List (Rec F)) (hvalid : ∀ r ∈ recs, r.Valid NPROCESSORS)
    (hlen : recs.length < UINT_RANGE) (hobs : ∃ u, observed recs u) :
    ∃ (st : Ingest F) (ds : dpset F),
      Ingest.add_all undf (Ingest.init undf NPROCESSORS) recs = some st ∧
      dpset.build undf st = some ds ∧
      ∀ i, i < ds.get_nfeatures →
        ∃ (vals : List F) (sorted : List Nat) (m : Nat),
          ds.get_fvector i = some (vals.map some) ∧ vals.length = ds.get_ndatapoints ∧
          ds.sort_dpbyfeature fk i = some (sorted, ds.get_ndatapoints) ∧
          sorted.Perm (List.range ds.get_ndatapoints) ∧
          (∀ j ∈ sorted.take m, ∃ x, vals[j]? = some x ∧ fk.isundf x = false) ∧
          (∀ j ∈ sorted.drop m, ∃ x, vals[j]? = some x ∧ fk.isundf x = true) ∧
          (sorted.take m).Pairwise (fun a b =>
            ∀ x y, vals[a]? = some x → vals[b]? = some y → fk.key x ≤ fk.key y) := by
  obtain ⟨st, ds, usedfid, e1, _, e2, _, _, _, hn, hf, _, _, _, hc⟩ :=
    dpset.build_spec undf NPROCESSORS recs hvalid hlen hobs
  refine ⟨st, ds, e1, e2, ?_⟩
  intro i hi
  rw [dpset.get_nfeatures, hf] at hi
  have hcol : ds.features[i]? =
      some (((row_recs recs).map (fun r => supplied undf r.feats usedfid[i])).map some) := by
    rw [hc, List.getElem?_map, List.getElem?_eq_getElem hi, List.map_map]
    rfl
  have hvl : ((row_recs recs).map (fun r => supplied undf r.feats usedfid[i])).length =
      ds.ndps := by
    rw [List.length_map, length_row_recs, hn]
  obtain ⟨sorted, m, s1, s2, s3, s4, s5⟩ := idxnanfloat_radixsort_spec fk
    ((row_recs recs).map (fun r => supplied undf r.feats usedfid[i]))
  rw [hvl] at s1 s2
  refine ⟨_, sorted, m, hcol, hvl, ?_, s2, s3, s4, s5⟩
  simp only [dpset.sort_dpbyfeature, hcol, dpset.get_ndatapoints]
  exact s1

theorem sort_dpbyfeature_ranks_witness :
    ∃ (st : Ingest Int) (ds : dpset Int),
      Ingest.add_all (-1) (Ingest.init (-1) 2) scenario1 = some st ∧
      dpset.build (-1) st = some ds ∧
      ∀ i, i < ds.get_nfeatures →
        ∃ (vals : List Int) (sorted : List Nat) (m : Nat),
          ds.get_fvector i = some (vals.map some) ∧ vals.length = ds.get_ndatapoints ∧
          ds.sort_dpbyfeature test_key i = some (sorted, ds.get_ndatapoints) ∧
          sorted.Perm (List.range ds.get_ndatapoints) ∧
          (∀ j ∈ sorted.take m, ∃ x, vals[j]? = some x ∧ test_key.isundf x = false) ∧
          (∀ j ∈ sorted.drop m, ∃ x, vals[j]? = some x ∧ test_key.isundf x = true) ∧
          (sorted.take m).Pairwise (fun a b =>
            ∀ x y, vals[a]? = some x → vals[b]? = some y → test_key.key x ≤ test_key.key y) :=
  sort_dpbyfeature_ranks (-1) test_key 2 scenario1 scenario1_valid (by decide) scenario1_observed

end ranking_claims

section refinement_claims

/-- C17: `listqsort` is total on finite list segments and equals the reference quicksort
with the head as pivot. For every segment `[begin, end)` with the nodes `L` (none of them
`end`) and every fuel above the length, `listqsort` returns, and the nodes linked from the
new `begin` up to `end` are exactly the list `quicksort gt L` (any list of nodes that the
result links from `begin` to `end` is that list). The reference satisfies
`sort [] = []` and
`sort (p :: rest) = sort [x in rest | not (x > p)] ++ [p] ++ sort [x in rest | x > p]`,
where both partitions are sublists of `rest` (they keep its relative order); in particular
every element of `rest` that is not greater than the pivot, so every element that ties with
it, is placed before the pivot. -/
theorem listqsort_refines_quicksort (gt : Nat → Nat → Bool) (next : Nat → Ptr)
    (begin_ end_ : Ptr) (L : List Nat) (hseg : Seg next begin_ L end_)
    (hend : ∀ a ∈ L, some a ≠ end_) (fuel : Nat) (hfuel : L.length < fuel) :
    (∃ next1 begin1, listqsort gt fuel next begin_ end_ = some (next1, begin1) ∧
      Seg next1 begin1 (quicksort gt L) end_ ∧
      ∀ L1, Seg next1 begin1 L1 end_ → (∀ a ∈ L1, some a ≠ end_) → L1 = quicksort gt L) ∧
    quicksort gt [] = [] ∧
    (∀ (p : Nat) (rest : List Nat), quicksort gt (p :: rest) =
      quicksort gt (rest.filter (fun x => !gt x p)) ++ [p] ++
        quicksort gt (rest.filter (fun x => gt x p))) ∧
    (∀ (p : Nat) (rest : List Nat), (rest.filter (fun x => !gt x p)).Sublist rest ∧
      (rest.filter (fun x => gt x p)).Sublist rest) ∧
    (∀ (p : Nat) (rest : List Nat) (x : Nat), x ∈ rest → gt x p = false →
      ∃ l1 l2, quicksort gt (p :: rest) = l1 ++ p :: l2 ∧ x ∈ l1 ∧
        ∀ y ∈ l2, gt y p = true) := by
  refine ⟨?_, rfl, ?_, fun p rest => ⟨List.filter_sublist _, List.filter_sublist _⟩, ?_⟩
  · obtain ⟨next1, begin1, e, hs, _⟩ := listqsort_spec gt fuel L next begin_ end_ hseg
      (Seg.nodup hseg hend) hend hfuel
    refine ⟨next1, begin1, e, hs, ?_⟩
    intro L1 h1 hn1
    refine Seg.unique h1 hs hn1 ?_
    intro a ha
    exact hend a ((quicksort_perm gt L).mem_iff.mp ha)
  · intro p rest
    rw [quicksort_cons, List.append_assoc]
    rfl
  · intro p rest x hx hg
    refine ⟨quicksort gt (rest.filter (fun x => !gt x p)),
      quicksort gt (rest.filter (fun x => gt x p)), quicksort_cons gt p rest, ?_, ?_⟩
    · apply (quicksort_perm gt _).mem_iff.mpr
      exact List.mem_filter.mpr ⟨hx, by simp [hg]⟩
    · intro y hy
      exact (List.mem_filter.mp ((quicksort_perm gt _).mem_iff.mp hy)).2

theorem listqsort_refines_quicksort_witness :
    (∃ next1 begin1,
      listqsort (fun a b => decide (a > b)) 4
        (fun a => if a = 3 then some 1 else if a = 1 then some 2 else none) (some 3) none =
          some (next1, begin1) ∧
      Seg next1 begin1 (quicksort (fun a b => decide (a > b)) [3, 1, 2]) none ∧
      ∀ L1, Seg next1 begin1 L1 none → (∀ a ∈ L1, some a ≠ none) →
        L1 = quicksort (fun a b => decide (a > b)) [3, 1, 2]) ∧
    quicksort (fun a b => decide (a > b)) [3, 1, 2] = [1, 2, 3] :=
  ⟨(listqsort_refines_quicksort (fun a b => decide (a > b))
    (fun a => if a = 3 then some 1 else if a = 1 then some 2 else none) (some 3) none
    [3, 1, 2] (by decide) (by decide) 4 (by decide)).1, by decide⟩

end refinement_claims

section compaction_claims
variable {F : Type}

theorem compact_freed :
    ∀ (us : List Nat) (i j : Nat) (c c1 : Columns F), i ≤ j →
      us.Pairwise (fun x y => x < y) → (∀ u ∈ us, j ≤ u ∧ u < c.features.length) →
      c.features.length < UINT_RANGE → compact us i j c = some c1 →
      c1.freed = c.freed ++ gaps j us := by
  intro us
  induction us with
  | nil =>
    intro i j c c1 _ _ _ _ h
    simp only [compact, Option.some.injEq] at h
    subst h
    simp [gaps]
  | cons u us ih =>
    intro i j c c1 hij hs hb hU h
    obtain ⟨hju, hul⟩ := hb u (by simp)
    obtain ⟨hlt, hs2⟩ := List.pairwise_cons.mp hs
    have hskip := skip_unused_spec (F := F) u (u - j) j (c.features.length + 1) c (by omega)
      (by omega) hul hU
    obtain ⟨col, hcol⟩ : ∃ col, c.features[u]? = some col :=
      ⟨_, List.getElem?_eq_getElem hul⟩
    have hi : i < c.features.length := by omega
    have hmod : (u + 1) % UINT_RANGE = u + 1 := Nat.mod_eq_of_lt (by omega)
    simp only [compact, hskip, hcol, if_pos hi, hmod] at h
    have := ih (i + 1) (u + 1)
      { features := c.features.set i col, freed := c.freed ++ List.range' j (u - j) } c1
      (by omega) hs2
      (by
        intro v hv
        have := hlt v hv
        have := (hb v (by simp [hv])).2
        simp only [List.length_set]
        omega)
      (by simpa using hU) h
    rw [this]
    simp [gaps, List.append_assoc]

theorem gaps_perm :
    ∀ (us : List Nat) (j e : Nat), us.Pairwise (fun x y => x < y) → (∀ u ∈ us, j ≤ u) →
      (us.getLast?.map (fun l => l + 1)).getD j = e →
      (us ++ gaps j us).Perm (List.range' j (e - j)) := by
  intro us
  induction us with
  | nil =>
    intro j e _ _ he
    simp only [List.getLast?_nil, Option.map_none', Option.getD_none] at he
    subst he
    simp [gaps]
  | cons u us ih =>
    intro j e hs hb he
    obtain ⟨hlt, hs2⟩ := List.pairwise_cons.mp hs
    have hju : j ≤ u := hb u (by simp)
    have he2 : (us.getLast?.map (fun l => l + 1)).getD (u + 1) = e := by
      cases us with
      | nil => simpa using he
      | cons v vs =>
        rw [List.getLast?_cons_cons] at he
        cases hl : (v :: vs).getLast? with
        | none => simp at hl
        | some l => rw [hl] at he; simpa using he
    have hue : u + 1 ≤ e := by
      cases us with
      | nil => simp at he2; omega
      | cons v vs =>
        cases hl : (v :: vs).getLast? with
        | none => simp at hl
        | some l =>
          rw [hl] at he2
          have hmem : l ∈ v :: vs := List.mem_of_getLast?_eq_some hl
          have := hlt l hmem
          simp at he2
          omega
    have ih2 := ih (u + 1) e hs2 (fun v hv => hlt v hv) he2
    have hsplit : List.range' j (e - j) =
        List.range' j (u - j) ++ u :: List.range' (u + 1) (e - (u + 1)) := by
      have h1 : e - j = (1 + (e - (u + 1))) + (u - j) := by omega
      have h2 := List.range'_append_1 j (u - j) (1 + (e - (u + 1)))
      rw [h1, ← h2, show j + (u - j) = u by omega,
        show 1 + (e - (u + 1)) = (e - (u + 1)) + 1 by omega, List.range'_succ]
    rw [hsplit]
    show (u :: (us ++ gaps j (u :: us))).Perm _
    simp only [gaps]
    refine List.Perm.trans ?_ List.perm_middle.symm
    refine List.Perm.cons u ?_
    refine List.Perm.trans ?_ (List.Perm.append_left _ ih2)
    rw [← List.append_assoc, ← List.append_assoc]
    exact List.Perm.append_right _ List.perm_append_comm

end compaction_claims

section compaction_claims
variable {F : Type}

/-- C18: for a non-empty, strictly ascending array `usedfid` of ids below 2^32-1, the width
before compaction is the largest used id plus one; on a matrix of that many columns the
compaction loop returns (it terminates and indexes no column outside `[0, width)`); the
column moved to index `t` is the column that was at index `usedfid[t]` before the loop, so
that no kept column is overwritten before it is moved; and the kept indices together with
the freed ones are a permutation of `0 .. width-1`, every index being consumed exactly once:
it is freed, once, exactly when it is not a used id. -/
theorem compaction_consumes_columns (usedfid : List Nat) (hne : usedfid ≠ [])
    (hs : usedfid.Pairwise (fun x y => x < y)) (hU : ∀ u ∈ usedfid, u + 1 < UINT_RANGE)
    (cols : List (Buf F)) (width : Nat) (hw : width_before_compaction usedfid = some width)
    (hcols : cols.length = width) :
    ∃ (last : Nat) (c : Columns F), usedfid.getLast? = some last ∧ width = last + 1 ∧
      compact usedfid 0 0 { features := cols, freed := [] } = some c ∧
      c.features.length = width ∧
      (∀ (t u : Nat), usedfid[t]? = some u → c.features[t]? = cols[u]?) ∧
      (usedfid ++ c.freed).Perm (List.range width) ∧
      (∀ j, j ∈ c.freed ↔ j < width ∧ j ∉ usedfid) ∧ c.freed.Nodup := by
  obtain ⟨last, hlast⟩ : ∃ last, usedfid.getLast? = some last := by
    cases h : usedfid.getLast? with
    | none => exact absurd (List.getLast?_eq_none_iff.mp h) hne
    | some l => exact ⟨l, rfl⟩
  have hlmem : last ∈ usedfid := List.mem_of_getLast?_eq_some hlast
  have hlenpos : 0 < usedfid.length := List.length_pos.mpr hne
  have hlenle : usedfid.length ≤ UINT_RANGE :=
    length_le_of_sorted_lt hs (fun x hx => by have := hU x hx; omega)
  have hidx : (usedfid.length + UINT_RANGE - 1) % UINT_RANGE = usedfid.length - 1 := by
    rw [show usedfid.length + UINT_RANGE - 1 = usedfid.length - 1 + UINT_RANGE by omega,
      Nat.add_mod_right]
    exact Nat.mod_eq_of_lt (by omega)
  have hmod : (last + 1) % UINT_RANGE = last + 1 := Nat.mod_eq_of_lt (hU last hlmem)
  have hwidth : width = last + 1 := by
    unfold width_before_compaction at hw
    rw [hidx, ← List.getLast?_eq_getElem?, hlast] at hw
    simp only [hmod, Option.some.injEq] at hw
    exact hw.symm
  have hle : ∀ u ∈ usedfid, u ≤ last := by
    obtain ⟨init, hinit⟩ := List.getLast?_eq_some_iff.mp hlast
    intro u hu
    rw [hinit] at hs hu
    rcases List.mem_append.mp hu with h | h
    · exact Nat.le_of_lt ((List.pairwise_append.mp hs).2.2 u h last (by simp))
    · have : u = last := by simpa using h
      omega
  have hb : ∀ u ∈ usedfid, 0 ≤ u ∧
      u < (({ features := cols, freed := [] } : Columns F)).features.length := by
    intro u hu
    have := hle u hu
    show 0 ≤ u ∧ u < cols.length
    omega
  have hlt : (({ features := cols, freed := [] } : Columns F)).features.length < UINT_RANGE := by
    show cols.length < UINT_RANGE
    have := hU last hlmem
    omega
  obtain ⟨c, e1, l1, _, p2⟩ := compact_spec usedfid 0 0
    ({ features := cols, freed := [] } : Columns F) (le_refl _) hs hb hlt
  have hfreed := compact_freed usedfid 0 0 _ c (le_refl _) hs hb hlt e1
  have hperm : (usedfid ++ c.freed).Perm (List.range width) := by
    have := gaps_perm usedfid 0 (last + 1) hs (fun _ _ => Nat.zero_le _) (by simp [hlast])
    rw [hfreed, hwidth, List.range_eq_range']
    simpa using this
  have hnd : (usedfid ++ c.freed).Nodup := hperm.nodup_iff.mpr (List.nodup_range width)
  refine ⟨last, c, hlast, hwidth, e1, by rw [l1]; exact hcols, ?_, hperm, ?_,
    (List.nodup_append.mp hnd).2.1⟩
  · intro t u ht
    have := p2 t u ht
    simpa using this
  · intro j
    constructor
    · intro hj
      refine ⟨List.mem_range.mp (hperm.mem_iff.mp (List.mem_append_right _ hj)), ?_⟩
      intro hju
      exact (List.nodup_append.mp hnd).2.2 hju hj
    · rintro ⟨hj, hn⟩
      rcases List.mem_append.mp (hperm.mem_iff.mpr (List.mem_range.mpr hj)) with h | h
      · exact absurd h hn
      · exact h

theorem compaction_consumes_columns_witness :
    ∃ (last : Nat) (c : Columns Int), [2, 5].getLast? = some last ∧ 6 = last + 1 ∧
      compact [2, 5] 0 0 { features := six_columns, freed := [] } = some c ∧
      c.features.length = 6 ∧
      (∀ (t u : Nat), [2, 5][t]? = some u → c.features[t]? = six_columns[u]?) ∧
      ([2, 5] ++ c.freed).Perm (List.range 6) ∧
      (∀ j, j ∈ c.freed ↔ j < 6 ∧ j ∉ [2, 5]) ∧ c.freed.Nodup :=
  compaction_consumes_columns [2, 5] (by decide) (by decide) (by decide) six_columns 6
    (by rfl) (by rfl)

end compaction_claims

section row_fill_claims
variable {F : Type}

theorem fill_rows_size (undf : F) (nf hi : Nat) :
    ∀ (k j : Nat) (l : dplist) (s : Fill F) (l2 : dplist) (s2 : Fill F),
      fill_rows undf nf hi k j l s = some (l2, s2) →
      l2.get_size = l.get_size ∧ l2.get_rid = l.get_rid := by
  intro k
  induction k with
  | zero =>
    intro j l s l2 s2 h
    simp only [fill_rows] at h
    split at h
    · cases h
    · cases h; exact ⟨rfl, rfl⟩
  | succ k ih =>
    intro j l s l2 s2 h
    simp only [fill_rows] at h
    split at h
    · split at h
      · cases h
      · split at h
        · cases h
        · split at h
          · split at h
            · cases h
            · rename_i l3 hpop
              obtain ⟨h1, h2⟩ := ih _ _ _ _ _ h
              unfold dplist.pop at hpop
              split at hpop
              · cases hpop
              · cases hpop
                exact ⟨h1, h2⟩
          · cases h
    · cases h; exact ⟨rfl, rfl⟩

theorem group_addrs_map (recs : List (Rec F)) (nl : Nat → Nat)
    (hnl : ∀ a r, recs[a]? = some r → nl a = r.nline) (k : List Char) :
    (quicksort (fun a b => decide (nl a > nl b)) (addrs recs k)).map (fun a => recs[a]?) =
      (quicksort rec_gt (group_recs recs k)).map some := by
  rw [quicksort_map (fun a => recs[a]?) (fun a b => decide (nl a > nl b)) opt_gt, addrs_map,
    ← quicksort_map some rec_gt opt_gt]
  · intro a _ b _; rfl
  · intro a ha b hb
    obtain ⟨ra, ea, _⟩ := key_of_mem_addrs ha
    obtain ⟨rb, eb, _⟩ := key_of_mem_addrs hb
    simp only [opt_gt, ea, eb, hnl a ra ea, hnl b rb eb]

/-- C19: for every sequence of accepted lines (ids below 2^31) and every key `k`, the list
of the group after the reading loop has a stored size equal to the number of records pushed
with `k`; `sort_bynline` returns; and the row-fill loop over `[lo, lo+size)` (room in the
arrays, upper end below 2^32) returns after exactly `size` steps, each a `front()` that is
not NULL followed by a `pop()` (a `pop()` returns only on a list whose `front()` is not
NULL): step `t` consumes the `t`-th record of the restored order, the quicksort of the group
by line number, and writes its label and its resized features at row `lo+t`, so that every
record of the group is consumed exactly once; when the loop ends the list is empty
(`front()` is NULL) and its stored size is unchanged, still the number of pushes, since
`pop()` never changes it; rows outside `[lo, lo+size)` are untouched. -/
theorem row_fill_drains_group (undf : F) (NPROCESSORS : Nat) (recs : List (Rec F))
    (hvalid : ∀ r ∈ recs, r.Valid NPROCESSORS)
    (nf : Nat) (k : List Char) (lo : Nat) (tmp : Buf (Buf F)) (labels : Buf F)
    (htmp : lo + (group_recs recs k).length ≤ tmp.length)
    (hlab : lo + (group_recs recs k).length ≤ labels.length)
    (hU : lo + (group_recs recs k).length < UINT_RANGE) :
    ∃ (st : Ingest F) (h1 : Heap F) (l1 l2 : dplist) (s2 : Fill F),
      Ingest.add_all undf (Ingest.init undf NPROCESSORS) recs = some st ∧
      (st.rltrie.leaf k).get_size = (group_recs recs k).length ∧
      (st.rltrie.leaf k).sort_bynline (st.nalloc + 1) st.heap = some (h1, l1) ∧
      l1.get_size = (group_recs recs k).length ∧
      fill_rows undf nf (lo + l1.get_size) (lo + l1.get_size - lo) lo l1
        { heap := h1, tmpfeatures := tmp, labels := labels } = some (l2, s2) ∧
      l2.front = none ∧ l2.get_size = (group_recs recs k).length ∧
      (∀ (l0 l3 : dplist) (h0 : Heap F), l0.pop h0 = some l3 →
        l0.front ≠ none ∧ l3.get_size = l0.get_size) ∧
      (quicksort rec_gt (group_recs recs k)).length = (group_recs recs k).length ∧
      (quicksort rec_gt (group_recs recs k)).Perm (group_recs recs k) ∧
      (∀ t r, (quicksort rec_gt (group_recs recs k))[t]? = some r →
        s2.labels[lo + t]? = some (some r.label) ∧
        ∃ b, s2.tmpfeatures[lo + t]? = some (some b) ∧ IsRow undf nf r b) ∧
      (∀ j, (j < lo ∨ lo + (group_recs recs k).length ≤ j) →
        s2.labels[j]? = labels[j]? ∧ s2.tmpfeatures[j]? = tmp[j]?) := by
  obtain ⟨st, est, hst⟩ := Ingest.add_all_spec undf NPROCESSORS recs
    (Ingest.init undf NPROCESSORS) [] (Ingest.init_inv undf NPROCESSORS) hvalid
  simp only [List.nil_append] at hst
  have hgl : (group_recs recs k).length ≤ recs.length := length_group_recs_le recs k
  have hal : (addrs recs k).length = (group_recs recs k).length := length_addrs recs k
  have hsize : (st.rltrie.leaf k).get_size = (group_recs recs k).length := by
    rw [dplist.get_size, hst.size_eq, hal]
    exact Nat.mod_eq_of_lt (by omega)
  have hnl : ∀ a r, recs[a]? = some r → (st.heap a).nline = r.nline :=
    fun a r h => (hst.holds a r h).nline_eq
  have hsegk := hst.seg k
  have hend : ∀ a ∈ addrs recs k, some a ≠ (none : Ptr) := fun _ _ => by simp
  obtain ⟨next1, head1, e1, hS1, _⟩ := listqsort_spec (dp_gt st.heap) (st.nalloc + 1)
    (addrs recs k) st.heap.nexts (st.rltrie.leaf k).head none hsegk (Seg.nodup hsegk hend) hend
    (by rw [hst.nalloc_eq]; omega)
  have hperm := quicksort_perm (dp_gt st.heap) (addrs recs k)
  have esort : (st.rltrie.leaf k).sort_bynline (st.nalloc + 1) st.heap =
      some (fun a => { st.heap a with next := next1 a },
        { st.rltrie.leaf k with head := head1 }) := by
    simp only [dplist.sort_bynline, e1]
  have hsize1 : (({ st.rltrie.leaf k with head := head1 } : dplist)).get_size =
      (group_recs recs k).length := hsize
  obtain ⟨l2, s2, e2, g1, _, _, _, _, g6, g7⟩ := fill_rows_spec undf nf
    (lo + (group_recs recs k).length) (rec_at undf recs)
    (quicksort (dp_gt st.heap) (addrs recs k)) lo
    { st.rltrie.leaf k with head := head1 }
    { heap := fun a => { st.heap a with next := next1 a }, tmpfeatures := tmp, labels := labels }
    hS1
    (by
      intro a ha
      have hlt := lt_of_mem_addrs (hperm.mem_iff.mp ha)
      have hr : recs[a]? = some recs[a] := List.getElem?_eq_getElem hlt
      rw [rec_at_eq hr]
      exact Holds.of_fields (hst.holds a _ hr) rfl rfl rfl rfl rfl)
    (by rw [hperm.length_eq, hal]) htmp hlab hU
  obtain ⟨z1, _⟩ := fill_rows_size undf nf _ _ _ _ _ _ _ e2
  have hmap := group_addrs_map recs (fun a => (st.heap a).nline) hnl k
  refine ⟨st, _, _, l2, s2, est, hsize, esort, hsize1, ?_, g1, by rw [z1]; exact hsize1, ?_,
    (quicksort_perm rec_gt _).length_eq, quicksort_perm rec_gt _, ?_, ?_⟩
  · rw [hsize1]; exact e2
  · intro l0 l3 h0 hpop
    unfold dplist.pop at hpop
    split at hpop
    · cases hpop
    · rename_i a ha
      cases hpop
      exact ⟨by rw [dplist.front, ha]; simp, rfl⟩
  · intro t r ht
    have h1 : ((quicksort (dp_gt st.heap) (addrs recs k)).map (fun a => recs[a]?))[t]? =
        some (some r) := by
      have : dp_gt st.heap = fun a b => decide ((st.heap a).nline > (st.heap b).nline) := rfl
      rw [this, hmap, List.getElem?_map, ht]; rfl
    rw [List.getElem?_map] at h1
    cases ha : (quicksort (dp_gt st.heap) (addrs recs k))[t]? with
    | none => rw [ha] at h1; cases h1
    | some a =>
      rw [ha] at h1
      have hr : recs[a]? = some r := by simpa using h1
      have := g6 t a ha
      rw [rec_at_eq hr] at this
      exact this
  · intro j hj
    exact g7 j hj

theorem row_fill_drains_group_witness :
    ∃ (st : Ingest Int) (h1 : Heap Int) (l1 l2 : dplist) (s2 : Fill Int),
      Ingest.add_all (-1) (Ingest.init (-1) 2) scenario1 = some st ∧
      (st.rltrie.leaf ['q', '1']).get_size = (group_recs scenario1 ['q', '1']).length ∧
      (st.rltrie.leaf ['q', '1']).sort_bynline (st.nalloc + 1) st.heap = some (h1, l1) ∧
      l1.get_size = (group_recs scenario1 ['q', '1']).length ∧
      fill_rows (-1) 4 (0 + l1.get_size) (0 + l1.get_size - 0) 0 l1
        { heap := h1, tmpfeatures := malloc 2, labels := malloc 2 } = some (l2, s2) ∧
      l2.front = none ∧ l2.get_size = (group_recs scenario1 ['q', '1']).length ∧
      (∀ (l0 l3 : dplist) (h0 : Heap Int), l0.pop h0 = some l3 →
        l0.front ≠ none ∧ l3.get_size = l0.get_size) ∧
      (quicksort rec_gt (group_recs scenario1 ['q', '1'])).length =
        (group_recs scenario1 ['q', '1']).length ∧
      (quicksort rec_gt (group_recs scenario1 ['q', '1'])).Perm
        (group_recs scenario1 ['q', '1']) ∧
      (∀ t r, (quicksort rec_gt (group_recs scenario1 ['q', '1']))[t]? = some r →
        s2.labels[0 + t]? = some (some r.label) ∧
        ∃ b, s2.tmpfeatures[0 + t]? = some (some b) ∧ IsRow (-1) 4 r b) ∧
      (∀ j, (j < 0 ∨ 0 + (group_recs scenario1 ['q', '1']).length ≤ j) →
        s2.labels[j]? = (malloc 2 : Buf Int)[j]? ∧
          s2.tmpfeatures[j]? = (malloc 2 : Buf (Buf Int))[j]?) :=
  row_fill_drains_group (-1) 2 scenario1 scenario1_valid 4 ['q', '1'] 0 (malloc 2) (malloc 2)
    (by decide) (by decide) (by decide)

end row_fill_claims

section invariant_claims
variable {F : Type}

theorem dp.Wf.to_inv {undf : F} {vals : List F} {d : dp F} (h : dp.Wf undf vals d) : d.Inv :=
  ⟨h.maxfid_lt, h.maxsize_le, h.maxsize_lt, fun j hj => by
    obtain ⟨x, hx, _⟩ := h.slots j hj
    exact ⟨x, hx⟩⟩

/-- C20: the invariant of a record (maximum id below the tracked capacity, tracked capacity
at least 1 and at most the length of the buffer, every slot from 0 to the maximum id holding
an inserted value or the missing marker) holds after the constructor for every `initsize`,
0 included; for every id below 2^31 `ins_feature` returns and preserves it, the inserted
value joining the inserted values; and for every size `get_resizedfeatures` returns and
preserves it. -/
theorem record_invariant (undf : F) :
    (∀ (label : F) (nline initsize : Nat), initsize < UINT_RANGE →
      dp.Wf undf [] (dp.new undf label nline initsize)) ∧
    (∀ (d : dp F) (vals : List F) (fid : Nat) (fval : F), dp.Wf undf vals d → fid < 2 ^ 31 →
      ∃ d1, d.ins_feature undf fid fval = some d1 ∧ dp.Wf undf (fval :: vals) d1) ∧
    (∀ (d : dp F) (vals : List F) (size : Nat), dp.Wf undf vals d →
      ∃ d1 b, d.get_resizedfeatures undf size = some (d1, b) ∧ dp.Wf undf vals d1) := by
  refine ⟨?_, ?_, ?_⟩
  · intro label nline initsize h
    have hi := dp.new_inv undf label nline initsize h
    refine ⟨hi.maxfid_lt, ?_, hi.maxsize_le, hi.maxsize_lt, ?_⟩
    · have := hi.maxfid_lt; omega
    · intro j hj
      have hj0 : j = 0 := by
        have : (dp.new undf label nline initsize).maxfid = 0 := rfl
        omega
      subst hj0
      refine ⟨undf, ?_, Or.inl rfl⟩
      have hlen := hi.maxsize_le
      have hpos := hi.maxfid_lt
      show ((malloc _).set 0 (some undf))[0]? = _
      rw [List.getElem?_set, if_pos rfl, if_pos]
      · have : (dp.new undf label nline initsize).features.length =
            (malloc (F := F) (if initsize > 0 then initsize else 1)).length := by
          simp [dp.new]
        rw [← this]
        omega
  · intro d vals fid fval hd hfid
    obtain ⟨d1, e1, hinv, hmax, _, _, _, hw, hfill, hkeep⟩ :=
      dp.ins_feature_spec undf d hd.to_inv fid hfid fval
    refine ⟨d1, e1, hinv.maxfid_lt, ?_, hinv.maxsize_le, hinv.maxsize_lt, ?_⟩
    · have := hinv.maxfid_lt; omega
    · intro j hj
      rw [hmax] at hj
      by_cases hjf : j = fid
      · rw [hjf]
        exact ⟨fval, hw, Or.inr (by simp)⟩
      · by_cases hjm : j ≤ d.maxfid
        · obtain ⟨x, hx, hx2⟩ := hd.slots j hjm
          refine ⟨x, by rw [hkeep j hjm hjf, hx], ?_⟩
          rcases hx2 with h | h
          · exact Or.inl h
          · exact Or.inr (by simp [h])
        · refine ⟨undf, hfill j (by omega) ?_, Or.inl rfl⟩
          omega
  · intro d vals size hd
    obtain ⟨d1, b, e1, hinv, hb, hmax, _, _, _, _, _, hkeep, _⟩ :=
      dp.get_resizedfeatures_spec undf d hd.to_inv size
    refine ⟨d1, b, e1, hinv.maxfid_lt, ?_, hinv.maxsize_le, hinv.maxsize_lt, ?_⟩
    · have := hinv.maxfid_lt; omega
    · intro j hj
      rw [hmax] at hj
      obtain ⟨x, hx, hx2⟩ := hd.slots j hj
      exact ⟨x, by rw [hb, hkeep j hj, hx], hx2⟩

theorem record_invariant_witness :
    dp.Wf (-1 : Int) [] (dp.new (-1) 10 1 0) ∧
    (∃ d1, (dp.new (-1 : Int) 10 1 0).ins_feature (-1) 3 5 = some d1 ∧
      dp.Wf (-1) [5] d1) ∧
    ∃ d1 b, (dp.new (-1 : Int) 10 1 0).get_resizedfeatures (-1) 4 = some (d1, b) ∧
      dp.Wf (-1) [] d1 :=
  ⟨(record_invariant (-1 : Int)).1 10 1 0 (by decide),
    (record_invariant (-1 : Int)).2.1 _ [] 3 5
      ((record_invariant (-1 : Int)).1 10 1 0 (by decide)) (by decide),
    (record_invariant (-1 : Int)).2.2 _ [] 4 ((record_invariant (-1 : Int)).1 10 1 0 (by decide))⟩

end invariant_claims

end QuickRank
